import Mathlib

/-!
Verification of the graph container and A* search engine of this repository
(`graph.hpp`, `astar.hpp`, `priority_queue.hpp`).

The embedding is shallow: the generic `State` type is a Lean type parameter,
the generic `Transition` cost type is instantiated with `ℤ` (a numeric-like
type with addition, a strict total order and a zero, as the spec requires —
this keeps every definition computable by kernel reduction), and the 64-bit
vertex identity is modelled as `ℤ`.  Stateful search code
becomes explicit state passing over a `LoopSt` record; the main loop is
driven by fuel together with a strictly decreasing measure which shows the
fuel never runs out.

The implementations of the `Graph` mutators (`AddVertex`, `AddEdge`,
`RemoveVertex`, ...) live in `graph/details/graph_impl.hpp`, which is not
part of the available sources (only the declarations and their doc comments
in `graph.hpp` are).  Those operations are therefore modelled from the
spec, as marked in their doc comments.  The A* engine itself
(`AStar::Search`, `AStar::IncSearch`, `AStar::PerformSearch`,
`AStar::ReconstructPath`) and the lazy-deletion priority queue are
translated directly from `astar.hpp` / `priority_queue.hpp`.
-/

namespace AStarSearch

/-- One directed edge record as stored in its source vertex:
destination vertex id and transition cost.  (`Graph::Edge` in `graph.hpp`
stores `src_`, `dst_`, `cost_`; the source is implicit in the owning
vertex's `edges_to_` list, so we keep only `(dst, cost)`.) -/
abbrev EdgeTo : Type := ℤ × ℤ

/-- Shallow embedding of `Graph::Vertex` (`graph.hpp`): the stored state
`state_`, the derived identity `vertex_id_`, the outgoing edge list
`edges_to_` and the predecessor id list `vertices_from_`.  The per-search
scratch fields (`is_checked_`, `is_in_openlist_`, `g_cost_`, `h_cost_`,
`f_cost_`, `search_parent_`) are kept separately in `Scratch` so a search
run is explicit state passing. -/
structure SVertex (S : Type) where
  state : S
  vid : ℤ
  edgesTo : List EdgeTo
  predsFrom : List ℤ
deriving DecidableEq

/-- Shallow embedding of `Graph`: the collection of vertices keyed by
identity (`vertex_map_`).  We keep them in insertion order; lookups go
through `findVertex`, mirroring `vertex_map_.find`. -/
structure SGraph (S : Type) where
  vertices : List (SVertex S)
deriving DecidableEq

/-- The empty graph (default-constructed `Graph`). -/
def SGraph.empty (S : Type) : SGraph S := ⟨[]⟩

/-- `Graph::FindVertex(int64_t vertex_id)`: lookup by identity,
returning the "end" sentinel (`none`) when absent. -/
def SGraph.findVertex {S : Type} (g : SGraph S) (i : ℤ) : Option (SVertex S) :=
  g.vertices.find? (fun vx => vx.vid == i)

/-- The identities present in the graph. -/
def SGraph.idsOf {S : Type} (g : SGraph S) : List ℤ :=
  g.vertices.map (fun vx => vx.vid)

/-- `Graph::GetGraphVertexNumber()`. -/
def SGraph.vertexCount {S : Type} (g : SGraph S) : Nat :=
  g.vertices.length

/-- Modelled from the spec (implementation `graph_impl.hpp` is not in the
sources): `Graph::AddVertex(State state)` is get-or-create keyed on
`identity(state)`.  If a vertex with that identity exists it is returned
unchanged (the stored state is NOT overwritten); otherwise a new vertex is
allocated.  Returns the resulting graph and the identity of the vertex. -/
def addVertex {S : Type} (idx : S → ℤ) (g : SGraph S) (s : S) : SGraph S × ℤ :=
  match g.findVertex (idx s) with
  | some _ => (g, idx s)
  | none => (⟨g.vertices ++ [⟨s, idx s, [], []⟩]⟩, idx s)

/-- Modelled from the spec: the edge-list upsert used by `AddEdge` —
"inserts a new Edge or updates the cost of the existing edge for that
ordered pair" (no parallel edges are ever created). -/
def upsertEdge (es : List EdgeTo) (d : ℤ) (c : ℤ) : List EdgeTo :=
  if es.any (fun e => e.1 == d) then
    es.map (fun e => if e.1 == d then (d, c) else e)
  else es ++ [(d, c)]

/-- Modelled from the spec: maintenance of the destination's predecessor
list `vertices_from_` by `AddEdge` (the invariant "for every edge (u → v),
v's predecessor list contains u"). -/
def addPred (ps : List ℤ) (i : ℤ) : List ℤ :=
  if i ∈ ps then ps else ps ++ [i]

/-- Modelled from the spec (implementation `graph_impl.hpp` is not in the
sources): `Graph::AddEdge(sstate, dstate, trans)` ensures both endpoint
vertices exist (creating them if necessary), then inserts a new edge or
updates the cost of the existing edge for the ordered pair, and updates
the destination's predecessor list. -/
def addEdge {S : Type} (idx : S → ℤ) (g : SGraph S) (a b : S) (c : ℤ) : SGraph S :=
  let g1 := (addVertex idx g a).1
  let g2 := (addVertex idx g1 b).1
  let ia := idx a
  let ib := idx b
  ⟨g2.vertices.map (fun vx =>
     let vx1 := if vx.vid == ia then { vx with edgesTo := upsertEdge vx.edgesTo ib c } else vx
     if vx1.vid == ib then { vx1 with predsFrom := addPred vx1.predsFrom ia } else vx1)⟩

/-- Modelled from the spec (implementation `graph_impl.hpp` is not in the
sources): `Graph::RemoveVertex(int64_t state_id)` removes the vertex if
present, releases its owned edges, and scrubs every reference to it from
the edge and predecessor lists of the other vertices; no-op if absent. -/
def removeVertex {S : Type} (g : SGraph S) (i : ℤ) : SGraph S :=
  if (g.findVertex i).isSome then
    ⟨(g.vertices.filter (fun vx => vx.vid != i)).map (fun vx =>
       { vx with edgesTo := vx.edgesTo.filter (fun e => e.1 != i),
                 predsFrom := vx.predsFrom.filter (fun p => p != i) })⟩
  else g

/-- `Graph::GetAllEdges()`: every directed edge currently stored, as
(source id, destination id, cost) triples, in vertex iteration order. -/
def getAllEdges {S : Type} (g : SGraph S) : List (ℤ × ℤ × ℤ) :=
  (g.vertices.map (fun vx => vx.edgesTo.map (fun e => (vx.vid, e.1, e.2)))).flatten

/-- `Graph::GetGraphEdgeNumber()`. -/
def edgeCount {S : Type} (g : SGraph S) : Nat :=
  (getAllEdges g).length

/-- The state stored at identity `i` (junk default when absent; every use
is guarded by presence). -/
def stateAt {S : Type} [Inhabited S] (g : SGraph S) (i : ℤ) : S :=
  ((g.findVertex i).map (fun vx => vx.state)).getD default

/-- The outgoing edge list of the vertex with identity `i` (empty when
absent). -/
def adjOf {S : Type} (g : SGraph S) (i : ℤ) : List EdgeTo :=
  ((g.findVertex i).map (fun vx => vx.edgesTo)).getD []

/-- Structural well-formedness every C++ `Graph` enjoys by construction:
identities are unique (the vertex map is keyed on them) and every edge
destination is a vertex present in the graph (edges store iterators into
the vertex map). -/
def WellFormed {S : Type} (g : SGraph S) : Prop :=
  g.idsOf.Nodup ∧ ∀ vx ∈ g.vertices, ∀ e ∈ vx.edgesTo, e.1 ∈ g.idsOf

/-! ### The per-search scratch fields and the open list -/

/-- The per-search scratch fields of a vertex (`is_checked_`,
`is_in_openlist_`, `g_cost_`, `h_cost_`, `f_cost_`, `search_parent_`).
`Graph::ResetGraphVertices` (modelled from the spec, implementation not in
the sources) clears the flags and cost fields, which is `Scratch.init`. -/
structure Scratch where
  isChecked : Bool
  isInOpen : Bool
  gCost : ℤ
  hCost : ℤ
  fCost : ℤ
  parent : Option ℤ
deriving DecidableEq

/-- Scratch state after reset / of a freshly created vertex. -/
def Scratch.init : Scratch :=
  { isChecked := false, isInOpen := false, gCost := 0, hCost := 0, fCost := 0, parent := none }

/-- `PriorityQueue::get()` (`priority_queue.hpp`): remove and return a
minimum-priority element.  The underlying binary heap's order among equal
priorities is unspecified; we fix the deterministic rule "earliest
inserted among the minima", which is one admissible refinement. -/
def pqPop : List (ℤ × ℤ) → Option ((ℤ × ℤ) × List (ℤ × ℤ))
  | [] => none
  | e :: es =>
    match pqPop es with
    | none => some (e, [])
    | some (m, rest) => if e.1 ≤ m.1 then some (e, es) else some (m, e :: rest)

/-- The mutable state of one search run: the scratch fields of every
vertex (total over identities; untouched identities hold `Scratch.init`)
and the open list (`PriorityQueue::put` appends, pops go through
`pqPop`). -/
structure LoopSt where
  scr : ℤ → Scratch
  openList : List (ℤ × ℤ)

/-- Relaxation of one outgoing edge of the vertex `u` being expanded
(the body of the `for (auto &edge : current_vertex->edges_to_)` loop in
`AStar::PerformSearch` / `AStar::IncSearch`): skip checked successors,
otherwise update parent, g/h/f costs and push when the successor is not in
the open list or the new cost improves on its current g. -/
def relax (hq : ℤ → ℤ) (u : ℤ) (st : LoopSt) (e : EdgeTo) : LoopSt :=
  let v := e.1
  let sv := st.scr v
  if sv.isChecked then st
  else
    let newCost := (st.scr u).gCost + e.2
    if sv.isInOpen = false ∨ newCost < sv.gCost then
      let sv1 : Scratch :=
        { isChecked := sv.isChecked, isInOpen := true, gCost := newCost,
          hCost := hq v, fCost := newCost + hq v, parent := some u }
      { scr := Function.update st.scr v sv1,
        openList := st.openList ++ [(newCost + hq v, v)] }
    else st

/-- Expansion of the vertex `u` just popped from the open list: mark it
out of the open list and checked, then relax all its outgoing edges in
order. -/
def expand (adj : List EdgeTo) (hq : ℤ → ℤ) (u : ℤ) (st : LoopSt) : LoopSt :=
  let su := st.scr u
  let st1 : LoopSt :=
    { scr := Function.update st.scr u
        { su with isInOpen := false, isChecked := true },
      openList := st.openList }
  adj.foldl (relax hq u) st1

/-- Result of one iteration of the search main loop. -/
inductive StepRes (σ : Type) : Type where
  | found : σ → StepRes σ
  | exhausted : σ → StepRes σ
  | cont : σ → StepRes σ

/-- One iteration of the `while (!openlist.empty() && found_path != true)`
loop of `AStar::PerformSearch`: pop the minimum entry, skip it if already
checked (lazy deletion), terminate successfully if it is the goal,
otherwise expand it. -/
def batchStep {S : Type} (G : SGraph S) (hq : ℤ → ℤ) (goalId : ℤ) (st : LoopSt) :
    StepRes LoopSt :=
  match pqPop st.openList with
  | none => StepRes.exhausted st
  | some (e, rest) =>
    let u := e.2
    let st1 : LoopSt := { st with openList := rest }
    if (st1.scr u).isChecked then StepRes.cont st1
    else if u = goalId then StepRes.found st1
    else StepRes.cont (expand (adjOf G u) hq u st1)

/-- The search main loop of `AStar::PerformSearch`, driven by fuel.  The
`none` result (fuel exhausted) is shown unreachable for the fuel
`performSearch` supplies.  The `Bool` is `found_path`. -/
def runBatch {S : Type} (G : SGraph S) (hq : ℤ → ℤ) (goalId : ℤ) :
    Nat → LoopSt → Option (Bool × LoopSt)
  | 0, _ => none
  | n + 1, st =>
    match batchStep G hq goalId st with
    | StepRes.found st1 => some (true, st1)
    | StepRes.exhausted st1 => some (false, st1)
    | StepRes.cont st1 => runBatch G hq goalId n st1

/-- The loop-seeding of `AStar::PerformSearch`: scratch fields reset
(`ResetAllVertices` ran just before), start at `g = 0`, in the open list
with priority `0`. -/
def initLoopSt (startId : ℤ) : LoopSt :=
  { scr := Function.update (fun _ => Scratch.init) startId
      { Scratch.init with isInOpen := true, gCost := 0 },
    openList := [((0 : ℤ), startId)] }

/-- `AStar::ReconstructPath`: walk `search_parent_` back-pointers from the
goal until the start, collecting vertices goal-first (the caller reverses).
Fuel-driven; a missing parent on a non-start vertex (impossible in a found
search, where the chain invariant holds) just stops. -/
def reconChain (scr : ℤ → Scratch) (startId : ℤ) : Nat → ℤ → List ℤ
  | 0, v => [v]
  | n + 1, v =>
    if v = startId then [v]
    else v :: reconChain scr startId n (((scr v).parent).getD v)

/-- `AStar::PerformSearch` for a graph whose start and goal vertices were
resolved: run the main loop, then reconstruct the path (as identities)
when found, together with the final scratch state.  The fuel
`edgeCount G + 2` strictly dominates the loop measure, so the loop always
terminates within it. -/
def performSearch {S : Type} (G : SGraph S) (hq : ℤ → ℤ) (startId goalId : ℤ) :
    List ℤ × (ℤ → Scratch) :=
  match runBatch G hq goalId (edgeCount G + 2) (initLoopSt startId) with
  | some (true, st) =>
    ((reconChain st.scr startId (G.vertexCount) goalId).reverse, st.scr)
  | some (false, st) => ([], st.scr)
  | none => ([], fun _ => Scratch.init)

/-- `AStar::Search(graph, start, goal, calc_heuristic)` (the
vertex-identifier overload): reset all scratch fields, resolve start and
goal, return the empty path when either is absent, otherwise perform the
search and map the resulting vertices to their states.  Also returns the
final scratch state (the per-vertex g/h/f costs readable after the run). -/
def searchFull {S : Type} [Inhabited S] (G : SGraph S) (hfun : S → S → ℤ)
    (startId goalId : ℤ) : List S × (ℤ → Scratch) :=
  if (G.findVertex startId).isSome && (G.findVertex goalId).isSome then
    let hq : ℤ → ℤ := fun i => hfun (stateAt G i) (stateAt G goalId)
    let r := performSearch G hq startId goalId
    (r.1.map (stateAt G), r.2)
  else ([], fun _ => Scratch.init)

/-- The path returned by `AStar::Search`. -/
def search {S : Type} [Inhabited S] (G : SGraph S) (hfun : S → S → ℤ)
    (startId goalId : ℤ) : List S :=
  (searchFull G hfun startId goalId).1

/-! ### Incremental mode (`AStar::IncSearch`) -/

/-- The mutable state of one incremental search run: the lazily built
graph together with the scratch fields and the open list. -/
structure IncSt (S : Type) where
  graph : SGraph S
  scr : ℤ → Scratch
  openList : List (ℤ × ℤ)

/-- One iteration of the `IncSearch` main loop: pop, skip checked entries,
terminate on the goal, otherwise call the neighbour function on the popped
vertex's state, insert the returned edges via `AddEdge` (materialising any
new vertices), and expand over the updated edge list using the heuristic
towards the goal vertex's stored state. -/
def incStep {S : Type} [Inhabited S] (idx : S → ℤ) (nf : S → List (S × ℤ))
    (hfun : S → S → ℤ) (goalId : ℤ) (st : IncSt S) : StepRes (IncSt S) :=
  match pqPop st.openList with
  | none => StepRes.exhausted st
  | some (e, rest) =>
    let u := e.2
    let st1 : IncSt S := { st with openList := rest }
    if (st1.scr u).isChecked then StepRes.cont st1
    else if u = goalId then StepRes.found st1
    else
      let us := stateAt st1.graph u
      let G2 := (nf us).foldl (fun g p => addEdge idx g us p.1 p.2) st1.graph
      let hq : ℤ → ℤ := fun i => hfun (stateAt G2 i) (stateAt G2 goalId)
      let ls := expand (adjOf G2 u) hq u { scr := st1.scr, openList := st1.openList }
      StepRes.cont { graph := G2, scr := ls.scr, openList := ls.openList }

/-- The `IncSearch` main loop, driven by fuel.  (In C++ the loop may run
unboundedly on an infinite implicit graph with an unreachable goal; the
claims about `IncSearch` are stated fuel-uniformly or for sufficient
fuel.) -/
def runInc {S : Type} [Inhabited S] (idx : S → ℤ) (nf : S → List (S × ℤ))
    (hfun : S → S → ℤ) (goalId : ℤ) :
    Nat → IncSt S → Option (Bool × IncSt S)
  | 0, _ => none
  | n + 1, st =>
    match incStep idx nf hfun goalId st with
    | StepRes.found st1 => some (true, st1)
    | StepRes.exhausted st1 => some (false, st1)
    | StepRes.cont st1 => runInc idx nf hfun goalId n st1

/-- `AStar::IncSearch(sstate, gstate, get_neighbours, calc_heuristic,
indexer)`: build a fresh graph containing only start and goal, seed the
open list with the start vertex at priority `0`, run the lazily expanding
main loop, and reconstruct the path of states on success. -/
def incSearch {S : Type} [Inhabited S] (idx : S → ℤ) (nf : S → List (S × ℤ))
    (hfun : S → S → ℤ) (sstate gstate : S) (fuel : Nat) : List S :=
  let p1 := addVertex idx (SGraph.empty S) sstate
  let p2 := addVertex idx p1.1 gstate
  let startId := p1.2
  let goalId := p2.2
  let st0 : IncSt S :=
    { graph := p2.1,
      scr := Function.update (fun _ => Scratch.init) startId
        { Scratch.init with isInOpen := true, gCost := 0 },
      openList := [((0 : ℤ), startId)] }
  match runInc idx nf hfun goalId fuel st0 with
  | some (true, st) =>
    ((reconChain st.scr startId (st.graph.vertexCount) goalId).reverse).map
      (stateAt st.graph)
  | _ => []

/-- The batch-mode graph equivalent to a neighbour function on a finite
universe of states: start and goal vertices first (as `IncSearch` creates
them), then, for each state of the universe, its vertex and the edges the
neighbour function describes, inserted via the same `AddVertex`/`AddEdge`
mutators. -/
def materialize {S : Type} (idx : S → ℤ) (nf : S → List (S × ℤ))
    (sstate gstate : S) (univ : List S) : SGraph S :=
  let g0 := (addVertex idx (SGraph.empty S) sstate).1
  let g1 := (addVertex idx g0 gstate).1
  univ.foldl
    (fun g s => (nf s).foldl (fun g2 p => addEdge idx g2 s p.1 p.2)
      ((addVertex idx g s).1)) g1

/-! ### Paths and reachability -/

/-- `EdgeIn G u v c`: the graph stores a directed edge from `u` to `v` of
cost `c`. -/
def EdgeIn {S : Type} (G : SGraph S) (u v : ℤ) (c : ℤ) : Prop :=
  ∃ vx ∈ G.vertices, vx.vid = u ∧ (v, c) ∈ vx.edgesTo

/-- `StepsOk G v l`: starting at vertex `v` (present in the graph), the
list `l` of (next vertex, edge cost) steps follows edges of `G`. -/
def StepsOk {S : Type} (G : SGraph S) : ℤ → List EdgeTo → Prop
  | v, [] => v ∈ G.idsOf
  | v, e :: rest => EdgeIn G v e.1 e.2 ∧ StepsOk G e.1 rest

/-- Endpoint of a step list starting at `v`. -/
def stepsEnd : ℤ → List EdgeTo → ℤ
  | v, [] => v
  | _, e :: rest => stepsEnd e.1 rest

/-- Total cost of a step list. -/
def stepsCost (l : List EdgeTo) : ℤ :=
  (l.map (fun e => e.2)).sum

/-- `v` is reachable from `u` in `G` (including trivially, when `u = v`
is present). -/
def ReachableG {S : Type} (G : SGraph S) (u v : ℤ) : Prop :=
  ∃ l, StepsOk G u l ∧ stepsEnd u l = v

/-! ### Lemmas about the priority queue -/

theorem pqPop_eq_none {l : List (ℤ × ℤ)} : pqPop l = none ↔ l = [] := by
  induction l with
  | nil => simp [pqPop]
  | cons e es ih =>
    simp only [pqPop]
    cases h : pqPop es with
    | none => simp
    | some m => obtain ⟨mm, mrest⟩ := m; dsimp only; split <;> simp

theorem pqPop_split {l : List (ℤ × ℤ)} {e : ℤ × ℤ} {rest : List (ℤ × ℤ)}
    (h : pqPop l = some (e, rest)) :
    ∃ l1 l2, l = l1 ++ e :: l2 ∧ rest = l1 ++ l2 := by
  induction l generalizing e rest with
  | nil => simp [pqPop] at h
  | cons a as ih =>
    simp only [pqPop] at h
    cases hp : pqPop as with
    | none =>
      rw [hp] at h
      dsimp only at h
      have has : as = [] := pqPop_eq_none.mp hp
      injection h with h1
      injection h1 with he hrest
      exact ⟨[], as, by simp [← he], by simp [← hrest, has]⟩
    | some m =>
      obtain ⟨mm, mrest⟩ := m
      rw [hp] at h
      dsimp only at h
      by_cases hle : a.1 ≤ mm.1
      · rw [if_pos hle] at h
        injection h with h1
        injection h1 with he hrest
        exact ⟨[], as, by simp [← he], by simp [← hrest]⟩
      · rw [if_neg hle] at h
        injection h with h1
        injection h1 with he hrest
        obtain ⟨l1, l2, hl, hr⟩ := ih hp
        refine ⟨a :: l1, l2, ?_, ?_⟩
        · simp [hl, ← he]
        · simp [← hrest, hr]

theorem pqPop_min {l : List (ℤ × ℤ)} {e : ℤ × ℤ} {rest : List (ℤ × ℤ)}
    (h : pqPop l = some (e, rest)) : ∀ x ∈ l, e.1 ≤ x.1 := by
  induction l generalizing e rest with
  | nil => simp [pqPop] at h
  | cons a as ih =>
    simp only [pqPop] at h
    cases hp : pqPop as with
    | none =>
      rw [hp] at h
      dsimp only at h
      have has : as = [] := pqPop_eq_none.mp hp
      injection h with h1
      injection h1 with he hrest
      subst has
      intro x hx
      simp at hx
      simp [hx, ← he]
    | some m =>
      obtain ⟨mm, mrest⟩ := m
      rw [hp] at h
      dsimp only at h
      have hmin := ih hp
      by_cases hle : a.1 ≤ mm.1
      · rw [if_pos hle] at h
        injection h with h1
        injection h1 with he hrest
        intro x hx
        rcases List.mem_cons.mp hx with hx | hx
        · simp [hx, ← he]
        · calc e.1 = a.1 := by rw [← he]
            _ ≤ mm.1 := hle
            _ ≤ x.1 := hmin x hx
      · rw [if_neg hle] at h
        injection h with h1
        injection h1 with he hrest
        intro x hx
        rcases List.mem_cons.mp hx with hx | hx
        · have : mm.1 ≤ a.1 := le_of_not_le hle
          rw [hx, ← he]; exact this
        · rw [← he]; exact hmin x hx

theorem pqPop_mem {l : List (ℤ × ℤ)} {e : ℤ × ℤ} {rest : List (ℤ × ℤ)}
    (h : pqPop l = some (e, rest)) : e ∈ l := by
  obtain ⟨l1, l2, hl, _⟩ := pqPop_split h
  rw [hl]; exact List.mem_append.mpr (Or.inr (List.mem_cons_self _ _))

theorem pqPop_rest_subset {l : List (ℤ × ℤ)} {e : ℤ × ℤ} {rest : List (ℤ × ℤ)}
    (h : pqPop l = some (e, rest)) : ∀ x ∈ rest, x ∈ l := by
  obtain ⟨l1, l2, hl, hr⟩ := pqPop_split h
  intro x hx
  rw [hl]
  rw [hr] at hx
  rcases List.mem_append.mp hx with hx | hx
  · exact List.mem_append.mpr (Or.inl hx)
  · exact List.mem_append.mpr (Or.inr (List.mem_cons_of_mem _ hx))

theorem pqPop_mem_cases {l : List (ℤ × ℤ)} {e : ℤ × ℤ} {rest : List (ℤ × ℤ)}
    (h : pqPop l = some (e, rest)) : ∀ x ∈ l, x = e ∨ x ∈ rest := by
  obtain ⟨l1, l2, hl, hr⟩ := pqPop_split h
  intro x hx
  rw [hl] at hx
  rcases List.mem_append.mp hx with hx | hx
  · exact Or.inr (by rw [hr]; exact List.mem_append.mpr (Or.inl hx))
  · rcases List.mem_cons.mp hx with hx | hx
    · exact Or.inl hx
    · exact Or.inr (by rw [hr]; exact List.mem_append.mpr (Or.inr hx))

theorem pqPop_length {l : List (ℤ × ℤ)} {e : ℤ × ℤ} {rest : List (ℤ × ℤ)}
    (h : pqPop l = some (e, rest)) : rest.length + 1 = l.length := by
  obtain ⟨l1, l2, hl, hr⟩ := pqPop_split h
  rw [hl, hr]; simp; omega

/-! ### Lemmas about vertex lookup -/

theorem findVertex_isSome_iff {S : Type} {g : SGraph S} {i : ℤ} :
    (g.findVertex i).isSome ↔ i ∈ g.idsOf := by
  simp only [SGraph.findVertex, SGraph.idsOf, List.find?_isSome, List.mem_map]
  constructor
  · rintro ⟨vx, hvx, hb⟩
    exact ⟨vx, hvx, by simpa using hb⟩
  · rintro ⟨vx, hvx, hb⟩
    exact ⟨vx, hvx, by simpa using hb⟩

theorem findVertex_some_facts {S : Type} {g : SGraph S} {i : ℤ} {vx : SVertex S}
    (h : g.findVertex i = some vx) : vx ∈ g.vertices ∧ vx.vid = i := by
  refine ⟨List.mem_of_find?_eq_some h, ?_⟩
  have := List.find?_some h
  simpa using this

theorem findVertex_of_mem {S : Type} {g : SGraph S} {vx : SVertex S}
    (hnd : g.idsOf.Nodup) (hvx : vx ∈ g.vertices) : g.findVertex vx.vid = some vx := by
  cases h : g.findVertex vx.vid with
  | none =>
    exfalso
    have : (g.findVertex vx.vid).isSome := by
      exact findVertex_isSome_iff.mpr (List.mem_map.mpr ⟨vx, hvx, rfl⟩)
    rw [h] at this; simp at this
  | some wx =>
    obtain ⟨hw, hwid⟩ := findVertex_some_facts h
    have : wx = vx := by
      have hinj := List.inj_on_of_nodup_map (f := fun v : SVertex S => v.vid) hnd
      exact hinj hw hvx (by rw [hwid])
    rw [this]

theorem edgeIn_mem_adjOf {S : Type} {G : SGraph S} {u v : ℤ} {c : ℤ}
    (hnd : G.idsOf.Nodup) (h : EdgeIn G u v c) : (v, c) ∈ adjOf G u := by
  obtain ⟨vx, hvx, hvid, hmem⟩ := h
  have hf : G.findVertex u = some vx := by
    rw [← hvid]; exact findVertex_of_mem hnd hvx
  simp [adjOf, hf, hmem]

theorem adjOf_edgeIn {S : Type} {G : SGraph S} {u v : ℤ} {c : ℤ}
    (h : (v, c) ∈ adjOf G u) : EdgeIn G u v c := by
  unfold adjOf at h
  cases hf : G.findVertex u with
  | none => rw [hf] at h; simp at h
  | some vx =>
    rw [hf] at h
    simp at h
    obtain ⟨hmem, hvid⟩ := findVertex_some_facts hf
    exact ⟨vx, hmem, hvid, h⟩

/-! ### Characterisation of `relax` and `expand` -/

/-- A vertex is reached in a search when it is in the open list or has
been expanded. -/
def Reached (scr : ℤ → Scratch) (v : ℤ) : Prop :=
  (scr v).isInOpen = true ∨ (scr v).isChecked = true

/-- The condition under which `relax` updates the successor: not checked,
and either not in the open list or strictly improved by the new cost. -/
def relaxCond (u : ℤ) (st : LoopSt) (e : EdgeTo) : Prop :=
  (st.scr e.1).isChecked = false ∧
    ((st.scr e.1).isInOpen = false ∨ (st.scr u).gCost + e.2 < (st.scr e.1).gCost)

/-- The scratch record written to a successor that gets relaxed. -/
def relaxedScr (hq : ℤ → ℤ) (u : ℤ) (st : LoopSt) (e : EdgeTo) : Scratch :=
  { isChecked := false, isInOpen := true, gCost := (st.scr u).gCost + e.2,
    hCost := hq e.1, fCost := (st.scr u).gCost + e.2 + hq e.1, parent := some u }

theorem relax_of_checked {hq : ℤ → ℤ} {u : ℤ} {st : LoopSt} {e : EdgeTo}
    (h : (st.scr e.1).isChecked = true) : relax hq u st e = st := by
  unfold relax
  simp [h]

theorem relax_of_stay {hq : ℤ → ℤ} {u : ℤ} {st : LoopSt} {e : EdgeTo}
    (h1 : (st.scr e.1).isChecked = false)
    (h2 : ¬((st.scr e.1).isInOpen = false ∨ (st.scr u).gCost + e.2 < (st.scr e.1).gCost)) :
    relax hq u st e = st := by
  unfold relax
  simp only [h1]
  rw [if_neg (by simp), if_neg h2]

theorem relax_of_go {hq : ℤ → ℤ} {u : ℤ} {st : LoopSt} {e : EdgeTo}
    (h1 : (st.scr e.1).isChecked = false)
    (h2 : (st.scr e.1).isInOpen = false ∨ (st.scr u).gCost + e.2 < (st.scr e.1).gCost) :
    relax hq u st e =
      { scr := Function.update st.scr e.1 (relaxedScr hq u st e),
        openList := st.openList ++ [((st.scr u).gCost + e.2 + hq e.1, e.1)] } := by
  unfold relax
  simp only [h1]
  rw [if_neg (by simp), if_pos h2]
  rfl

theorem relax_cases (hq : ℤ → ℤ) (u : ℤ) (st : LoopSt) (e : EdgeTo) :
    relax hq u st e = st ∨
      (relaxCond u st e ∧
        relax hq u st e =
          { scr := Function.update st.scr e.1 (relaxedScr hq u st e),
            openList := st.openList ++ [((st.scr u).gCost + e.2 + hq e.1, e.1)] }) := by
  by_cases h1 : (st.scr e.1).isChecked = true
  · exact Or.inl (relax_of_checked h1)
  · have h1f : (st.scr e.1).isChecked = false := by simpa using h1
    by_cases h2 : (st.scr e.1).isInOpen = false ∨ (st.scr u).gCost + e.2 < (st.scr e.1).gCost
    · exact Or.inr ⟨⟨h1f, h2⟩, relax_of_go h1f h2⟩
    · exact Or.inl (relax_of_stay h1f h2)

theorem relax_scr_ne {hq : ℤ → ℤ} {u : ℤ} {st : LoopSt} {e : EdgeTo} {w : ℤ}
    (h : w ≠ e.1) : ((relax hq u st e).scr w) = st.scr w := by
  rcases relax_cases hq u st e with hc | ⟨_, hc⟩
  · rw [hc]
  · rw [hc]; exact Function.update_noteq h _ _

theorem relax_isChecked (hq : ℤ → ℤ) (u : ℤ) (st : LoopSt) (e : EdgeTo) (w : ℤ) :
    ((relax hq u st e).scr w).isChecked = (st.scr w).isChecked := by
  rcases relax_cases hq u st e with hc | ⟨⟨h1, _⟩, hc⟩
  · rw [hc]
  · rw [hc]
    by_cases hw : w = e.1
    · subst hw; simp [relaxedScr, h1]
    · simp [Function.update_noteq hw]

theorem relax_scr_of_checked {hq : ℤ → ℤ} {u : ℤ} {st : LoopSt} {e : EdgeTo} {w : ℤ}
    (h : (st.scr w).isChecked = true) : ((relax hq u st e).scr w) = st.scr w := by
  by_cases hw : w = e.1
  · subst hw; rw [relax_of_checked h]
  · exact relax_scr_ne hw

theorem relax_reached_mono {hq : ℤ → ℤ} {u : ℤ} {st : LoopSt} {e : EdgeTo} {w : ℤ}
    (h : Reached st.scr w) : Reached (relax hq u st e).scr w := by
  rcases relax_cases hq u st e with hc | ⟨_, hc⟩
  · rw [hc]; exact h
  · rw [hc]
    by_cases hw : w = e.1
    · subst hw
      left
      simp [relaxedScr]
    · unfold Reached
      simp only [Function.update_noteq hw]
      exact h

theorem relax_g_mono {hq : ℤ → ℤ} {u : ℤ} {st : LoopSt} {e : EdgeTo} {w : ℤ}
    (h : Reached st.scr w) : ((relax hq u st e).scr w).gCost ≤ (st.scr w).gCost := by
  by_cases hw : w = e.1
  · subst hw
    rcases relax_cases hq u st e with hc | ⟨⟨h1, h2⟩, hc⟩
    · rw [hc]
    · rw [hc]
      simp only [Function.update_same, relaxedScr]
      rcases h2 with h2 | h2
      · rcases h with h | h
        · rw [h2] at h; exact absurd h (by simp)
        · rw [h1] at h; exact absurd h (by simp)
      · exact le_of_lt h2
  · rw [relax_scr_ne hw]

theorem relax_open_mono {hq : ℤ → ℤ} {u : ℤ} {st : LoopSt} {e : EdgeTo} {x : ℤ × ℤ}
    (h : x ∈ st.openList) : x ∈ (relax hq u st e).openList := by
  rcases relax_cases hq u st e with hc | ⟨_, hc⟩
  · rw [hc]; exact h
  · rw [hc]; exact List.mem_append.mpr (Or.inl h)

theorem relax_open_cases {hq : ℤ → ℤ} {u : ℤ} {st : LoopSt} {e : EdgeTo} {x : ℤ × ℤ}
    (h : x ∈ (relax hq u st e).openList) :
    x ∈ st.openList ∨
      (relaxCond u st e ∧ x = ((st.scr u).gCost + e.2 + hq e.1, e.1)) := by
  rcases relax_cases hq u st e with hc | ⟨hcond, hc⟩
  · rw [hc] at h; exact Or.inl h
  · rw [hc] at h
    rcases List.mem_append.mp h with h | h
    · exact Or.inl h
    · simp at h
      exact Or.inr ⟨hcond, h⟩

theorem foldRelax_scr_of_checked {hq : ℤ → ℤ} {u : ℤ} {w : ℤ} :
    ∀ (l : List EdgeTo) (st : LoopSt), (st.scr w).isChecked = true →
      ((l.foldl (relax hq u) st).scr w) = st.scr w := by
  intro l
  induction l with
  | nil => intro st h; rfl
  | cons e es ih =>
    intro st h
    simp only [List.foldl_cons]
    rw [ih (relax hq u st e) (by rw [relax_scr_of_checked h]; exact h)]
    exact relax_scr_of_checked h

theorem foldRelax_isChecked {hq : ℤ → ℤ} {u : ℤ} {w : ℤ} :
    ∀ (l : List EdgeTo) (st : LoopSt),
      ((l.foldl (relax hq u) st).scr w).isChecked = (st.scr w).isChecked := by
  intro l
  induction l with
  | nil => intro st; rfl
  | cons e es ih =>
    intro st
    simp only [List.foldl_cons]
    rw [ih (relax hq u st e), relax_isChecked]

theorem foldRelax_reached_mono {hq : ℤ → ℤ} {u : ℤ} {w : ℤ} :
    ∀ (l : List EdgeTo) (st : LoopSt), Reached st.scr w →
      Reached ((l.foldl (relax hq u) st).scr) w := by
  intro l
  induction l with
  | nil => intro st h; exact h
  | cons e es ih =>
    intro st h
    exact ih (relax hq u st e) (relax_reached_mono h)

theorem foldRelax_g_mono {hq : ℤ → ℤ} {u : ℤ} {w : ℤ} :
    ∀ (l : List EdgeTo) (st : LoopSt), Reached st.scr w →
      ((l.foldl (relax hq u) st).scr w).gCost ≤ (st.scr w).gCost := by
  intro l
  induction l with
  | nil => intro st h; exact le_refl _
  | cons e es ih =>
    intro st h
    calc ((es.foldl (relax hq u) (relax hq u st e)).scr w).gCost
        ≤ ((relax hq u st e).scr w).gCost := ih _ (relax_reached_mono h)
      _ ≤ (st.scr w).gCost := relax_g_mono h

theorem foldRelax_open_mono {hq : ℤ → ℤ} {u : ℤ} {x : ℤ × ℤ} :
    ∀ (l : List EdgeTo) (st : LoopSt), x ∈ st.openList →
      x ∈ (l.foldl (relax hq u) st).openList := by
  intro l
  induction l with
  | nil => intro st h; exact h
  | cons e es ih =>
    intro st h
    exact ih (relax hq u st e) (relax_open_mono h)

theorem foldRelax_open_len {hq : ℤ → ℤ} {u : ℤ} :
    ∀ (l : List EdgeTo) (st : LoopSt),
      (l.foldl (relax hq u) st).openList.length ≤ st.openList.length + l.length := by
  intro l
  induction l with
  | nil => intro st; simp
  | cons e es ih =>
    intro st
    simp only [List.foldl_cons, List.length_cons]
    have h1 : (relax hq u st e).openList.length ≤ st.openList.length + 1 := by
      rcases relax_cases hq u st e with hc | ⟨_, hc⟩
      · rw [hc]; omega
      · rw [hc]; simp
    calc (es.foldl (relax hq u) (relax hq u st e)).openList.length
        ≤ (relax hq u st e).openList.length + es.length := ih _
      _ ≤ st.openList.length + 1 + es.length := by omega
      _ = st.openList.length + (es.length + 1) := by omega

/-! ### Parent chains -/

/-- The invariant shape of the `search_parent_` back-pointer chain built
by relaxation: `p` lists the vertices from the start vertex to `v`,
consecutive pairs are graph edges whose costs telescope into the g-costs,
every parent is an expanded vertex, and the chain never repeats a
vertex. -/
inductive PChain {S : Type} (G : SGraph S) (startId : ℤ) (scr : ℤ → Scratch) :
    ℤ → List ℤ → Prop where
  | base (h0 : (scr startId).gCost = 0) (hp : (scr startId).parent = none)
      (hm : startId ∈ G.idsOf) : PChain G startId scr startId [startId]
  | step {u v : ℤ} {c : ℤ} {p : List ℤ} (hc : PChain G startId scr u p)
      (hu : (scr u).isChecked = true) (he : EdgeIn G u v c)
      (hpar : (scr v).parent = some u) (hg : (scr v).gCost = (scr u).gCost + c)
      (hnv : v ∉ p) : PChain G startId scr v (p ++ [v])

theorem PChain_head {S : Type} {G : SGraph S} {startId : ℤ} {scr : ℤ → Scratch}
    {v : ℤ} {p : List ℤ} (h : PChain G startId scr v p) :
    ∃ t, p = startId :: t := by
  induction h with
  | base h0 hp hm => exact ⟨[], rfl⟩
  | @step u v c p hc hu he hpar hg hnv ih =>
    obtain ⟨t, ht⟩ := ih
    exact ⟨t ++ [v], by rw [ht]; simp⟩

theorem PChain_mem_self {S : Type} {G : SGraph S} {startId : ℤ} {scr : ℤ → Scratch}
    {v : ℤ} {p : List ℤ} (h : PChain G startId scr v p) : v ∈ p := by
  induction h with
  | base h0 hp hm => exact List.mem_singleton.mpr rfl
  | step hc hu he hpar hg hnv ih => simp

theorem PChain_elem_cases {S : Type} {G : SGraph S} {startId : ℤ} {scr : ℤ → Scratch}
    {v : ℤ} {p : List ℤ} (h : PChain G startId scr v p) :
    ∀ z ∈ p, z = v ∨ (scr z).isChecked = true := by
  induction h with
  | base h0 hp hm => intro z hz; exact Or.inl (List.mem_singleton.mp hz)
  | @step u v c p hc hu he hpar hg hnv ih =>
    intro z hz
    rcases List.mem_append.mp hz with hz | hz
    · rcases ih z hz with hz2 | hz2
      · exact Or.inr (hz2 ▸ hu)
      · exact Or.inr hz2
    · exact Or.inl (List.mem_singleton.mp hz)

theorem PChain_nodup {S : Type} {G : SGraph S} {startId : ℤ} {scr : ℤ → Scratch}
    {v : ℤ} {p : List ℤ} (h : PChain G startId scr v p) : p.Nodup := by
  induction h with
  | base h0 hp hm => simp
  | step hc hu he hpar hg hnv ih =>
    rw [List.nodup_append]
    refine ⟨ih, List.nodup_singleton _, ?_⟩
    intro a ha hb
    rw [List.mem_singleton] at hb
    subst hb
    exact hnv ha

theorem PChain_subset_ids {S : Type} {G : SGraph S} {startId : ℤ} {scr : ℤ → Scratch}
    {v : ℤ} {p : List ℤ} (hcl : ∀ vx ∈ G.vertices, ∀ e ∈ vx.edgesTo, e.1 ∈ G.idsOf)
    (h : PChain G startId scr v p) : ∀ z ∈ p, z ∈ G.idsOf := by
  induction h with
  | base h0 hp hm => intro z hz; rw [List.mem_singleton.mp hz]; exact hm
  | @step u v c p hc hu he hpar hg hnv ih =>
    intro z hz
    rcases List.mem_append.mp hz with hz | hz
    · exact ih z hz
    · rw [List.mem_singleton.mp hz]
      obtain ⟨vx, hvx, _, hmem⟩ := he
      exact hcl vx hvx _ hmem

theorem PChain_preserve {S : Type} {G : SGraph S} {startId : ℤ}
    {scr scr2 : ℤ → Scratch} {v : ℤ} {p : List ℤ}
    (h : PChain G startId scr v p)
    (hs : ∀ z ∈ p, (scr2 z).gCost = (scr z).gCost ∧ (scr2 z).parent = (scr z).parent ∧
      ((scr z).isChecked = true → (scr2 z).isChecked = true)) :
    PChain G startId scr2 v p := by
  induction h with
  | base h0 hp hm =>
    obtain ⟨hg, hpp, _⟩ := hs startId (List.mem_singleton.mpr rfl)
    exact PChain.base (by rw [hg, h0]) (by rw [hpp, hp]) hm
  | @step u v c p hc hu he hpar hg hnv ih =>
    have hu2 : u ∈ p := PChain_mem_self hc
    have hsu := hs u (List.mem_append.mpr (Or.inl hu2))
    have hsv := hs v (List.mem_append.mpr (Or.inr (List.mem_singleton.mpr rfl)))
    refine PChain.step (ih ?_) (hsu.2.2 hu) he (by rw [hsv.2.1, hpar])
      (by rw [hsv.1, hg, hsu.1]) hnv
    intro z hz
    exact hs z (List.mem_append.mpr (Or.inl hz))

/-! ### Lemmas about step lists -/

theorem StepsOk_mem {S : Type} {G : SGraph S} : ∀ {l : List EdgeTo} {v : ℤ},
    StepsOk G v l → v ∈ G.idsOf := by
  intro l v h
  cases l with
  | nil => exact h
  | cons e rest =>
    obtain ⟨⟨vx, hvx, hvid, _⟩, _⟩ := h
    exact List.mem_map.mpr ⟨vx, hvx, hvid⟩

theorem stepsEnd_append (v : ℤ) (l1 l2 : List EdgeTo) :
    stepsEnd v (l1 ++ l2) = stepsEnd (stepsEnd v l1) l2 := by
  induction l1 generalizing v with
  | nil => rfl
  | cons e rest ih => simp only [List.cons_append, stepsEnd]; exact ih e.1

theorem stepsCost_append (l1 l2 : List EdgeTo) :
    stepsCost (l1 ++ l2) = stepsCost l1 + stepsCost l2 := by
  simp [stepsCost]

theorem StepsOk_append {S : Type} {G : SGraph S} {l1 l2 : List EdgeTo} {v : ℤ}
    (h1 : StepsOk G v l1) (h2 : StepsOk G (stepsEnd v l1) l2) :
    StepsOk G v (l1 ++ l2) := by
  induction l1 generalizing v with
  | nil => exact h2
  | cons e rest ih =>
    obtain ⟨he, hr⟩ := h1
    exact ⟨he, ih hr h2⟩

theorem StepsOk_append_cases {S : Type} {G : SGraph S} :
    ∀ {l1 l2 : List EdgeTo} {v : ℤ}, StepsOk G v (l1 ++ l2) →
      StepsOk G v l1 ∧ StepsOk G (stepsEnd v l1) l2 := by
  intro l1
  induction l1 with
  | nil =>
    intro l2 v h
    exact ⟨StepsOk_mem h, h⟩
  | cons e rest ih =>
    intro l2 v h
    obtain ⟨he, hr⟩ := h
    obtain ⟨ha, hb⟩ := ih hr
    exact ⟨⟨he, ha⟩, hb⟩

theorem PChain_to_steps {S : Type} {G : SGraph S} {startId : ℤ} {scr : ℤ → Scratch}
    {v : ℤ} {p : List ℤ}
    (hcl : ∀ vx ∈ G.vertices, ∀ e ∈ vx.edgesTo, e.1 ∈ G.idsOf)
    (h : PChain G startId scr v p) :
    ∃ l, StepsOk G startId l ∧ stepsEnd startId l = v ∧
      stepsCost l = (scr v).gCost ∧ p = startId :: l.map (fun e => e.1) := by
  induction h with
  | base h0 hp hm => exact ⟨[], hm, rfl, by simp [stepsCost, h0], rfl⟩
  | @step u v c p hc hu he hpar hg hnv ih =>
    obtain ⟨l, hok, hend, hcost, hform⟩ := ih
    have hvids : v ∈ G.idsOf := by
      obtain ⟨vx, hvx, _, hmem⟩ := he
      exact hcl vx hvx _ hmem
    refine ⟨l ++ [(v, c)], ?_, ?_, ?_, ?_⟩
    · exact StepsOk_append hok (by rw [hend]; exact ⟨he, hvids⟩)
    · rw [stepsEnd_append, hend]; rfl
    · rw [stepsCost_append, hcost, hg]; simp [stepsCost]
    · rw [hform]; simp

/-! ### Search invariants -/

/-- The cost-free part of the main-loop invariant (holds for arbitrary
costs and heuristic): set-up facts about start and goal, reachedness of
open entries and of successors of expanded vertices, existence of an open
entry for every frontier vertex, and parent chains for every reached
vertex. -/
structure InvB {S : Type} (G : SGraph S) (startId goalId : ℤ) (st : LoopSt) : Prop where
  startChecked : (st.scr startId).isChecked = true
  startG : (st.scr startId).gCost = 0
  startParent : (st.scr startId).parent = none
  goalUnchecked : (st.scr goalId).isChecked = false
  edgesReached : ∀ x, (st.scr x).isChecked = true → ∀ e ∈ adjOf G x, Reached st.scr e.1
  openReached : ∀ qw ∈ st.openList, Reached st.scr qw.2
  liveEntry : ∀ w, (st.scr w).isChecked = false → (st.scr w).isInOpen = true →
      ∃ q, (q, w) ∈ st.openList
  chains : ∀ w, Reached st.scr w → ∃ p, PChain G startId st.scr w p

/-- The cost part of the main-loop invariant, sound for a consistent
heuristic: `K` is a monotone lower bound on open priorities and upper
bound on the f-values of expanded vertices; every open entry dominates the
current f-value of its vertex; every frontier vertex has an exact live
entry; all out-edges of expanded vertices are relaxed; expanded vertices
carry path-optimal g-costs. -/
structure InvO {S : Type} (G : SGraph S) (hq : ℤ → ℤ) (startId : ℤ) (st : LoopSt)
    (K : ℤ) : Prop where
  entryGe : ∀ qw ∈ st.openList, K ≤ qw.1 ∧ (st.scr qw.2).gCost + hq qw.2 ≤ qw.1
  liveExact : ∀ w, (st.scr w).isChecked = false → (st.scr w).isInOpen = true →
      ((st.scr w).gCost + hq w, w) ∈ st.openList
  checkedLe : ∀ x, (st.scr x).isChecked = true → (st.scr x).gCost + hq x ≤ K
  checkedRelax : ∀ x, (st.scr x).isChecked = true → ∀ e ∈ adjOf G x,
      (st.scr e.1).gCost ≤ (st.scr x).gCost + e.2
  checkedOpt : ∀ x, (st.scr x).isChecked = true →
      ∀ l, StepsOk G startId l → stepsEnd startId l = x → (st.scr x).gCost ≤ stepsCost l

/-- The cost-free invariant as maintained during expansion of `v` (the
vertex just marked checked, whose out-edges are being relaxed one by
one). -/
structure MidB {S : Type} (G : SGraph S) (startId goalId v : ℤ) (st : LoopSt) : Prop where
  vChecked : (st.scr v).isChecked = true
  startChecked : (st.scr startId).isChecked = true
  startG : (st.scr startId).gCost = 0
  startParent : (st.scr startId).parent = none
  goalUnchecked : (st.scr goalId).isChecked = false
  edgesReachedO : ∀ x, x ≠ v → (st.scr x).isChecked = true → ∀ e ∈ adjOf G x,
      Reached st.scr e.1
  openReached : ∀ qw ∈ st.openList, Reached st.scr qw.2
  liveEntry : ∀ w, (st.scr w).isChecked = false → (st.scr w).isInOpen = true →
      ∃ q, (q, w) ∈ st.openList
  chains : ∀ w, Reached st.scr w → ∃ p, PChain G startId st.scr w p

/-- The cost invariant as maintained during expansion of `v`, whose
g-cost is frozen at `gv`. -/
structure MidO {S : Type} (G : SGraph S) (hq : ℤ → ℤ) (v : ℤ) (gv : ℤ) (st : LoopSt) :
    Prop where
  vG : (st.scr v).gCost = gv
  entryGe : ∀ qw ∈ st.openList, gv + hq v ≤ qw.1 ∧ (st.scr qw.2).gCost + hq qw.2 ≤ qw.1
  liveExact : ∀ w, (st.scr w).isChecked = false → (st.scr w).isInOpen = true →
      ((st.scr w).gCost + hq w, w) ∈ st.openList
  checkedLe : ∀ x, (st.scr x).isChecked = true → (st.scr x).gCost + hq x ≤ gv + hq v
  checkedRelaxO : ∀ x, x ≠ v → (st.scr x).isChecked = true → ∀ e ∈ adjOf G x,
      (st.scr e.1).gCost ≤ (st.scr x).gCost + e.2

theorem relax_target_reached {hq : ℤ → ℤ} {u : ℤ} {st : LoopSt} {e : EdgeTo} :
    Reached (relax hq u st e).scr e.1 := by
  by_cases h1 : (st.scr e.1).isChecked = true
  · rw [relax_of_checked h1]; exact Or.inr h1
  · have h1f : (st.scr e.1).isChecked = false := by simpa using h1
    by_cases h2 : (st.scr e.1).isInOpen = false ∨ (st.scr u).gCost + e.2 < (st.scr e.1).gCost
    · rw [relax_of_go h1f h2]
      left
      simp [relaxedScr]
    · rw [relax_of_stay h1f h2]
      push_neg at h2
      left
      simpa using h2.1

theorem relax_midB {S : Type} {G : SGraph S} {startId goalId v : ℤ} {hq : ℤ → ℤ}
    {st : LoopSt} {e : EdgeTo} (he : EdgeIn G v e.1 e.2)
    (hM : MidB G startId goalId v st) : MidB G startId goalId v (relax hq v st e) := by
  rcases relax_cases hq v st e with hc | ⟨⟨hunc, hcond⟩, hc⟩
  · rw [hc]; exact hM
  · set y := e.1 with hy
    have hyv : y ≠ v := fun hh => by rw [hh] at hunc; rw [hM.vChecked] at hunc; cases hunc
    have hys : y ≠ startId := fun hh => by
      rw [hh] at hunc; rw [hM.startChecked] at hunc; cases hunc
    have hscr : ∀ w, w ≠ y → (relax hq v st e).scr w = st.scr w := fun w hw =>
      relax_scr_ne hw
    have hscry : (relax hq v st e).scr y = relaxedScr hq v st e := by
      rw [hc]; simp
    refine ⟨?_, ?_, ?_, ?_, ?_, ?_, ?_, ?_, ?_⟩
    · rw [hscr v (Ne.symm hyv)]; exact hM.vChecked
    · rw [hscr startId (Ne.symm hys)]; exact hM.startChecked
    · rw [hscr startId (Ne.symm hys)]; exact hM.startG
    · rw [hscr startId (Ne.symm hys)]; exact hM.startParent
    · by_cases hyg : goalId = y
      · rw [hyg, hscry]; rfl
      · rw [hscr goalId hyg]; exact hM.goalUnchecked
    · intro x hx hchk ee hee
      have hxy : x ≠ y := fun hh => by
        rw [hh, hscry] at hchk; simp [relaxedScr] at hchk
      rw [hscr x hxy] at hchk
      exact relax_reached_mono (hM.edgesReachedO x hx hchk ee hee)
    · intro qw hqw
      rw [hc] at hqw
      rcases List.mem_append.mp hqw with hqw | hqw
      · exact relax_reached_mono (hM.openReached qw hqw)
      · simp at hqw
        rw [hqw]
        have hre : Reached (relax hq v st e).scr y := by
          left; rw [hscry]; simp [relaxedScr]
        exact hre
    · intro w hw1 hw2
      by_cases hwy : w = y
      · refine ⟨(st.scr v).gCost + e.2 + hq y, ?_⟩
        rw [hc, hwy]
        exact List.mem_append.mpr (Or.inr (List.mem_singleton.mpr rfl))
      · rw [hscr w hwy] at hw1 hw2
        obtain ⟨q, hqmem⟩ := hM.liveEntry w hw1 hw2
        rw [hc]
        exact ⟨q, List.mem_append.mpr (Or.inl hqmem)⟩
    · intro w hw
      by_cases hwy : w = y
      · rw [hwy]
        obtain ⟨pv, hpv⟩ := hM.chains v (Or.inr hM.vChecked)
        have hynp : y ∉ pv := by
          intro hmem
          rcases PChain_elem_cases hpv y hmem with hh | hh
          · exact hyv hh
          · rw [hunc] at hh; cases hh
        have hpv2 : PChain G startId (relax hq v st e).scr v pv := by
          refine PChain_preserve hpv ?_
          intro z hz
          have hzy : z ≠ y := fun hh => hynp (hh ▸ hz)
          rw [hscr z hzy]
          exact ⟨rfl, rfl, fun h => h⟩
        refine ⟨pv ++ [y], PChain.step hpv2 ?_ he ?_ ?_ hynp⟩
        · rw [hscr v (Ne.symm hyv)]; exact hM.vChecked
        · rw [hscry]; rfl
        · rw [hscry, hscr v (Ne.symm hyv)]; rfl
      · rw [show Reached (relax hq v st e).scr w ↔ Reached st.scr w from by
          unfold Reached; rw [hscr w hwy]] at hw
        obtain ⟨pw, hpw⟩ := hM.chains w hw
        refine ⟨pw, PChain_preserve hpw ?_⟩
        intro z hz
        have hzy : z ≠ y := by
          intro hh
          rcases PChain_elem_cases hpw z hz with hh2 | hh2
          · exact hwy (by rw [← hh2]; exact hh)
          · rw [hh] at hh2; rw [hunc] at hh2; simp at hh2
        rw [hscr z hzy]
        exact ⟨rfl, rfl, fun h => h⟩

theorem foldl_midB {S : Type} {G : SGraph S} {startId goalId v : ℤ} {hq : ℤ → ℤ} :
    ∀ (l : List EdgeTo) (st : LoopSt), (∀ e ∈ l, EdgeIn G v e.1 e.2) →
      MidB G startId goalId v st →
      MidB G startId goalId v (l.foldl (relax hq v) st) ∧
        ∀ e ∈ l, Reached ((l.foldl (relax hq v) st).scr) e.1 := by
  intro l
  induction l with
  | nil => intro st _ hM; exact ⟨hM, by simp⟩
  | cons e es ih =>
    intro st hsub hM
    simp only [List.foldl_cons]
    obtain ⟨hM2, hrest⟩ := ih (relax hq v st e)
      (fun x hx => hsub x (List.mem_cons_of_mem _ hx))
      (relax_midB (hsub e (List.mem_cons_self _ _)) hM)
    refine ⟨hM2, ?_⟩
    intro x hx
    rcases List.mem_cons.mp hx with rfl | hx
    · exact foldRelax_reached_mono es (relax hq v st x) relax_target_reached
    · exact hrest x hx

theorem relax_midO {S : Type} {G : SGraph S} {startId goalId v : ℤ} {hq : ℤ → ℤ}
    {gv : ℤ} {st : LoopSt} {e : EdgeTo}
    (hcons : ∀ u w c, EdgeIn G u w c → hq u ≤ c + hq w)
    (he : EdgeIn G v e.1 e.2)
    (hB : MidB G startId goalId v st) (hO : MidO G hq v gv st) :
    MidO G hq v gv (relax hq v st e) ∧
      ((relax hq v st e).scr e.1).gCost ≤ gv + e.2 ∧
      Reached (relax hq v st e).scr e.1 := by
  have hcv : hq v ≤ e.2 + hq e.1 := hcons v e.1 e.2 he
  by_cases h1 : (st.scr e.1).isChecked = true
  · rw [relax_of_checked h1]
    refine ⟨hO, ?_, Or.inr h1⟩
    have := hO.checkedLe e.1 h1
    linarith
  · have h1f : (st.scr e.1).isChecked = false := by simpa using h1
    by_cases h2 : (st.scr e.1).isInOpen = false ∨ (st.scr v).gCost + e.2 < (st.scr e.1).gCost
    · have hc := @relax_of_go hq v st e h1f h2
      set y := e.1 with hy
      have hyv : y ≠ v := fun hh => by rw [hh] at h1f; rw [hB.vChecked] at h1f; cases h1f
      have hscr : ∀ w, w ≠ y → (relax hq v st e).scr w = st.scr w := fun w hw =>
        relax_scr_ne hw
      have hscry : (relax hq v st e).scr y = relaxedScr hq v st e := by rw [hc]; simp
      have hnewg : ((relax hq v st e).scr y).gCost = gv + e.2 := by
        rw [hscry]
        simp only [relaxedScr]
        rw [hO.vG]
      have hylow : (st.scr e.1).isInOpen = true → gv + e.2 < (st.scr e.1).gCost := by
        intro hio
        rcases h2 with h2 | h2
        · rw [hio] at h2; cases h2
        · rw [hO.vG] at h2; exact h2
      refine ⟨⟨?_, ?_, ?_, ?_, ?_⟩, ?_, ?_⟩
      · rw [hscr v (Ne.symm hyv)]; exact hO.vG
      · intro qw hqw
        rw [hc] at hqw
        rcases List.mem_append.mp hqw with hqw | hqw
        · obtain ⟨hK, hfq⟩ := hO.entryGe qw hqw
          refine ⟨hK, ?_⟩
          by_cases hqy : qw.2 = y
          · rw [hqy, hnewg]
            have hio : (st.scr y).isInOpen = true := by
              rcases hB.openReached qw hqw with hr | hr
              · rw [hqy] at hr; exact hr
              · rw [hqy] at hr; rw [h1f] at hr; cases hr
            have hlt := hylow hio
            rw [hqy] at hfq
            linarith
          · rw [hscr qw.2 hqy]; exact hfq
        · simp at hqw
          have hq1 : qw.1 = (st.scr v).gCost + e.2 + hq y := by rw [hqw]
          have hq2 : qw.2 = y := by rw [hqw]
          rw [hq1, hq2, hO.vG, hnewg]
          constructor
          · linarith
          · linarith
      · intro w hw1 hw2
        by_cases hwy : w = y
        · rw [hwy, hnewg, hc]
          refine List.mem_append.mpr (Or.inr ?_)
          rw [hwy] at hw1 hw2
          simp only [List.mem_singleton]
          rw [hO.vG]
        · rw [hscr w hwy] at hw1 hw2 ⊢
          rw [hc]
          exact List.mem_append.mpr (Or.inl (hO.liveExact w hw1 hw2))
      · intro x hx
        have hxy : x ≠ y := fun hh => by
          rw [hh, hscry] at hx; simp [relaxedScr] at hx
        rw [hscr x hxy] at hx ⊢
        exact hO.checkedLe x hx
      · intro x hxv hx ee hee
        have hxy : x ≠ y := fun hh => by
          rw [hh, hscry] at hx; simp [relaxedScr] at hx
        rw [hscr x hxy] at hx ⊢
        by_cases hey : ee.1 = y
        · rw [hey, hnewg]
          have hre : Reached st.scr ee.1 := hB.edgesReachedO x hxv hx ee hee
          have hio : (st.scr y).isInOpen = true := by
            rw [hey] at hre
            rcases hre with hr | hr
            · exact hr
            · rw [h1f] at hr; cases hr
          have hlt := hylow hio
          have hold := hO.checkedRelaxO x hxv hx ee hee
          rw [hey] at hold
          linarith
        · rw [hscr ee.1 hey]
          exact hO.checkedRelaxO x hxv hx ee hee
      · rw [hnewg]
      · left; rw [hscry]; simp [relaxedScr]
    · rw [relax_of_stay h1f h2]
      push_neg at h2
      refine ⟨hO, ?_, Or.inl (by simpa using h2.1)⟩
      have := h2.2
      rw [hO.vG] at this
      exact this

theorem foldl_midO {S : Type} {G : SGraph S} {startId goalId v : ℤ} {hq : ℤ → ℤ}
    {gv : ℤ} (hcons : ∀ u w c, EdgeIn G u w c → hq u ≤ c + hq w) :
    ∀ (l : List EdgeTo) (st : LoopSt), (∀ e ∈ l, EdgeIn G v e.1 e.2) →
      MidB G startId goalId v st → MidO G hq v gv st →
      MidB G startId goalId v (l.foldl (relax hq v) st) ∧
        MidO G hq v gv (l.foldl (relax hq v) st) ∧
        ∀ e ∈ l, ((l.foldl (relax hq v) st).scr e.1).gCost ≤ gv + e.2 ∧
          Reached ((l.foldl (relax hq v) st).scr) e.1 := by
  intro l
  induction l with
  | nil => intro st _ hB hO; exact ⟨hB, hO, by simp⟩
  | cons e es ih =>
    intro st hsub hB hO
    simp only [List.foldl_cons]
    have hee := hsub e (List.mem_cons_self _ _)
    have hB1 := @relax_midB S G startId goalId v hq st e hee hB
    obtain ⟨hO1, hge, hre⟩ := relax_midO hcons hee hB hO
    obtain ⟨hBf, hOf, hrest⟩ := ih (relax hq v st e)
      (fun x hx => hsub x (List.mem_cons_of_mem _ hx)) hB1 hO1
    refine ⟨hBf, hOf, ?_⟩
    intro x hx
    rcases List.mem_cons.mp hx with rfl | hx
    · constructor
      · calc ((es.foldl (relax hq v) (relax hq v st x)).scr x.1).gCost
            ≤ ((relax hq v st x).scr x.1).gCost := foldRelax_g_mono es _ hre
          _ ≤ gv + x.2 := hge
      · exact foldRelax_reached_mono es _ hre
    · exact hrest x hx

/-- Consistency telescopes along any step list. -/
theorem steps_telescope {S : Type} {G : SGraph S} {hq : ℤ → ℤ}
    (hcons : ∀ u w c, EdgeIn G u w c → hq u ≤ c + hq w) :
    ∀ (l : List EdgeTo) (v0 : ℤ), StepsOk G v0 l →
      hq v0 ≤ stepsCost l + hq (stepsEnd v0 l) := by
  intro l
  induction l with
  | nil => intro v0 _; simp [stepsCost, stepsEnd]
  | cons e rest ih =>
    intro v0 h
    obtain ⟨he, hr⟩ := h
    have h1 := hcons v0 e.1 e.2 he
    have h2 := ih e.1 hr
    simp only [stepsCost, List.map_cons, List.sum_cons, stepsEnd] at h2 ⊢
    linarith

/-- With a consistent heuristic, every closed walk has non-negative
cost. -/
theorem steps_loop_nonneg {S : Type} {G : SGraph S} {hq : ℤ → ℤ}
    (hcons : ∀ u w c, EdgeIn G u w c → hq u ≤ c + hq w)
    {l : List EdgeTo} {v0 : ℤ} (h : StepsOk G v0 l) (hend : stepsEnd v0 l = v0) :
    0 ≤ stepsCost l := by
  have := steps_telescope hcons l v0 h
  rw [hend] at this
  linarith

/-- The state transition that marks the popped vertex expanded and out of
the open list at the start of `expand`. -/
def markSt (v : ℤ) (st : LoopSt) : LoopSt :=
  { scr := Function.update st.scr v
      { st.scr v with isInOpen := false, isChecked := true },
    openList := st.openList }

theorem expand_eq_mark (adj : List EdgeTo) (hq : ℤ → ℤ) (v : ℤ) (st : LoopSt) :
    expand adj hq v st = adj.foldl (relax hq v) (markSt v st) := rfl

theorem markSt_scr_ne {v w : ℤ} {st : LoopSt} (h : w ≠ v) :
    (markSt v st).scr w = st.scr w := Function.update_noteq h _ _

theorem markSt_scr_self (v : ℤ) (st : LoopSt) :
    (markSt v st).scr v = { st.scr v with isInOpen := false, isChecked := true } :=
  Function.update_same _ _ _

theorem markSt_g (v w : ℤ) (st : LoopSt) :
    ((markSt v st).scr w).gCost = (st.scr w).gCost := by
  by_cases hw : w = v
  · rw [hw, markSt_scr_self]
  · rw [markSt_scr_ne hw]

theorem markSt_parent (v w : ℤ) (st : LoopSt) :
    ((markSt v st).scr w).parent = (st.scr w).parent := by
  by_cases hw : w = v
  · rw [hw, markSt_scr_self]
  · rw [markSt_scr_ne hw]

theorem markSt_reached {v w : ℤ} {st : LoopSt} (h : Reached st.scr w) :
    Reached (markSt v st).scr w := by
  by_cases hw : w = v
  · subst hw; right; rw [markSt_scr_self]
  · unfold Reached; rw [markSt_scr_ne hw]; exact h

/-- Establishing the cost-free mid-expansion invariant right after the
popped vertex is marked. -/
theorem mark_midB {S : Type} {G : SGraph S} {startId goalId v : ℤ}
    {st1 : LoopSt}
    (hvu : (st1.scr v).isChecked = false)
    (hvg : v ≠ goalId)
    (hvR : Reached st1.scr v)
    (hstart : v = startId ∨ (st1.scr startId).isChecked = true)
    (hsg : (st1.scr startId).gCost = 0)
    (hsp : (st1.scr startId).parent = none)
    (hgoalU : (st1.scr goalId).isChecked = false)
    (hedges : ∀ x, x ≠ v → (st1.scr x).isChecked = true → ∀ e ∈ adjOf G x,
      Reached st1.scr e.1)
    (hopenR : ∀ qw ∈ st1.openList, Reached st1.scr qw.2)
    (hlive : ∀ w, w ≠ v → (st1.scr w).isChecked = false → (st1.scr w).isInOpen = true →
      ∃ q, (q, w) ∈ st1.openList)
    (hchains : ∀ w, Reached st1.scr w → ∃ p, PChain G startId st1.scr w p) :
    MidB G startId goalId v (markSt v st1) := by
  refine ⟨?_, ?_, ?_, ?_, ?_, ?_, ?_, ?_, ?_⟩
  · rw [markSt_scr_self]
  · rcases hstart with hs | hs
    · rw [← hs, markSt_scr_self]
    · rw [markSt_scr_ne (fun hh : startId = v => by rw [hh] at hs; rw [hvu] at hs; cases hs)]
      exact hs
  · rw [markSt_g]; exact hsg
  · rw [markSt_parent]; exact hsp
  · rw [markSt_scr_ne (Ne.symm hvg)]; exact hgoalU
  · intro x hx hchk e hee
    rw [markSt_scr_ne hx] at hchk
    exact markSt_reached (hedges x hx hchk e hee)
  · intro qw hqw
    exact markSt_reached (hopenR qw hqw)
  · intro w hw1 hw2
    have hwv : w ≠ v := fun hh => by
      rw [hh, markSt_scr_self] at hw1; simp at hw1
    rw [markSt_scr_ne hwv] at hw1 hw2
    exact hlive w hwv hw1 hw2
  · intro w hw
    have hrw : Reached st1.scr w := by
      by_cases hwv : w = v
      · rw [hwv]; exact hvR
      · unfold Reached at hw ⊢; rw [markSt_scr_ne hwv] at hw; exact hw
    obtain ⟨p, hp⟩ := hchains w hrw
    refine ⟨p, PChain_preserve hp ?_⟩
    intro z hz
    refine ⟨markSt_g v z st1, markSt_parent v z st1, ?_⟩
    intro hzc
    by_cases hzv : z = v
    · rw [hzv, markSt_scr_self]
    · rw [markSt_scr_ne hzv]; exact hzc

/-- Establishing the cost mid-expansion invariant right after the popped
vertex is marked. -/
theorem mark_midO {S : Type} {G : SGraph S} {v : ℤ} {hq : ℤ → ℤ} {gv : ℤ}
    {st1 : LoopSt}
    (hvgv : (st1.scr v).gCost = gv)
    (hOentries : ∀ qw ∈ st1.openList, gv + hq v ≤ qw.1 ∧
      (st1.scr qw.2).gCost + hq qw.2 ≤ qw.1)
    (hliveEx : ∀ w, w ≠ v → (st1.scr w).isChecked = false →
      (st1.scr w).isInOpen = true →
      ((st1.scr w).gCost + hq w, w) ∈ st1.openList)
    (hcheckedLe : ∀ x, (st1.scr x).isChecked = true →
      (st1.scr x).gCost + hq x ≤ gv + hq v)
    (hcrel : ∀ x, (st1.scr x).isChecked = true → ∀ e ∈ adjOf G x,
      (st1.scr e.1).gCost ≤ (st1.scr x).gCost + e.2) :
    MidO G hq v gv (markSt v st1) := by
  refine ⟨?_, ?_, ?_, ?_, ?_⟩
  · rw [markSt_g]; exact hvgv
  · intro qw hqw
    obtain ⟨h1, h2⟩ := hOentries qw hqw
    exact ⟨h1, by rw [markSt_g]; exact h2⟩
  · intro w hw1 hw2
    have hwv : w ≠ v := fun hh => by
      rw [hh, markSt_scr_self] at hw1; simp at hw1
    rw [markSt_scr_ne hwv] at hw1 hw2
    rw [markSt_g]
    exact hliveEx w hwv hw1 hw2
  · intro x hx
    by_cases hxv : x = v
    · rw [hxv, markSt_g, hvgv]
    · rw [markSt_scr_ne hxv] at hx
      rw [markSt_g]
      exact hcheckedLe x hx
  · intro x hxv hx e hee
    rw [markSt_scr_ne hxv] at hx
    rw [markSt_g, markSt_g]
    exact hcrel x hx e hee

/-- Establishing the cost-free invariant after expanding `v`. -/
theorem expand_invB {S : Type} {G : SGraph S} {startId goalId v : ℤ} {hq : ℤ → ℤ}
    {st1 : LoopSt}
    (hvu : (st1.scr v).isChecked = false)
    (hvg : v ≠ goalId)
    (hvR : Reached st1.scr v)
    (hstart : v = startId ∨ (st1.scr startId).isChecked = true)
    (hsg : (st1.scr startId).gCost = 0)
    (hsp : (st1.scr startId).parent = none)
    (hgoalU : (st1.scr goalId).isChecked = false)
    (hedges : ∀ x, x ≠ v → (st1.scr x).isChecked = true → ∀ e ∈ adjOf G x,
      Reached st1.scr e.1)
    (hopenR : ∀ qw ∈ st1.openList, Reached st1.scr qw.2)
    (hlive : ∀ w, w ≠ v → (st1.scr w).isChecked = false → (st1.scr w).isInOpen = true →
      ∃ q, (q, w) ∈ st1.openList)
    (hchains : ∀ w, Reached st1.scr w → ∃ p, PChain G startId st1.scr w p) :
    InvB G startId goalId (expand (adjOf G v) hq v st1) := by
  rw [expand_eq_mark]
  have hMB := mark_midB (G := G) hvu hvg hvR hstart hsg hsp hgoalU hedges hopenR
    hlive hchains
  obtain ⟨hMf, hreach⟩ := @foldl_midB S G startId goalId v hq (adjOf G v) (markSt v st1)
    (fun e hee => adjOf_edgeIn hee) hMB
  refine ⟨hMf.startChecked, hMf.startG, hMf.startParent, hMf.goalUnchecked, ?_,
    hMf.openReached, hMf.liveEntry, hMf.chains⟩
  intro x hchk e hee
  by_cases hx : x = v
  · rw [hx] at hee
    exact hreach e hee
  · exact hMf.edgesReachedO x hx hchk e hee

/-- Establishing the cost invariant after expanding `v`, with the new key
`gv + hq v`. -/
theorem expand_invO {S : Type} {G : SGraph S} {startId goalId v : ℤ} {hq : ℤ → ℤ}
    {gv : ℤ} {st1 : LoopSt}
    (hcons : ∀ u w c, EdgeIn G u w c → hq u ≤ c + hq w)
    (hvu : (st1.scr v).isChecked = false)
    (hvg : v ≠ goalId)
    (hvR : Reached st1.scr v)
    (hstart : v = startId ∨ (st1.scr startId).isChecked = true)
    (hsg : (st1.scr startId).gCost = 0)
    (hsp : (st1.scr startId).parent = none)
    (hgoalU : (st1.scr goalId).isChecked = false)
    (hedges : ∀ x, x ≠ v → (st1.scr x).isChecked = true → ∀ e ∈ adjOf G x,
      Reached st1.scr e.1)
    (hopenR : ∀ qw ∈ st1.openList, Reached st1.scr qw.2)
    (hlive : ∀ w, w ≠ v → (st1.scr w).isChecked = false → (st1.scr w).isInOpen = true →
      ∃ q, (q, w) ∈ st1.openList)
    (hchains : ∀ w, Reached st1.scr w → ∃ p, PChain G startId st1.scr w p)
    (hvgv : (st1.scr v).gCost = gv)
    (hOentries : ∀ qw ∈ st1.openList, gv + hq v ≤ qw.1 ∧
      (st1.scr qw.2).gCost + hq qw.2 ≤ qw.1)
    (hliveEx : ∀ w, w ≠ v → (st1.scr w).isChecked = false →
      (st1.scr w).isInOpen = true →
      ((st1.scr w).gCost + hq w, w) ∈ st1.openList)
    (hcheckedLe : ∀ x, (st1.scr x).isChecked = true →
      (st1.scr x).gCost + hq x ≤ gv + hq v)
    (hcrel : ∀ x, (st1.scr x).isChecked = true → ∀ e ∈ adjOf G x,
      (st1.scr e.1).gCost ≤ (st1.scr x).gCost + e.2)
    (hcOpt : ∀ x, (st1.scr x).isChecked = true →
      ∀ l, StepsOk G startId l → stepsEnd startId l = x →
        (st1.scr x).gCost ≤ stepsCost l)
    (hvOpt : ∀ l, StepsOk G startId l → stepsEnd startId l = v → gv ≤ stepsCost l) :
    InvO G hq startId (expand (adjOf G v) hq v st1) (gv + hq v) := by
  rw [expand_eq_mark]
  have hMB := mark_midB (G := G) hvu hvg hvR hstart hsg hsp hgoalU hedges hopenR
    hlive hchains
  have hMO := @mark_midO S G v hq gv st1 hvgv hOentries hliveEx hcheckedLe hcrel
  obtain ⟨hBf, hOf, hbounds⟩ := @foldl_midO S G startId goalId v hq gv
    hcons (adjOf G v) (markSt v st1) (fun e hee => adjOf_edgeIn hee) hMB hMO
  have hvmark : ((markSt v st1).scr v).isChecked = true := by rw [markSt_scr_self]
  have hvfix : ((adjOf G v).foldl (relax hq v) (markSt v st1)).scr v =
      (markSt v st1).scr v := foldRelax_scr_of_checked (adjOf G v) _ hvmark
  have hvgfix : (((adjOf G v).foldl (relax hq v) (markSt v st1)).scr v).gCost = gv := by
    rw [hvfix, markSt_g]; exact hvgv
  refine ⟨hOf.entryGe, hOf.liveExact, hOf.checkedLe, ?_, ?_⟩
  · intro x hchk e hee
    by_cases hx : x = v
    · rw [hx] at hee ⊢
      rw [hvgfix]
      exact (hbounds e hee).1
    · exact hOf.checkedRelaxO x hx hchk e hee
  · intro x hchk l hok hend
    have hchk2 : ((markSt v st1).scr x).isChecked = true := by
      rw [← foldRelax_isChecked (adjOf G v) (markSt v st1)]
      exact hchk
    have hgfix : (((adjOf G v).foldl (relax hq v) (markSt v st1)).scr x).gCost =
        ((markSt v st1).scr x).gCost := by
      rw [foldRelax_scr_of_checked (adjOf G v) _ hchk2]
    rw [hgfix, markSt_g]
    by_cases hx : x = v
    · rw [hx, hvgv]
      rw [hx] at hend
      exact hvOpt l hok hend
    · rw [markSt_scr_ne hx] at hchk2
      exact hcOpt x hchk2 l hok hend

/-- Key step of the optimality argument: when an entry is popped, its
priority is bounded by the cost of any partial path that starts at an
expanded vertex and ends at an unexpanded one, plus the heuristic at the
end. -/
theorem pop_path_bound {S : Type} {G : SGraph S} {startId goalId : ℤ} {hq : ℤ → ℤ}
    {st : LoopSt} {pv : ℤ × ℤ} {rest : List (ℤ × ℤ)} {K : ℤ}
    (hnd : G.idsOf.Nodup)
    (hcons : ∀ u w c, EdgeIn G u w c → hq u ≤ c + hq w)
    (hB : InvB G startId goalId st) (hO : InvO G hq startId st K)
    (hpop : pqPop st.openList = some (pv, rest)) :
    ∀ (l : List EdgeTo) (v0 : ℤ), (st.scr v0).isChecked = true → StepsOk G v0 l →
      (st.scr (stepsEnd v0 l)).isChecked = false →
      pv.1 ≤ (st.scr v0).gCost + stepsCost l + hq (stepsEnd v0 l) := by
  intro l
  induction l with
  | nil =>
    intro v0 hchk _ hend
    simp only [stepsEnd] at hend
    rw [hchk] at hend
    cases hend
  | cons e rest2 ih =>
    intro v0 hchk hok hend
    obtain ⟨he, hr⟩ := hok
    have hadj : e ∈ adjOf G v0 := edgeIn_mem_adjOf hnd he
    have hrel := hO.checkedRelax v0 hchk e hadj
    simp only [stepsEnd] at hend ⊢
    have hcost : stepsCost (e :: rest2) = e.2 + stepsCost rest2 := by
      simp [stepsCost]
    rw [hcost]
    by_cases hw : (st.scr e.1).isChecked = true
    · have := ih e.1 hw hr hend
      linarith
    · have hwf : (st.scr e.1).isChecked = false := by simpa using hw
      have hio : (st.scr e.1).isInOpen = true := by
        rcases hB.edgesReached v0 hchk e hadj with h | h
        · exact h
        · rw [hwf] at h; cases h
      have hliveE := hO.liveExact e.1 hwf hio
      have hmin := pqPop_min hpop _ hliveE
      have htel := steps_telescope hcons rest2 e.1 hr
      simp only at hmin
      linarith

/-- When an unexpanded entry is popped, its g-cost is at most the cost of
every path from start to it. -/
theorem popped_le_path {S : Type} {G : SGraph S} {startId goalId : ℤ} {hq : ℤ → ℤ}
    {st : LoopSt} {pv : ℤ × ℤ} {rest : List (ℤ × ℤ)} {K : ℤ}
    (hnd : G.idsOf.Nodup)
    (hcons : ∀ u w c, EdgeIn G u w c → hq u ≤ c + hq w)
    (hB : InvB G startId goalId st) (hO : InvO G hq startId st K)
    (hpop : pqPop st.openList = some (pv, rest))
    (hvunch : (st.scr pv.2).isChecked = false) :
    ∀ l, StepsOk G startId l → stepsEnd startId l = pv.2 →
      (st.scr pv.2).gCost ≤ stepsCost l := by
  intro l hok hend
  have h1 := pop_path_bound hnd hcons hB hO hpop l startId hB.startChecked hok
    (by rw [hend]; exact hvunch)
  rw [hend, hB.startG] at h1
  have h2 := (hO.entryGe pv (pqPop_mem hpop)).2
  linarith

/-- With an empty open list, everything reachable from an expanded vertex
is expanded. -/
theorem exhausted_checked {S : Type} {G : SGraph S} {startId goalId : ℤ}
    {st : LoopSt} (hnd : G.idsOf.Nodup)
    (hB : InvB G startId goalId st) (hopen : st.openList = []) :
    ∀ (l : List EdgeTo) (v0 : ℤ), (st.scr v0).isChecked = true → StepsOk G v0 l →
      (st.scr (stepsEnd v0 l)).isChecked = true := by
  intro l
  induction l with
  | nil => intro v0 hchk _; exact hchk
  | cons e rest2 ih =>
    intro v0 hchk hok
    obtain ⟨he, hr⟩ := hok
    have hadj : e ∈ adjOf G v0 := edgeIn_mem_adjOf hnd he
    simp only [stepsEnd]
    by_cases hw : (st.scr e.1).isChecked = true
    · exact ih e.1 hw hr
    · exfalso
      have hwf : (st.scr e.1).isChecked = false := by simpa using hw
      have hio : (st.scr e.1).isInOpen = true := by
        rcases hB.edgesReached v0 hchk e hadj with h | h
        · exact h
        · rw [hwf] at h; cases h
      obtain ⟨q, hq2⟩ := hB.liveEntry e.1 hwf hio
      rw [hopen] at hq2
      cases hq2

/-- With an empty open list, the goal is unreachable from start. -/
theorem exhausted_unreachable {S : Type} {G : SGraph S} {startId goalId : ℤ}
    {st : LoopSt} (hnd : G.idsOf.Nodup)
    (hB : InvB G startId goalId st) (hopen : st.openList = []) :
    ¬ ReachableG G startId goalId := by
  rintro ⟨l, hok, hend⟩
  have := exhausted_checked hnd hB hopen l startId hB.startChecked hok
  rw [hend] at this
  rw [hB.goalUnchecked] at this
  cases this

/-! ### The loop measure -/

/-- Sum of the out-degrees of the not-yet-expanded vertices. -/
def unexpDeg {S : Type} (G : SGraph S) (scr : ℤ → Scratch) : Nat :=
  ((G.vertices.filter (fun vx => !(scr vx.vid).isChecked)).map
    (fun vx => vx.edgesTo.length)).sum

/-- The strictly decreasing loop measure: open-list length plus unexpanded
degree. -/
def measureOf {S : Type} (G : SGraph S) (st : LoopSt) : Nat :=
  st.openList.length + unexpDeg G st.scr

theorem sum_filter_le {α : Type} (f : α → Nat) :
    ∀ (L : List α) (P Q : α → Bool), (∀ x, Q x = true → P x = true) →
      ((L.filter Q).map f).sum ≤ ((L.filter P).map f).sum := by
  intro L
  induction L with
  | nil => intro P Q _; simp
  | cons a t ih =>
    intro P Q himp
    by_cases hq : Q a = true
    · have hp := himp a hq
      simp only [List.filter_cons, hq, hp, if_true]
      simp only [List.map_cons, List.sum_cons]
      exact Nat.add_le_add_left (ih P Q himp) _
    · have hq2 : Q a = false := by simpa using hq
      simp only [List.filter_cons, hq2]
      by_cases hp : P a = true
      · simp only [hp, if_true, cond_true, cond_false, List.map_cons, List.sum_cons]
        calc ((t.filter Q).map f).sum ≤ ((t.filter P).map f).sum := ih P Q himp
          _ ≤ f a + ((t.filter P).map f).sum := Nat.le_add_left _ _
      · have hp2 : P a = false := by simpa using hp
        simp only [hp2, cond_false]
        exact ih P Q himp

theorem sum_filter_drop {α : Type} (f : α → Nat) :
    ∀ (L : List α) (P Q : α → Bool) (x0 : α), x0 ∈ L → P x0 = true → Q x0 = false →
      (∀ x, Q x = true → P x = true) →
      ((L.filter Q).map f).sum + f x0 ≤ ((L.filter P).map f).sum := by
  intro L
  induction L with
  | nil => intro P Q x0 hx; cases hx
  | cons a t ih =>
    intro P Q x0 hx hP hQ himp
    rcases List.mem_cons.mp hx with rfl | hx
    · simp only [List.filter_cons, hQ, hP, cond_false, cond_true, if_true,
        List.map_cons, List.sum_cons]
      rw [Nat.add_comm]
      exact Nat.add_le_add_left (sum_filter_le f t P Q himp) _
    · by_cases hqa : Q a = true
      · have hpa := himp a hqa
        simp only [List.filter_cons, hqa, hpa, if_true, List.map_cons, List.sum_cons]
        have := ih P Q x0 hx hP hQ himp
        omega
      · have hqa2 : Q a = false := by simpa using hqa
        rw [List.filter_cons, if_neg (by simp [hqa2])]
        by_cases hpa : P a = true
        · rw [List.filter_cons, if_pos (by simp [hpa])]
          simp only [List.map_cons, List.sum_cons]
          have := ih P Q x0 hx hP hQ himp
          omega
        · have hpa2 : P a = false := by simpa using hpa
          rw [List.filter_cons, if_neg (by simp [hpa2])]
          exact ih P Q x0 hx hP hQ himp

theorem expand_isChecked {adj : List EdgeTo} {hq : ℤ → ℤ} {v : ℤ} {st : LoopSt}
    (w : ℤ) : ((expand adj hq v st).scr w).isChecked =
      if w = v then true else (st.scr w).isChecked := by
  rw [expand_eq_mark, foldRelax_isChecked]
  by_cases hw : w = v
  · rw [if_pos hw, hw, markSt_scr_self]
  · rw [if_neg hw, markSt_scr_ne hw]

theorem measure_skip {S : Type} {G : SGraph S} {st : LoopSt} {e : ℤ × ℤ}
    {rest : List (ℤ × ℤ)} (hpop : pqPop st.openList = some (e, rest)) :
    measureOf G { st with openList := rest } < measureOf G st := by
  have hlen := pqPop_length hpop
  show rest.length + unexpDeg G st.scr < st.openList.length + unexpDeg G st.scr
  omega

theorem measure_expand {S : Type} {G : SGraph S} {hq : ℤ → ℤ} {st : LoopSt}
    {e : ℤ × ℤ} {rest : List (ℤ × ℤ)}
    (hpop : pqPop st.openList = some (e, rest))
    (hunch : (st.scr e.2).isChecked = false) :
    measureOf G (expand (adjOf G e.2) hq e.2 { st with openList := rest }) <
      measureOf G st := by
  set st1 : LoopSt := { st with openList := rest } with hst1
  set stf := expand (adjOf G e.2) hq e.2 st1 with hstf
  have hlen := pqPop_length hpop
  have hopenlen : stf.openList.length ≤ rest.length + (adjOf G e.2).length := by
    rw [hstf, expand_eq_mark]
    have := @foldRelax_open_len hq e.2 (adjOf G e.2) (markSt e.2 st1)
    simpa using this
  have himp : ∀ vx : SVertex S, (!(stf.scr vx.vid).isChecked) = true →
      (!(st.scr vx.vid).isChecked) = true := by
    intro vx h
    simp only [Bool.not_eq_true'] at h ⊢
    rw [hstf, expand_isChecked] at h
    by_cases hv : vx.vid = e.2
    · rw [if_pos hv] at h; cases h
    · rw [if_neg hv] at h; exact h
  cases hfind : G.findVertex e.2 with
  | none =>
    have hadj : adjOf G e.2 = [] := by simp [adjOf, hfind]
    have hsum : unexpDeg G stf.scr ≤ unexpDeg G st.scr :=
      sum_filter_le _ G.vertices _ _ himp
    unfold measureOf
    rw [hadj] at hopenlen
    simp at hopenlen
    omega
  | some vx0 =>
    obtain ⟨hmem, hvid⟩ := findVertex_some_facts hfind
    have hadj : adjOf G e.2 = vx0.edgesTo := by simp [adjOf, hfind]
    have hP : (!(st.scr vx0.vid).isChecked) = true := by
      rw [hvid, hunch]; rfl
    have hQ : (!(stf.scr vx0.vid).isChecked) = false := by
      rw [hstf, expand_isChecked, hvid, if_pos rfl]; rfl
    have hsum := sum_filter_drop (fun vx : SVertex S => vx.edgesTo.length)
      G.vertices _ _ vx0 hmem hP hQ himp
    unfold measureOf unexpDeg
    unfold unexpDeg at hsum
    rw [hadj] at hopenlen
    simp only at hopenlen hsum ⊢
    omega

theorem skip_invB {S : Type} {G : SGraph S} {startId goalId : ℤ} {st : LoopSt}
    {e : ℤ × ℤ} {rest : List (ℤ × ℤ)}
    (hB : InvB G startId goalId st)
    (hpop : pqPop st.openList = some (e, rest))
    (hchk : (st.scr e.2).isChecked = true) :
    InvB G startId goalId { st with openList := rest } := by
  refine ⟨hB.startChecked, hB.startG, hB.startParent, hB.goalUnchecked,
    hB.edgesReached, ?_, ?_, hB.chains⟩
  · intro qw hqw
    exact hB.openReached qw (pqPop_rest_subset hpop qw hqw)
  · intro w hw1 hw2
    obtain ⟨q, hmem⟩ := hB.liveEntry w hw1 hw2
    rcases pqPop_mem_cases hpop _ hmem with heq | hmem2
    · exfalso
      have : w = e.2 := by rw [← heq]
      rw [this, hchk] at hw1
      cases hw1
    · exact ⟨q, hmem2⟩

theorem skip_invO {S : Type} {G : SGraph S} {startId : ℤ} {hq : ℤ → ℤ} {st : LoopSt}
    {K : ℤ} {e : ℤ × ℤ} {rest : List (ℤ × ℤ)}
    (hO : InvO G hq startId st K)
    (hpop : pqPop st.openList = some (e, rest))
    (hchk : (st.scr e.2).isChecked = true) :
    InvO G hq startId { st with openList := rest } K := by
  refine ⟨?_, ?_, hO.checkedLe, hO.checkedRelax, hO.checkedOpt⟩
  · intro qw hqw
    exact hO.entryGe qw (pqPop_rest_subset hpop qw hqw)
  · intro w hw1 hw2
    have hmem := hO.liveExact w hw1 hw2
    rcases pqPop_mem_cases hpop _ hmem with heq | hmem2
    · exfalso
      have : w = e.2 := by rw [← heq]
      rw [this, hchk] at hw1
      cases hw1
    · exact hmem2

/-- Main-loop induction, cost-free version: from any state satisfying the
basic invariant, the loop terminates within the measure; on success the
goal is reached and carries a parent chain, on exhaustion the open list is
empty and the invariant still holds. -/
theorem runBatch_masterB {S : Type} {G : SGraph S} {hq : ℤ → ℤ} {startId goalId : ℤ}
    (hnd : G.idsOf.Nodup) :
    ∀ (n : Nat) (st : LoopSt), InvB G startId goalId st → measureOf G st < n →
      ∃ b stf, runBatch G hq goalId n st = some (b, stf) ∧
        (b = true → Reached stf.scr goalId ∧ ∃ p, PChain G startId stf.scr goalId p) ∧
        (b = false → stf.openList = [] ∧ InvB G startId goalId stf) := by
  intro n
  induction n with
  | zero => intro st _ hm; omega
  | succ n ih =>
    intro st hB hm
    cases hpop : pqPop st.openList with
    | none =>
      have hstep : batchStep G hq goalId st = StepRes.exhausted st := by
        unfold batchStep; rw [hpop]
      refine ⟨false, st, ?_, ?_, ?_⟩
      · simp [runBatch, hstep]
      · intro h; cases h
      · intro _; exact ⟨pqPop_eq_none.mp hpop, hB⟩
    | some er =>
      obtain ⟨e, rest⟩ := er
      by_cases hchk : (st.scr e.2).isChecked = true
      · have hstep : batchStep G hq goalId st =
            StepRes.cont { st with openList := rest } := by
          unfold batchStep; rw [hpop]; simp [hchk]
        have hB1 := skip_invB hB hpop hchk
        have hm1 : measureOf G { st with openList := rest } < n := by
          have := measure_skip (G := G) hpop
          omega
        obtain ⟨b, stf, hrun, h1, h2⟩ := ih _ hB1 hm1
        exact ⟨b, stf, by simp [runBatch, hstep, hrun], h1, h2⟩
      · have hchkf : (st.scr e.2).isChecked = false := by simpa using hchk
        by_cases hgoal : e.2 = goalId
        · have hstep : batchStep G hq goalId st =
              StepRes.found { st with openList := rest } := by
            unfold batchStep
            rw [hpop]
            dsimp only
            rw [if_neg (by simp [hchkf]), if_pos hgoal]
          refine ⟨true, { st with openList := rest }, by simp [runBatch, hstep],
            ?_, by intro h; cases h⟩
          intro _
          have hre : Reached st.scr e.2 := hB.openReached e (pqPop_mem hpop)
          rw [hgoal] at hre
          refine ⟨hre, ?_⟩
          exact hB.chains goalId hre
        · have hstep : batchStep G hq goalId st =
              StepRes.cont (expand (adjOf G e.2) hq e.2 { st with openList := rest }) := by
            unfold batchStep
            rw [hpop]
            dsimp only
            rw [if_neg (by simp [hchkf]), if_neg hgoal]
          have hvR : Reached st.scr e.2 := hB.openReached e (pqPop_mem hpop)
          have hB2 : InvB G startId goalId
              (expand (adjOf G e.2) hq e.2 { st with openList := rest }) := by
            refine expand_invB hchkf hgoal hvR (Or.inr hB.startChecked) hB.startG
              hB.startParent hB.goalUnchecked ?_ ?_ ?_ hB.chains
            · intro x _ hc ee hee
              exact hB.edgesReached x hc ee hee
            · intro qw hqw
              exact hB.openReached qw (pqPop_rest_subset hpop qw hqw)
            · intro w hwv hw1 hw2
              obtain ⟨q, hmem⟩ := hB.liveEntry w hw1 hw2
              rcases pqPop_mem_cases hpop _ hmem with heq | hmem2
              · exfalso
                apply hwv
                rw [← heq]
              · exact ⟨q, hmem2⟩
          have hm1 : measureOf G
              (expand (adjOf G e.2) hq e.2 { st with openList := rest }) < n := by
            have := @measure_expand S G hq st e rest hpop hchkf
            omega
          obtain ⟨b, stf, hrun, h1, h2⟩ := ih _ hB2 hm1
          exact ⟨b, stf, by simp [runBatch, hstep, hrun], h1, h2⟩

/-- Main-loop induction, optimality version (consistent heuristic): on
success the goal carries a parent chain and its g-cost is a lower bound of
every start-goal path cost. -/
theorem runBatch_masterO {S : Type} {G : SGraph S} {hq : ℤ → ℤ} {startId goalId : ℤ}
    (hnd : G.idsOf.Nodup)
    (hcons : ∀ u w c, EdgeIn G u w c → hq u ≤ c + hq w) :
    ∀ (n : Nat) (st : LoopSt) (K : ℤ), InvB G startId goalId st →
      InvO G hq startId st K → measureOf G st < n →
      ∃ b stf, runBatch G hq goalId n st = some (b, stf) ∧
        (b = true → Reached stf.scr goalId ∧
          (∃ p, PChain G startId stf.scr goalId p) ∧
          ∀ l, StepsOk G startId l → stepsEnd startId l = goalId →
            (stf.scr goalId).gCost ≤ stepsCost l) ∧
        (b = false → stf.openList = [] ∧ InvB G startId goalId stf) := by
  intro n
  induction n with
  | zero => intro st K _ _ hm; omega
  | succ n ih =>
    intro st K hB hO hm
    cases hpop : pqPop st.openList with
    | none =>
      have hstep : batchStep G hq goalId st = StepRes.exhausted st := by
        unfold batchStep; rw [hpop]
      refine ⟨false, st, by simp [runBatch, hstep], ?_, ?_⟩
      · intro h; cases h
      · intro _; exact ⟨pqPop_eq_none.mp hpop, hB⟩
    | some er =>
      obtain ⟨e, rest⟩ := er
      by_cases hchk : (st.scr e.2).isChecked = true
      · have hstep : batchStep G hq goalId st =
            StepRes.cont { st with openList := rest } := by
          unfold batchStep; rw [hpop]; simp [hchk]
        have hB1 := skip_invB hB hpop hchk
        have hO1 := skip_invO hO hpop hchk
        have hm1 : measureOf G { st with openList := rest } < n := by
          have := measure_skip (G := G) hpop
          omega
        obtain ⟨b, stf, hrun, h1, h2⟩ := ih _ K hB1 hO1 hm1
        exact ⟨b, stf, by simp [runBatch, hstep, hrun], h1, h2⟩
      · have hchkf : (st.scr e.2).isChecked = false := by simpa using hchk
        have hvR : Reached st.scr e.2 := hB.openReached e (pqPop_mem hpop)
        have hio : (st.scr e.2).isInOpen = true := by
          rcases hvR with h | h
          · exact h
          · rw [hchkf] at h; cases h
        have hbound := popped_le_path hnd hcons hB hO hpop hchkf
        by_cases hgoal : e.2 = goalId
        · have hstep : batchStep G hq goalId st =
              StepRes.found { st with openList := rest } := by
            unfold batchStep
            rw [hpop]
            dsimp only
            rw [if_neg (by simp [hchkf]), if_pos hgoal]
          refine ⟨true, { st with openList := rest }, by simp [runBatch, hstep],
            ?_, by intro h; cases h⟩
          intro _
          rw [hgoal] at hvR
          refine ⟨hvR, hB.chains goalId hvR, ?_⟩
          intro l hok hend
          rw [← hgoal] at hend ⊢
          exact hbound l hok hend
        · have hstep : batchStep G hq goalId st =
              StepRes.cont (expand (adjOf G e.2) hq e.2 { st with openList := rest }) := by
            unfold batchStep
            rw [hpop]
            dsimp only
            rw [if_neg (by simp [hchkf]), if_neg hgoal]
          have hlive2 : ∀ w, w ≠ e.2 → (st.scr w).isChecked = false →
              (st.scr w).isInOpen = true → ∃ q, (q, w) ∈ st.openList ∧ (q, w) ∈ rest := by
            intro w hwv hw1 hw2
            have hmem := hO.liveExact w hw1 hw2
            rcases pqPop_mem_cases hpop _ hmem with heq | hmem2
            · exfalso; apply hwv; rw [← heq]
            · exact ⟨_, hmem, hmem2⟩
          have hKle : K ≤ (st.scr e.2).gCost + hq e.2 := by
            have hmem := hO.liveExact e.2 hchkf hio
            exact (hO.entryGe _ hmem).1
          have hfqle : (st.scr e.2).gCost + hq e.2 ≤ e.1 :=
            (hO.entryGe e (pqPop_mem hpop)).2
          have hB2 : InvB G startId goalId
              (expand (adjOf G e.2) hq e.2 { st with openList := rest }) := by
            refine expand_invB hchkf hgoal hvR (Or.inr hB.startChecked) hB.startG
              hB.startParent hB.goalUnchecked ?_ ?_ ?_ hB.chains
            · intro x _ hc ee hee
              exact hB.edgesReached x hc ee hee
            · intro qw hqw
              exact hB.openReached qw (pqPop_rest_subset hpop qw hqw)
            · intro w hwv hw1 hw2
              obtain ⟨q, hmem⟩ := hB.liveEntry w hw1 hw2
              rcases pqPop_mem_cases hpop _ hmem with heq | hmem2
              · exfalso; apply hwv; rw [← heq]
              · exact ⟨q, hmem2⟩
          have hO2 : InvO G hq startId
              (expand (adjOf G e.2) hq e.2 { st with openList := rest })
              ((st.scr e.2).gCost + hq e.2) := by
            refine expand_invO hcons hchkf hgoal hvR (Or.inr hB.startChecked)
              hB.startG hB.startParent hB.goalUnchecked ?_ ?_ ?_ hB.chains rfl
              ?_ ?_ ?_ hO.checkedRelax hO.checkedOpt (hbound)
            · intro x _ hc ee hee
              exact hB.edgesReached x hc ee hee
            · intro qw hqw
              exact hB.openReached qw (pqPop_rest_subset hpop qw hqw)
            · intro w hwv hw1 hw2
              obtain ⟨q, _, hmem2⟩ := hlive2 w hwv hw1 hw2
              exact ⟨q, hmem2⟩
            · intro qw hqw
              have hq1 : e.1 ≤ qw.1 := pqPop_min hpop qw (pqPop_rest_subset hpop qw hqw)
              have hq2 := (hO.entryGe qw (pqPop_rest_subset hpop qw hqw)).2
              constructor
              · linarith
              · exact hq2
            · intro w hwv hw1 hw2
              have hmem := hO.liveExact w hw1 hw2
              rcases pqPop_mem_cases hpop _ hmem with heq | hmem2
              · exfalso; apply hwv; rw [← heq]
              · exact hmem2
            · intro x hx
              have := hO.checkedLe x hx
              linarith
          have hm1 : measureOf G
              (expand (adjOf G e.2) hq e.2 { st with openList := rest }) < n := by
            have := @measure_expand S G hq st e rest hpop hchkf
            omega
          obtain ⟨b, stf, hrun, h1, h2⟩ := ih _ _ hB2 hO2 hm1
          exact ⟨b, stf, by simp [runBatch, hstep, hrun], h1, h2⟩

/-! ### Path reconstruction -/

theorem reconChain_self (scr : ℤ → Scratch) (s : ℤ) :
    ∀ n, reconChain scr s n s = [s] := by
  intro n
  cases n with
  | zero => rfl
  | succ m => simp [reconChain]

/-- `ReconstructPath` follows the parent chain exactly: on a vertex
carrying a parent chain `p`, it returns `p` reversed (given enough
fuel). -/
theorem recon_of_chain {S : Type} {G : SGraph S} {startId : ℤ} {scr : ℤ → Scratch}
    {v : ℤ} {p : List ℤ} (h : PChain G startId scr v p) :
    ∀ n, p.length ≤ n + 1 → reconChain scr startId n v = p.reverse := by
  induction h with
  | base h0 hp hm =>
    intro n _
    rw [reconChain_self]
    rfl
  | @step u v c p hc hu he hpar hg hnv ih =>
    intro n hn
    obtain ⟨t, ht⟩ := PChain_head hc
    have hsp : startId ∈ p := by rw [ht]; exact List.mem_cons_self _ _
    have hvs : v ≠ startId := fun hh => hnv (hh ▸ hsp)
    have hplen : 1 ≤ p.length := by rw [ht]; simp
    have hlen2 : p.length + 1 ≤ n + 1 := by
      have : (p ++ [v]).length = p.length + 1 := by simp
      omega
    cases n with
    | zero => omega
    | succ m =>
      show (if v = startId then [v]
        else v :: reconChain scr startId m (((scr v).parent).getD v)) = _
      rw [if_neg hvs, hpar]
      show v :: reconChain scr startId m u = (p ++ [v]).reverse
      rw [ih m (by omega)]
      simp

/-- The length of a parent chain is bounded by the vertex count. -/
theorem chain_len_le {S : Type} {G : SGraph S} {startId : ℤ} {scr : ℤ → Scratch}
    {v : ℤ} {p : List ℤ} (hwf : WellFormed G) (h : PChain G startId scr v p) :
    p.length ≤ G.vertexCount := by
  have hnd := PChain_nodup h
  have hsub : p ⊆ G.idsOf := fun z hz => PChain_subset_ids hwf.2 h z hz
  have hperm : List.Subperm p G.idsOf := List.Nodup.subperm hnd hsub
  have := List.Subperm.length_le hperm
  simpa [SGraph.idsOf, SGraph.vertexCount] using this

/-! ### Facts about the initial loop state -/

theorem initLoopSt_scr_start (startId : ℤ) :
    (initLoopSt startId).scr startId =
      { Scratch.init with isInOpen := true, gCost := 0 } := by
  show Function.update (fun _ => Scratch.init) startId
      { Scratch.init with isInOpen := true, gCost := 0 } startId = _
  rw [Function.update_same]

theorem initLoopSt_scr_ne {startId w : ℤ} (h : w ≠ startId) :
    (initLoopSt startId).scr w = Scratch.init := by
  show Function.update (fun _ => Scratch.init) startId
      { Scratch.init with isInOpen := true, gCost := 0 } w = _
  rw [Function.update_noteq h]

theorem initLoopSt_unchecked (startId w : ℤ) :
    ((initLoopSt startId).scr w).isChecked = false := by
  by_cases hw : w = startId
  · rw [hw, initLoopSt_scr_start]; rfl
  · rw [initLoopSt_scr_ne hw]; rfl

theorem pqPop_single (e : ℤ × ℤ) : pqPop [e] = some (e, []) := rfl

theorem edgeCount_eq_sum {S : Type} (G : SGraph S) :
    edgeCount G = ((G.vertices.map (fun vx => vx.edgesTo.length)).sum) := by
  unfold edgeCount getAllEdges
  rw [List.length_flatten]
  congr 1
  rw [List.map_map]
  congr 1
  funext vx
  simp

theorem unexpDeg_le_edgeCount {S : Type} (G : SGraph S) (scr : ℤ → Scratch) :
    unexpDeg G scr ≤ edgeCount G := by
  rw [edgeCount_eq_sum]
  unfold unexpDeg
  have h := sum_filter_le (fun vx : SVertex S => vx.edgesTo.length) G.vertices
    (fun _ => true) (fun vx => !(scr vx.vid).isChecked) (fun _ _ => rfl)
  calc ((G.vertices.filter (fun vx => !(scr vx.vid).isChecked)).map
      (fun vx => vx.edgesTo.length)).sum
      ≤ ((G.vertices.filter (fun _ => true)).map
        (fun vx => vx.edgesTo.length)).sum := h
    _ = (G.vertices.map (fun vx => vx.edgesTo.length)).sum := by
        rw [List.filter_true]

theorem measureOf_init {S : Type} (G : SGraph S) (startId : ℤ) :
    measureOf G (initLoopSt startId) ≤ edgeCount G + 1 := by
  unfold measureOf
  have h1 : (initLoopSt startId).openList.length = 1 := rfl
  have h2 := unexpDeg_le_edgeCount G (initLoopSt startId).scr
  omega

theorem runBatch_succ {S : Type} (G : SGraph S) (hq : ℤ → ℤ) (goalId : ℤ)
    (n : Nat) (st : LoopSt) :
    runBatch G hq goalId (n + 1) st =
      match batchStep G hq goalId st with
      | StepRes.found st1 => some (true, st1)
      | StepRes.exhausted st1 => some (false, st1)
      | StepRes.cont st1 => runBatch G hq goalId n st1 := rfl

theorem first_step_found {S : Type} (G : SGraph S) (hq : ℤ → ℤ)
    {startId goalId : ℤ} (hA : startId = goalId) :
    batchStep G hq goalId (initLoopSt startId) =
      StepRes.found { initLoopSt startId with openList := [] } := by
  unfold batchStep
  rw [show (initLoopSt startId).openList = [((0 : ℤ), startId)] from rfl,
    pqPop_single]
  dsimp only
  rw [if_neg (by rw [initLoopSt_unchecked]; simp), if_pos hA]

theorem first_step_expand {S : Type} (G : SGraph S) (hq : ℤ → ℤ)
    {startId goalId : ℤ} (hA : startId ≠ goalId) :
    batchStep G hq goalId (initLoopSt startId) =
      StepRes.cont (expand (adjOf G startId) hq startId
        { initLoopSt startId with openList := [] }) := by
  unfold batchStep
  rw [show (initLoopSt startId).openList = [((0 : ℤ), startId)] from rfl,
    pqPop_single]
  dsimp only
  rw [if_neg (by rw [initLoopSt_unchecked]; simp), if_neg hA]

theorem first_expand_invB {S : Type} (G : SGraph S) (hq : ℤ → ℤ)
    {startId goalId : ℤ} (hA : startId ≠ goalId) (hsm : startId ∈ G.idsOf) :
    InvB G startId goalId
      (expand (adjOf G startId) hq startId
        { initLoopSt startId with openList := [] }) := by
  refine expand_invB ?_ hA ?_ (Or.inl rfl) ?_ ?_ ?_ ?_ ?_ ?_ ?_
  · exact initLoopSt_unchecked startId startId
  · left; rw [initLoopSt_scr_start]
  · rw [initLoopSt_scr_start]
  · rw [initLoopSt_scr_start]; rfl
  · exact initLoopSt_unchecked startId goalId
  · intro x _ hc
    rw [initLoopSt_unchecked] at hc
    cases hc
  · intro qw hqw
    simp at hqw
  · intro w hwv _ hw2
    rw [initLoopSt_scr_ne hwv] at hw2
    cases hw2
  · intro w hw
    by_cases hwv : w = startId
    · subst hwv
      refine ⟨[w], PChain.base ?_ ?_ hsm⟩
      · rw [initLoopSt_scr_start]
      · rw [initLoopSt_scr_start]; rfl
    · exfalso
      unfold Reached at hw
      rw [initLoopSt_scr_ne hwv] at hw
      rcases hw with hw | hw <;> cases hw

theorem first_expand_invO {S : Type} (G : SGraph S) (hq : ℤ → ℤ)
    {startId goalId : ℤ}
    (hcons : ∀ u w c, EdgeIn G u w c → hq u ≤ c + hq w)
    (hA : startId ≠ goalId) (hsm : startId ∈ G.idsOf) :
    InvO G hq startId
      (expand (adjOf G startId) hq startId
        { initLoopSt startId with openList := [] }) (0 + hq startId) := by
  refine @expand_invO _ _ _ _ _ _ 0 _ hcons ?_ hA ?_ (Or.inl rfl) ?_ ?_ ?_ ?_ ?_ ?_ ?_
    ?_ ?_ ?_ ?_ ?_ ?_ ?_
  · exact initLoopSt_unchecked startId startId
  · left; rw [initLoopSt_scr_start]
  · rw [initLoopSt_scr_start]
  · rw [initLoopSt_scr_start]; rfl
  · exact initLoopSt_unchecked startId goalId
  · intro x _ hc
    rw [initLoopSt_unchecked] at hc
    cases hc
  · intro qw hqw
    simp at hqw
  · intro w hwv _ hw2
    rw [initLoopSt_scr_ne hwv] at hw2
    cases hw2
  · intro w hw
    by_cases hwv : w = startId
    · subst hwv
      refine ⟨[w], PChain.base ?_ ?_ hsm⟩
      · rw [initLoopSt_scr_start]
      · rw [initLoopSt_scr_start]; rfl
    · exfalso
      unfold Reached at hw
      rw [initLoopSt_scr_ne hwv] at hw
      rcases hw with hw | hw <;> cases hw
  · rw [initLoopSt_scr_start]
  · intro qw hqw
    simp at hqw
  · intro w hwv _ hw2
    rw [initLoopSt_scr_ne hwv] at hw2
    cases hw2
  · intro x hc
    rw [initLoopSt_unchecked] at hc
    cases hc
  · intro x hc
    rw [initLoopSt_unchecked] at hc
    cases hc
  · intro x hc
    rw [initLoopSt_unchecked] at hc
    cases hc
  · intro l hok hend
    exact steps_loop_nonneg hcons hok hend

/-- Cost-free specification of `PerformSearch`: either the search finds
the goal and the returned identity path is exactly the goal's parent
chain, or it returns the empty path and the goal is unreachable. -/
theorem performSearch_B_spec {S : Type} (G : SGraph S) (hq : ℤ → ℤ)
    (startId goalId : ℤ) (hwf : WellFormed G) (hsm : startId ∈ G.idsOf) :
    (∃ p scrf, performSearch G hq startId goalId = (p, scrf) ∧
      PChain G startId scrf goalId p) ∨
    ((performSearch G hq startId goalId).1 = [] ∧ ¬ ReachableG G startId goalId) := by
  by_cases hA : startId = goalId
  · left
    have hrun : runBatch G hq goalId (edgeCount G + 2) (initLoopSt startId) =
        some (true, { initLoopSt startId with openList := [] }) := by
      show runBatch G hq goalId (edgeCount G + 1 + 1) (initLoopSt startId) = _
      rw [runBatch_succ, first_step_found G hq hA]
    have hchain : PChain G startId (initLoopSt startId).scr goalId [goalId] := by
      rw [← hA]
      refine PChain.base ?_ ?_ hsm
      · rw [initLoopSt_scr_start]
      · rw [initLoopSt_scr_start]; rfl
    refine ⟨[goalId], (initLoopSt startId).scr, ?_, hchain⟩
    unfold performSearch
    rw [hrun]
    dsimp only
    rw [← hA, reconChain_self]
    simp
  · have hstep := first_step_expand G hq hA
    set stexp := expand (adjOf G startId) hq startId
      { initLoopSt startId with openList := [] } with hstexp
    have hB2 := first_expand_invB G hq hA hsm
    have hm0 : measureOf G (initLoopSt startId) ≤ edgeCount G + 1 :=
      measureOf_init G startId
    have hdec : measureOf G stexp < measureOf G (initLoopSt startId) :=
      @measure_expand S G hq (initLoopSt startId) ((0 : ℤ), startId)
        [] (pqPop_single _) (initLoopSt_unchecked startId startId)
    have hm2 : measureOf G stexp < edgeCount G + 1 := by omega
    obtain ⟨b, stf, hrun, hfound, hexh⟩ :=
      @runBatch_masterB S G hq startId goalId hwf.1 (edgeCount G + 1) stexp hB2 hm2
    have hrunTot : runBatch G hq goalId (edgeCount G + 2) (initLoopSt startId) =
        some (b, stf) := by
      show runBatch G hq goalId (edgeCount G + 1 + 1) (initLoopSt startId) = _
      rw [runBatch_succ, hstep]
      exact hrun
    cases b with
    | true =>
      left
      obtain ⟨_, p, hp⟩ := hfound rfl
      refine ⟨p, stf.scr, ?_, hp⟩
      unfold performSearch
      rw [hrunTot]
      dsimp only
      have hlen : p.length ≤ G.vertexCount + 1 :=
        Nat.le_succ_of_le (chain_len_le hwf hp)
      rw [recon_of_chain hp G.vertexCount hlen, List.reverse_reverse]
    | false =>
      right
      obtain ⟨hopen, hBf⟩ := hexh rfl
      constructor
      · unfold performSearch
        rw [hrunTot]
      · exact exhausted_unreachable hwf.1 hBf hopen

/-- Optimality specification of `PerformSearch` for a consistent
heuristic and a reachable goal: the returned identity path is the goal's
parent chain and the goal's final g-cost is a lower bound on every
start-goal path cost. -/
theorem performSearch_O_spec {S : Type} (G : SGraph S) (hq : ℤ → ℤ)
    (startId goalId : ℤ) (hwf : WellFormed G)
    (hcons : ∀ u w c, EdgeIn G u w c → hq u ≤ c + hq w)
    (hsm : startId ∈ G.idsOf) (hreach : ReachableG G startId goalId) :
    ∃ p scrf, performSearch G hq startId goalId = (p, scrf) ∧
      PChain G startId scrf goalId p ∧
      ∀ l, StepsOk G startId l → stepsEnd startId l = goalId →
        (scrf goalId).gCost ≤ stepsCost l := by
  by_cases hA : startId = goalId
  · have hrun : runBatch G hq goalId (edgeCount G + 2) (initLoopSt startId) =
        some (true, { initLoopSt startId with openList := [] }) := by
      show runBatch G hq goalId (edgeCount G + 1 + 1) (initLoopSt startId) = _
      rw [runBatch_succ, first_step_found G hq hA]
    have hchain : PChain G startId (initLoopSt startId).scr goalId [goalId] := by
      rw [← hA]
      refine PChain.base ?_ ?_ hsm
      · rw [initLoopSt_scr_start]
      · rw [initLoopSt_scr_start]; rfl
    refine ⟨[goalId], (initLoopSt startId).scr, ?_, hchain, ?_⟩
    · unfold performSearch
      rw [hrun]
      dsimp only
      rw [← hA, reconChain_self]
      simp
    · intro l hok hend
      have hg0 : ((initLoopSt startId).scr goalId).gCost = 0 := by
        rw [← hA, initLoopSt_scr_start]
      rw [hg0]
      rw [← hA] at hend
      exact steps_loop_nonneg hcons hok hend
  · have hstep := first_step_expand G hq hA
    set stexp := expand (adjOf G startId) hq startId
      { initLoopSt startId with openList := [] } with hstexp
    have hB2 := first_expand_invB G hq hA hsm
    have hO2 := first_expand_invO G hq hcons hA hsm
    have hm0 : measureOf G (initLoopSt startId) ≤ edgeCount G + 1 :=
      measureOf_init G startId
    have hdec : measureOf G stexp < measureOf G (initLoopSt startId) :=
      @measure_expand S G hq (initLoopSt startId) ((0 : ℤ), startId)
        [] (pqPop_single _) (initLoopSt_unchecked startId startId)
    have hm2 : measureOf G stexp < edgeCount G + 1 := by omega
    obtain ⟨b, stf, hrun, hfound, hexh⟩ :=
      runBatch_masterO hwf.1 hcons (edgeCount G + 1) stexp (0 + hq startId) hB2 hO2 hm2
    have hrunTot : runBatch G hq goalId (edgeCount G + 2) (initLoopSt startId) =
        some (b, stf) := by
      show runBatch G hq goalId (edgeCount G + 1 + 1) (initLoopSt startId) = _
      rw [runBatch_succ, hstep]
      exact hrun
    cases b with
    | true =>
      obtain ⟨_, ⟨p, hp⟩, hbound⟩ := hfound rfl
      refine ⟨p, stf.scr, ?_, hp, hbound⟩
      unfold performSearch
      rw [hrunTot]
      dsimp only
      have hlen : p.length ≤ G.vertexCount + 1 :=
        Nat.le_succ_of_le (chain_len_le hwf hp)
      rw [recon_of_chain hp G.vertexCount hlen, List.reverse_reverse]
    | false =>
      exfalso
      obtain ⟨hopen, hBf⟩ := hexh rfl
      exact exhausted_unreachable hwf.1 hBf hopen hreach

theorem StepsOk_end_mem {S : Type} {G : SGraph S} :
    ∀ {l : List EdgeTo} {v : ℤ}, StepsOk G v l → stepsEnd v l ∈ G.idsOf := by
  intro l
  induction l with
  | nil => intro v h; exact h
  | cons e rest ih => intro v h; exact ih h.2

theorem searchFull_of_present {S : Type} [Inhabited S] (G : SGraph S)
    (hfun : S → S → ℤ) (startId goalId : ℤ)
    (hs : startId ∈ G.idsOf) (hg : goalId ∈ G.idsOf) :
    searchFull G hfun startId goalId =
      ((performSearch G (fun i => hfun (stateAt G i) (stateAt G goalId))
          startId goalId).1.map (stateAt G),
        (performSearch G (fun i => hfun (stateAt G i) (stateAt G goalId))
          startId goalId).2) := by
  have h1 : (G.findVertex startId).isSome = true := findVertex_isSome_iff.mpr hs
  have h2 : (G.findVertex goalId).isSome = true := findVertex_isSome_iff.mpr hg
  unfold searchFull
  rw [if_pos (by rw [h1, h2]; rfl)]

theorem searchFull_of_absent {S : Type} [Inhabited S] (G : SGraph S)
    (hfun : S → S → ℤ) (startId goalId : ℤ)
    (h : ¬(startId ∈ G.idsOf ∧ goalId ∈ G.idsOf)) :
    searchFull G hfun startId goalId = ([], fun _ => Scratch.init) := by
  unfold searchFull
  rw [if_neg]
  intro hc
  rw [Bool.and_eq_true] at hc
  exact h ⟨findVertex_isSome_iff.mp hc.1, findVertex_isSome_iff.mp hc.2⟩

theorem performSearch_self {S : Type} (G : SGraph S) (hq : ℤ → ℤ) (i : ℤ) :
    (performSearch G hq i i).1 = [i] := by
  have hrun : runBatch G hq i (edgeCount G + 2) (initLoopSt i) =
      some (true, { initLoopSt i with openList := [] }) := by
    show runBatch G hq i (edgeCount G + 1 + 1) (initLoopSt i) = _
    rw [runBatch_succ, first_step_found G hq rfl]
  unfold performSearch
  rw [hrun]
  dsimp only
  rw [reconChain_self]
  simp

/-- Claim C1.  For every well-formed finite graph with non-negative edge
costs and a heuristic that is admissible and consistent, if the goal is
reachable from the start then the path returned by `Search` follows a
valid edge path from start to goal whose total cost is minimal among all
start-goal paths, i.e. it equals the cost of a true shortest path. -/
theorem astar_search_optimal {S : Type} [Inhabited S] (G : SGraph S)
    (hfun : S → S → ℤ) (startId goalId : ℤ) (hwf : WellFormed G)
    (hnn : ∀ u v c, EdgeIn G u v c → 0 ≤ c)
    (hadm : ∀ v l, v ∈ G.idsOf → StepsOk G v l → stepsEnd v l = goalId →
      hfun (stateAt G v) (stateAt G goalId) ≤ stepsCost l)
    (hcons : ∀ u v c, EdgeIn G u v c →
      hfun (stateAt G u) (stateAt G goalId) ≤
        c + hfun (stateAt G v) (stateAt G goalId))
    (hreach : ReachableG G startId goalId) :
    ∃ l, StepsOk G startId l ∧ stepsEnd startId l = goalId ∧
      search G hfun startId goalId =
        (startId :: l.map (fun e => e.1)).map (stateAt G) ∧
      ∀ l2, StepsOk G startId l2 → stepsEnd startId l2 = goalId →
        stepsCost l ≤ stepsCost l2 := by
  obtain ⟨l0, hok0, hend0⟩ := hreach
  have hsm : startId ∈ G.idsOf := StepsOk_mem hok0
  have hgm : goalId ∈ G.idsOf := by
    have := StepsOk_end_mem hok0
    rw [hend0] at this
    exact this
  obtain ⟨p, scrf, hps, hchain, hbound⟩ :=
    performSearch_O_spec G (fun i => hfun (stateAt G i) (stateAt G goalId))
      startId goalId hwf (fun u w c he => hcons u w c he) hsm ⟨l0, hok0, hend0⟩
  obtain ⟨l, hok, hend, hcost, hform⟩ := PChain_to_steps hwf.2 hchain
  refine ⟨l, hok, hend, ?_, ?_⟩
  · unfold search
    rw [searchFull_of_present G hfun startId goalId hsm hgm]
    rw [hps]
    rw [hform]
  · intro l2 hok2 hend2
    rw [hcost]
    exact hbound l2 hok2 hend2

/-- Claim C3.  For every well-formed graph, `Search` returns the empty
path exactly when the start identity is absent, the goal identity is
absent, or the goal is unreachable from the start; being a total
function, the embedding raises no exception in any of these cases. -/
theorem search_empty_iff {S : Type} [Inhabited S] (G : SGraph S)
    (hfun : S → S → ℤ) (startId goalId : ℤ) (hwf : WellFormed G) :
    search G hfun startId goalId = [] ↔
      ¬(startId ∈ G.idsOf ∧ goalId ∈ G.idsOf ∧ ReachableG G startId goalId) := by
  constructor
  · intro hempty hcon
    obtain ⟨hs, hg, hreach⟩ := hcon
    rcases performSearch_B_spec G
        (fun i => hfun (stateAt G i) (stateAt G goalId)) startId goalId hwf hs with
      ⟨p, scrf, hps, hchain⟩ | ⟨hnil, hunreach⟩
    · obtain ⟨t, ht⟩ := PChain_head hchain
      unfold search at hempty
      rw [searchFull_of_present G hfun startId goalId hs hg, hps, ht] at hempty
      simp at hempty
    · exact hunreach hreach
  · intro hncon
    by_cases hpres : startId ∈ G.idsOf ∧ goalId ∈ G.idsOf
    · obtain ⟨hs, hg⟩ := hpres
      have hnreach : ¬ ReachableG G startId goalId := fun hr => hncon ⟨hs, hg, hr⟩
      rcases performSearch_B_spec G
          (fun i => hfun (stateAt G i) (stateAt G goalId)) startId goalId hwf hs with
        ⟨p, scrf, hps, hchain⟩ | ⟨hnil, _⟩
      · exfalso
        obtain ⟨l, hok, hend, _, _⟩ := PChain_to_steps hwf.2 hchain
        exact hnreach ⟨l, hok, hend⟩
      · unfold search
        rw [searchFull_of_present G hfun startId goalId hs hg]
        rw [hnil]
        rfl
    · unfold search
      rw [searchFull_of_absent G hfun startId goalId hpres]

/-- Claim C9.  On any graph containing a vertex with identity `i`,
calling `Search` with start and goal both resolving to that vertex
returns the singleton path holding exactly its state: the goal is popped
on the first iteration before any expansion and reconstruction yields one
vertex. -/
theorem search_self_singleton {S : Type} [Inhabited S] (G : SGraph S)
    (hfun : S → S → ℤ) (i : ℤ) (vx : SVertex S)
    (h : G.findVertex i = some vx) : search G hfun i i = [vx.state] := by
  have hs : i ∈ G.idsOf := findVertex_isSome_iff.mp (by rw [h]; rfl)
  unfold search
  rw [searchFull_of_present G hfun i i hs hs]
  rw [show ((performSearch G (fun j => hfun (stateAt G j) (stateAt G i)) i i).1) = [i]
    from performSearch_self G _ i]
  simp [stateAt, h]

/-- The concrete five-vertex scenario graph of the spec: vertices `1..5`,
directed edges `(1,2,1) (2,3,1) (1,3,5) (3,4,1) (4,5,1)`, built through
the graph mutators with the identity indexer. -/
def demoGraph : SGraph ℤ :=
  let g0 := ([1, 2, 3, 4, 5] : List ℤ).foldl
    (fun g s => (addVertex id g s).1) (SGraph.empty ℤ)
  let es : List (ℤ × ℤ × ℤ) := [(1, 2, 1), (2, 3, 1), (1, 3, 5), (3, 4, 1), (4, 5, 1)]
  es.foldl (fun g e => addEdge id g e.1 e.2.1 e.2.2) g0

/-- Claim C4.  On the concrete graph with vertices 1..5 and edges
(1,2,1), (2,3,1), (1,3,5), (3,4,1), (4,5,1), with the identically-zero
heuristic, `Search(1,5)` returns exactly the path `[1,2,3,4,5]` and the
accumulated g-cost at the goal is `4`. -/
theorem search_demo_scenario :
    search demoGraph (fun _ _ => 0) 1 5 = [1, 2, 3, 4, 5] ∧
      ((searchFull demoGraph (fun _ _ => 0) 1 5).2 5).gCost = 4 := by
  constructor
  · decide
  · decide

/-! ### Decidability and witness helpers -/

instance {S : Type} [DecidableEq S] (G : SGraph S) (u v : ℤ) (c : ℤ) :
    Decidable (EdgeIn G u v c) :=
  decidable_of_iff (∃ vx ∈ G.vertices, vx.vid = u ∧ (v, c) ∈ vx.edgesTo) Iff.rfl

instance instDecStepsOk {S : Type} [DecidableEq S] (G : SGraph S) :
    ∀ (l : List EdgeTo) (v : ℤ), Decidable (StepsOk G v l)
  | [], v => inferInstanceAs (Decidable (v ∈ G.idsOf))
  | e :: rest, v =>
    have : Decidable (StepsOk G e.1 rest) := instDecStepsOk G rest e.1
    inferInstanceAs (Decidable (EdgeIn G v e.1 e.2 ∧ StepsOk G e.1 rest))

instance {S : Type} [DecidableEq S] (g : SGraph S) : Decidable (WellFormed g) :=
  decidable_of_iff
    (g.idsOf.Nodup ∧ ∀ vx ∈ g.vertices, ∀ e ∈ vx.edgesTo, e.1 ∈ g.idsOf) Iff.rfl

theorem edgeIn_mem_getAllEdges {S : Type} {G : SGraph S} {u v : ℤ} {c : ℤ}
    (h : EdgeIn G u v c) : (u, v, c) ∈ getAllEdges G := by
  obtain ⟨vx, hvx, hvid, hmem⟩ := h
  unfold getAllEdges
  rw [List.mem_flatten]
  refine ⟨vx.edgesTo.map (fun e => (vx.vid, e.1, e.2)), ?_, ?_⟩
  · exact List.mem_map.mpr ⟨vx, hvx, rfl⟩
  · exact List.mem_map.mpr ⟨(v, c), hmem, by rw [hvid]⟩

theorem stepsCost_nonneg {S : Type} {G : SGraph S}
    (hnn : ∀ x ∈ getAllEdges G, 0 ≤ x.2.2) :
    ∀ {l : List EdgeTo} {v : ℤ}, StepsOk G v l → 0 ≤ stepsCost l := by
  intro l
  induction l with
  | nil => intro v _; simp [stepsCost]
  | cons e rest ih =>
    intro v h
    have h1 := hnn _ (edgeIn_mem_getAllEdges h.1)
    have h2 := ih h.2
    simp only [stepsCost, List.map_cons, List.sum_cons] at h2 ⊢
    simp only at h1
    linarith

theorem c1_demo_witness :
    WellFormed demoGraph ∧ ReachableG demoGraph 1 5 ∧
    ∃ l, StepsOk demoGraph 1 l ∧ stepsEnd 1 l = 5 ∧
      search demoGraph (fun _ _ => 0) 1 5 =
        ((1 : ℤ) :: l.map (fun e => e.1)).map (stateAt demoGraph) ∧
      ∀ l2, StepsOk demoGraph 1 l2 → stepsEnd 1 l2 = 5 →
        stepsCost l ≤ stepsCost l2 := by
  have hnn : ∀ x ∈ getAllEdges demoGraph, 0 ≤ x.2.2 := by decide
  have hreach : ReachableG demoGraph 1 5 :=
    ⟨[(2, 1), (3, 1), (4, 1), (5, 1)], by decide, by decide⟩
  refine ⟨by decide, hreach, ?_⟩
  exact astar_search_optimal demoGraph (fun _ _ => 0) 1 5 (by decide)
    (fun u v c he => hnn _ (edgeIn_mem_getAllEdges he))
    (fun v l _ hok _ => stepsCost_nonneg hnn hok)
    (fun u v c he => by
      have := hnn _ (edgeIn_mem_getAllEdges he)
      simp only at this
      linarith)
    hreach

theorem c3_demo_witness :
    WellFormed demoGraph ∧
    (search demoGraph (fun _ _ => 0) 1 7 = [] ↔
      ¬((1 : ℤ) ∈ demoGraph.idsOf ∧ (7 : ℤ) ∈ demoGraph.idsOf ∧
        ReachableG demoGraph 1 7)) :=
  ⟨by decide, search_empty_iff demoGraph (fun _ _ => 0) 1 7 (by decide)⟩

theorem c9_demo_witness :
    demoGraph.findVertex 3 =
      some ⟨(3 : ℤ), 3, [((4 : ℤ), (1 : ℤ))], [(2 : ℤ), 1]⟩ ∧
    search demoGraph (fun _ _ => 0) 3 3 = [(3 : ℤ)] :=
  ⟨by decide, search_self_singleton demoGraph (fun _ _ => 0) 3
    ⟨(3 : ℤ), 3, [((4 : ℤ), (1 : ℤ))], [(2 : ℤ), 1]⟩ (by decide)⟩

/-! ### Lemmas about the graph mutators -/

theorem addVertex_present {S : Type} {idx : S → ℤ} {g : SGraph S} {s : S}
    (h : (g.findVertex (idx s)).isSome) : addVertex idx g s = (g, idx s) := by
  unfold addVertex
  cases hf : g.findVertex (idx s) with
  | none => rw [hf] at h; cases h
  | some vx => rfl

theorem addVertex_absent {S : Type} {idx : S → ℤ} {g : SGraph S} {s : S}
    (h : g.findVertex (idx s) = none) :
    addVertex idx g s = (⟨g.vertices ++ [⟨s, idx s, [], []⟩]⟩, idx s) := by
  unfold addVertex
  rw [h]

theorem addVertex_snd {S : Type} (idx : S → ℤ) (g : SGraph S) (s : S) :
    (addVertex idx g s).2 = idx s := by
  unfold addVertex
  cases g.findVertex (idx s) <;> rfl

theorem addVertex_mem {S : Type} (idx : S → ℤ) (g : SGraph S) (s : S) :
    idx s ∈ (addVertex idx g s).1.idsOf := by
  cases hf : g.findVertex (idx s) with
  | none =>
    rw [addVertex_absent hf]
    unfold SGraph.idsOf
    simp
  | some vx =>
    rw [addVertex_present (by rw [hf]; rfl)]
    exact findVertex_isSome_iff.mp (by rw [hf]; rfl)

theorem addVertex_mem_mono {S : Type} {idx : S → ℤ} {g : SGraph S} {s : S} {u : ℤ}
    (h : u ∈ g.idsOf) : u ∈ (addVertex idx g s).1.idsOf := by
  cases hf : g.findVertex (idx s) with
  | none =>
    rw [addVertex_absent hf]
    unfold SGraph.idsOf at h ⊢
    simp only [List.map_append, List.mem_append]
    exact Or.inl h
  | some vx =>
    rw [addVertex_present (by rw [hf]; rfl)]
    exact h

theorem addVertex_findVertex_of_mem {S : Type} {idx : S → ℤ} {g : SGraph S} {s : S}
    {u : ℤ} (h : u ∈ g.idsOf) :
    (addVertex idx g s).1.findVertex u = g.findVertex u := by
  cases hf : g.findVertex (idx s) with
  | none =>
    rw [addVertex_absent hf]
    unfold SGraph.findVertex
    rw [List.find?_append]
    cases hfu : g.vertices.find? (fun vx => vx.vid == u) with
    | some vx => rfl
    | none =>
      exfalso
      have : (g.findVertex u).isSome := findVertex_isSome_iff.mpr h
      unfold SGraph.findVertex at this
      rw [hfu] at this
      cases this
  | some vx =>
    rw [addVertex_present (by rw [hf]; rfl)]

theorem addVertex_nodup {S : Type} {idx : S → ℤ} {g : SGraph S} {s : S}
    (h : g.idsOf.Nodup) : (addVertex idx g s).1.idsOf.Nodup := by
  cases hf : g.findVertex (idx s) with
  | none =>
    rw [addVertex_absent hf]
    unfold SGraph.idsOf at h ⊢
    simp only [List.map_append, List.map_cons, List.map_nil]
    rw [List.nodup_append]
    refine ⟨h, List.nodup_singleton _, ?_⟩
    intro x hx hx2
    rw [List.mem_singleton] at hx2
    have hxs : (g.findVertex x).isSome := findVertex_isSome_iff.mpr hx
    rw [hx2, hf] at hxs
    cases hxs
  | some vx =>
    rw [addVertex_present (by rw [hf]; rfl)]
    exact h

/-- Claim C6.  `AddVertex` is idempotent up to identity: adding two
states with the same derived identity returns the same vertex identity,
the second call leaves the graph (hence the vertex count and every stored
state) entirely unchanged, and when the identity was fresh the stored
state is the first state added. -/
theorem addVertex_idempotent {S : Type} [Inhabited S] (idx : S → ℤ) (g : SGraph S)
    (s1 s2 : S) (hid : idx s1 = idx s2) :
    (addVertex idx (addVertex idx g s1).1 s2).2 = (addVertex idx g s1).2 ∧
    (addVertex idx (addVertex idx g s1).1 s2).1 = (addVertex idx g s1).1 ∧
    (addVertex idx (addVertex idx g s1).1 s2).1.vertexCount =
      (addVertex idx g s1).1.vertexCount ∧
    (g.findVertex (idx s1) = none →
      stateAt (addVertex idx (addVertex idx g s1).1 s2).1 (idx s1) = s1) := by
  have hmem : idx s2 ∈ (addVertex idx g s1).1.idsOf := by
    rw [← hid]
    exact addVertex_mem idx g s1
  have hsome : ((addVertex idx g s1).1.findVertex (idx s2)).isSome :=
    findVertex_isSome_iff.mpr hmem
  have hnoop := addVertex_present (g := (addVertex idx g s1).1) (s := s2) hsome
  refine ⟨?_, ?_, ?_, ?_⟩
  · rw [hnoop]
    show idx s2 = (addVertex idx g s1).2
    rw [addVertex_snd, ← hid]
  · rw [hnoop]
  · rw [hnoop]
  · intro hfresh
    rw [hnoop]
    rw [addVertex_absent hfresh]
    unfold stateAt SGraph.findVertex
    rw [List.find?_append]
    have hnone : g.vertices.find? (fun vx => vx.vid == idx s1) = none := hfresh
    rw [hnone]
    simp

theorem c6_witness :
    (id (1 : ℤ) = id 1) ∧
    ((addVertex id (addVertex id (SGraph.empty ℤ) 1).1 1).2 =
        (addVertex id (SGraph.empty ℤ) (1 : ℤ)).2 ∧
      (addVertex id (addVertex id (SGraph.empty ℤ) 1).1 1).1 =
        (addVertex id (SGraph.empty ℤ) (1 : ℤ)).1 ∧
      (addVertex id (addVertex id (SGraph.empty ℤ) 1).1 1).1.vertexCount =
        (addVertex id (SGraph.empty ℤ) (1 : ℤ)).1.vertexCount ∧
      ((SGraph.empty ℤ).findVertex (id (1 : ℤ)) = none →
        stateAt (addVertex id (addVertex id (SGraph.empty ℤ) 1).1 1).1
          (id (1 : ℤ)) = 1)) :=
  ⟨rfl, addVertex_idempotent id (SGraph.empty ℤ) 1 1 rfl⟩

theorem mem_getAllEdges_iff {S : Type} {g : SGraph S} {e : ℤ × ℤ × ℤ} :
    e ∈ getAllEdges g ↔
      ∃ vx ∈ g.vertices, ∃ ed ∈ vx.edgesTo, e = (vx.vid, ed.1, ed.2) := by
  unfold getAllEdges
  rw [List.mem_flatten]
  constructor
  · rintro ⟨l, hl, hel⟩
    obtain ⟨vx, hvx, rfl⟩ := List.mem_map.mp hl
    obtain ⟨ed, hed, rfl⟩ := List.mem_map.mp hel
    exact ⟨vx, hvx, ed, hed, rfl⟩
  · rintro ⟨vx, hvx, ed, hed, rfl⟩
    exact ⟨vx.edgesTo.map (fun ed2 => (vx.vid, ed2.1, ed2.2)),
      List.mem_map.mpr ⟨vx, hvx, rfl⟩, List.mem_map.mpr ⟨ed, hed, rfl⟩⟩

/-- Claim C7.  After `RemoveVertex(v)` on a graph containing `v`, no
stored edge has `v` as source or destination (so `GetAllEdges` excludes
every edge that touched it) and no other vertex's predecessor list still
references it; `RemoveVertex` of an absent identity is a no-op. -/
theorem removeVertex_scrubs {S : Type} (g : SGraph S) (i : ℤ)
    (hp : (g.findVertex i).isSome) :
    (∀ e ∈ getAllEdges (removeVertex g i), e.1 ≠ i ∧ e.2.1 ≠ i) ∧
    (∀ vx ∈ (removeVertex g i).vertices, i ∉ vx.predsFrom) ∧
    i ∉ (removeVertex g i).idsOf ∧
    (∀ (g2 : SGraph S) (j : ℤ), g2.findVertex j = none → removeVertex g2 j = g2) := by
  have hrw : removeVertex g i =
      ⟨(g.vertices.filter (fun vx => vx.vid != i)).map (fun vx =>
        { vx with edgesTo := vx.edgesTo.filter (fun e => e.1 != i),
                  predsFrom := vx.predsFrom.filter (fun p => p != i) })⟩ := by
    unfold removeVertex
    rw [if_pos hp]
  refine ⟨?_, ?_, ?_, ?_⟩
  · intro e he
    rw [hrw] at he
    rw [mem_getAllEdges_iff] at he
    obtain ⟨vx, hvx, ed, hed, rfl⟩ := he
    obtain ⟨vx0, hvx0, rfl⟩ := List.mem_map.mp hvx
    have hvid : vx0.vid ≠ i := by
      have := List.of_mem_filter hvx0
      simpa using this
    have hed2 : ed.1 ≠ i := by
      have := List.of_mem_filter hed
      simpa using this
    exact ⟨hvid, hed2⟩
  · intro vx hvx
    rw [hrw] at hvx
    obtain ⟨vx0, hvx0, rfl⟩ := List.mem_map.mp hvx
    intro hmem
    have := List.of_mem_filter hmem
    simp at this
  · intro hmem
    rw [hrw] at hmem
    unfold SGraph.idsOf at hmem
    rw [List.map_map] at hmem
    obtain ⟨vx0, hvx0, hvid⟩ := List.mem_map.mp hmem
    have := List.of_mem_filter hvx0
    simp only [Function.comp] at hvid
    rw [hvid] at this
    simp at this
  · intro g2 j hnone
    unfold removeVertex
    rw [if_neg (by rw [hnone]; simp)]

theorem c7_witness :
    ((demoGraph.findVertex 3).isSome = true) ∧
    ((∀ e ∈ getAllEdges (removeVertex demoGraph 3), e.1 ≠ 3 ∧ e.2.1 ≠ 3) ∧
      (∀ vx ∈ (removeVertex demoGraph 3).vertices, (3 : ℤ) ∉ vx.predsFrom) ∧
      (3 : ℤ) ∉ (removeVertex demoGraph 3).idsOf ∧
      (∀ (g2 : SGraph ℤ) (j : ℤ), g2.findVertex j = none → removeVertex g2 j = g2)) :=
  ⟨by decide, removeVertex_scrubs demoGraph 3 (by decide)⟩

/-! ### Upsert lemmas and the `AddEdge` characterisation -/

theorem upsertEdge_any (es : List EdgeTo) (d : ℤ) (c : ℤ) :
    (upsertEdge es d c).any (fun e => e.1 == d) = true := by
  unfold upsertEdge
  by_cases hany : es.any (fun e => e.1 == d) = true
  · rw [if_pos hany]
    rw [List.any_eq_true] at hany ⊢
    obtain ⟨e, he, hpe⟩ := hany
    refine ⟨(d, c), List.mem_map.mpr ⟨e, he, by rw [if_pos hpe]⟩, by simp⟩
  · rw [if_neg hany]
    rw [List.any_eq_true]
    exact ⟨(d, c), List.mem_append.mpr (Or.inr (List.mem_singleton.mpr rfl)), by simp⟩

theorem upsertEdge_length_of_any {es : List EdgeTo} {d : ℤ} (c : ℤ)
    (h : es.any (fun e => e.1 == d) = true) :
    (upsertEdge es d c).length = es.length := by
  unfold upsertEdge
  rw [if_pos h, List.length_map]

theorem filter_eq_nil_of_no_match {es : List EdgeTo} {d : ℤ}
    (h : ∀ e ∈ es, ¬(e.1 == d) = true) :
    es.filter (fun e => e.1 == d) = [] := by
  induction es with
  | nil => rfl
  | cons e rest ih =>
    rw [List.filter_cons, if_neg (h e (List.mem_cons_self _ _))]
    exact ih (fun x hx => h x (List.mem_cons_of_mem _ hx))

theorem map_filter_eq_nil {es : List EdgeTo} {d : ℤ} {c : ℤ}
    (h : es.filter (fun e => e.1 == d) = []) :
    (es.map (fun e => if e.1 == d then (d, c) else e)).filter
      (fun e => e.1 == d) = [] := by
  apply filter_eq_nil_of_no_match
  intro e he
  obtain ⟨e0, he0, rfl⟩ := List.mem_map.mp he
  have hno : ¬(e0.1 == d) = true := by
    intro hc
    have : e0 ∈ es.filter (fun e => e.1 == d) := List.mem_filter.mpr ⟨he0, hc⟩
    rw [h] at this
    cases this
  rw [if_neg hno]
  exact hno

theorem upsertEdge_filter {es : List EdgeTo} {d : ℤ} (c : ℤ)
    (h : (es.filter (fun e => e.1 == d)).length ≤ 1) :
    (upsertEdge es d c).filter (fun e => e.1 == d) = [(d, c)] := by
  unfold upsertEdge
  by_cases hany : es.any (fun e => e.1 == d) = true
  · rw [if_pos hany]
    induction es with
    | nil => simp at hany
    | cons e rest ih =>
      by_cases he : (e.1 == d) = true
      · have hfe : (e :: rest).filter (fun e => e.1 == d) =
            e :: rest.filter (fun e => e.1 == d) := by
          rw [List.filter_cons, if_pos he]
        rw [hfe] at h
        simp only [List.length_cons] at h
        have hrest : rest.filter (fun e => e.1 == d) = [] := by
          have : (rest.filter (fun e => e.1 == d)).length = 0 := by omega
          exact List.length_eq_zero.mp this
        rw [List.map_cons]
        rw [show ((if (e.1 == d) = true then (d, c) else e) : EdgeTo) = (d, c) from
          if_pos he]
        rw [List.filter_cons,
          if_pos (show ((((d, c) : EdgeTo)).1 == d) = true by simp)]
        rw [map_filter_eq_nil hrest]
      · rw [List.map_cons, List.filter_cons]
        rw [show ((if (e.1 == d) = true then (d, c) else e) : EdgeTo) = e from
          if_neg he]
        rw [if_neg he]
        have hany2 : rest.any (fun e => e.1 == d) = true := by
          rw [List.any_cons] at hany
          rcases Bool.or_eq_true_iff.mp hany with hh | hh
          · exact absurd hh he
          · exact hh
        have h2 : (rest.filter (fun e => e.1 == d)).length ≤ 1 := by
          rw [List.filter_cons, if_neg he] at h
          exact h
        exact ih h2 hany2
  · rw [if_neg hany]
    rw [List.filter_append]
    have hnil : es.filter (fun e => e.1 == d) = [] := by
      apply filter_eq_nil_of_no_match
      intro e he hc
      rw [List.any_eq_true] at hany
      exact hany ⟨e, he, hc⟩
    rw [hnil]
    simp

/-- The per-vertex update applied by `AddEdge` to every stored vertex. -/
def edgeUpdFun {S : Type} (ia ib : ℤ) (c : ℤ) : SVertex S → SVertex S := fun vx =>
  let vx1 := if vx.vid == ia then { vx with edgesTo := upsertEdge vx.edgesTo ib c }
    else vx
  if vx1.vid == ib then { vx1 with predsFrom := addPred vx1.predsFrom ia } else vx1

theorem addEdge_eq {S : Type} (idx : S → ℤ) (g : SGraph S) (a b : S) (c : ℤ) :
    addEdge idx g a b c =
      ⟨((addVertex idx (addVertex idx g a).1 b).1).vertices.map
        (edgeUpdFun (idx a) (idx b) c)⟩ := rfl

theorem edgeUpdFun_vid {S : Type} (ia ib : ℤ) (c : ℤ) (vx : SVertex S) :
    (edgeUpdFun ia ib c vx).vid = vx.vid := by
  unfold edgeUpdFun
  dsimp only
  split <;> split <;> rfl

theorem edgeUpdFun_state {S : Type} (ia ib : ℤ) (c : ℤ) (vx : SVertex S) :
    (edgeUpdFun ia ib c vx).state = vx.state := by
  unfold edgeUpdFun
  dsimp only
  split <;> split <;> rfl

theorem edgeUpdFun_edgesTo {S : Type} (ia ib : ℤ) (c : ℤ) (vx : SVertex S) :
    (edgeUpdFun ia ib c vx).edgesTo =
      if (vx.vid == ia) = true then upsertEdge vx.edgesTo ib c else vx.edgesTo := by
  unfold edgeUpdFun
  dsimp only
  split <;> split <;> simp_all

theorem findVertex_map {S : Type} (L : List (SVertex S)) (f : SVertex S → SVertex S)
    (hf : ∀ vx, (f vx).vid = vx.vid) (u : ℤ) :
    (SGraph.mk (L.map f)).findVertex u = ((SGraph.mk L).findVertex u).map f := by
  unfold SGraph.findVertex
  dsimp only
  rw [List.find?_map]
  have hp : ((fun vx : SVertex S => vx.vid == u) ∘ f) =
      (fun vx : SVertex S => vx.vid == u) := by
    funext vx
    simp [Function.comp, hf]
  rw [hp]

theorem idsOf_map {S : Type} (L : List (SVertex S)) (f : SVertex S → SVertex S)
    (hf : ∀ vx, (f vx).vid = vx.vid) :
    (SGraph.mk (L.map f)).idsOf = (SGraph.mk L).idsOf := by
  unfold SGraph.idsOf
  dsimp only
  rw [List.map_map]
  congr 1
  funext vx
  simp [Function.comp, hf]

theorem getAllEdges_cons {S : Type} (h : SVertex S) (t : List (SVertex S)) :
    getAllEdges ⟨h :: t⟩ =
      h.edgesTo.map (fun ed => (h.vid, ed.1, ed.2)) ++ getAllEdges ⟨t⟩ := by
  unfold getAllEdges
  rfl

theorem getAllEdges_filter_absent {S : Type} {ia ib : ℤ} :
    ∀ (t : List (SVertex S)), (∀ vx ∈ t, vx.vid ≠ ia) →
      (getAllEdges ⟨t⟩).filter (fun e => e.1 == ia && e.2.1 == ib) = [] := by
  intro t ht
  rw [List.filter_eq_nil]
  intro e he
  rw [mem_getAllEdges_iff] at he
  obtain ⟨vx, hvx, ed, hed, rfl⟩ := he
  simp only [Bool.and_eq_true, beq_iff_eq]
  intro hc
  exact ht vx hvx hc.1

theorem getAllEdges_filter_pair {S : Type} {ia ib : ℤ} :
    ∀ (L : List (SVertex S)) (vxa : SVertex S),
      (SGraph.mk L).idsOf.Nodup → vxa ∈ L → vxa.vid = ia →
      (getAllEdges ⟨L⟩).filter (fun e => e.1 == ia && e.2.1 == ib) =
        (vxa.edgesTo.filter (fun ed => ed.1 == ib)).map (fun ed => (ia, ed.1, ed.2)) := by
  intro L
  induction L with
  | nil => intro vxa _ hm; cases hm
  | cons h t ih =>
    intro vxa hnd hm hvid
    have hnd2 : (SGraph.mk t).idsOf.Nodup := by
      unfold SGraph.idsOf at hnd ⊢
      simp only [List.map_cons] at hnd
      exact (List.nodup_cons.mp hnd).2
    rw [getAllEdges_cons, List.filter_append]
    by_cases hh : h.vid = ia
    · have hveq : vxa = h := by
        rcases List.mem_cons.mp hm with hm2 | hm2
        · exact hm2
        · exfalso
          unfold SGraph.idsOf at hnd
          simp only [List.map_cons] at hnd
          have := (List.nodup_cons.mp hnd).1
          apply this
          rw [hh, ← hvid]
          exact List.mem_map.mpr ⟨vxa, hm2, rfl⟩
      have htail : (getAllEdges ⟨t⟩).filter (fun e => e.1 == ia && e.2.1 == ib) = [] := by
        apply getAllEdges_filter_absent
        intro vx hvx hc
        unfold SGraph.idsOf at hnd
        simp only [List.map_cons] at hnd
        exact (List.nodup_cons.mp hnd).1 (by rw [hh, ← hc]; exact List.mem_map.mpr ⟨vx, hvx, rfl⟩)
      rw [htail, List.append_nil, hveq]
      rw [List.filter_map]
      have hcomp : ((fun e : ℤ × ℤ × ℤ => e.1 == ia && e.2.1 == ib) ∘
          (fun ed : EdgeTo => (h.vid, ed.1, ed.2))) =
          (fun ed : EdgeTo => ed.1 == ib) := by
        funext ed
        simp [Function.comp, hh]
      rw [hcomp]
      have hmapc : (fun ed : EdgeTo => ((h.vid, ed.1, ed.2) : ℤ × ℤ × ℤ)) =
          (fun ed : EdgeTo => (ia, ed.1, ed.2)) := by
        funext ed
        rw [hh]
      rw [hmapc]
    · have hm2 : vxa ∈ t := by
        rcases List.mem_cons.mp hm with hm2 | hm2
        · exfalso; rw [hm2] at hvid; exact hh hvid
        · exact hm2
      have hhead : (h.edgesTo.map (fun ed => (h.vid, ed.1, ed.2))).filter
          (fun e => e.1 == ia && e.2.1 == ib) = [] := by
        rw [List.filter_eq_nil]
        intro e he
        obtain ⟨ed, hed, rfl⟩ := List.mem_map.mp he
        simp only [Bool.and_eq_true, beq_iff_eq]
        intro hc
        exact hh hc.1
      rw [hhead, List.nil_append]
      exact ih vxa hnd2 hm2 hvid

theorem addVertex_vertices_subset {S : Type} {idx : S → ℤ} {g : SGraph S} {s : S} :
    ∀ vx ∈ (addVertex idx g s).1.vertices, vx ∈ g.vertices ∨ vx.edgesTo = [] := by
  intro vx hvx
  cases hf : g.findVertex (idx s) with
  | some wx =>
    rw [addVertex_present (by rw [hf]; rfl)] at hvx
    exact Or.inl hvx
  | none =>
    rw [addVertex_absent hf] at hvx
    dsimp only at hvx
    rcases List.mem_append.mp hvx with hvx | hvx
    · exact Or.inl hvx
    · rw [List.mem_singleton] at hvx
      rw [hvx]
      exact Or.inr rfl

/-- Claim C5.  `AddEdge(a,b,c1)` followed by `AddEdge(a,b,c2)` leaves the
graph with exactly one edge for the ordered pair `(a,b)`, whose stored
cost is `c2`, and the total edge count after the second call equals the
count after the first call: no duplicate or parallel edge is created.
The hypotheses state the structural invariants any API-built graph
enjoys: unique identities and at most one stored edge per ordered
pair. -/
theorem addEdge_upsert_spec {S : Type} (idx : S → ℤ) (g : SGraph S) (a b : S)
    (c1 c2 : ℤ) (hnd : g.idsOf.Nodup)
    (hde : ∀ vx ∈ g.vertices,
      (vx.edgesTo.filter (fun e => e.1 == idx b)).length ≤ 1) :
    ((getAllEdges (addEdge idx (addEdge idx g a b c1) a b c2)).filter
        (fun e => e.1 == idx a && e.2.1 == idx b)) = [(idx a, idx b, c2)] ∧
    edgeCount (addEdge idx (addEdge idx g a b c1) a b c2) =
      edgeCount (addEdge idx g a b c1) := by
  set ia := idx a with hia
  set ib := idx b with hib
  set g2 := (addVertex idx (addVertex idx g a).1 b).1 with hg2
  have hnd2 : g2.idsOf.Nodup := addVertex_nodup (addVertex_nodup hnd)
  have hiag2 : ia ∈ g2.idsOf := addVertex_mem_mono (addVertex_mem idx g a)
  have hibg2 : ib ∈ g2.idsOf := addVertex_mem idx (addVertex idx g a).1 b
  set F1 := edgeUpdFun (S := S) ia ib c1 with hF1
  set F2 := edgeUpdFun (S := S) ia ib c2 with hF2
  have hg1eq : addEdge idx g a b c1 = ⟨g2.vertices.map F1⟩ := addEdge_eq idx g a b c1
  set g1 := addEdge idx g a b c1 with hg1
  have hids1 : g1.idsOf = g2.idsOf := by
    rw [hg1eq]
    exact idsOf_map g2.vertices F1 (edgeUpdFun_vid ia ib c1)
  have hnd1 : g1.idsOf.Nodup := by rw [hids1]; exact hnd2
  have hiag1 : ia ∈ g1.idsOf := by rw [hids1]; exact hiag2
  have hibg1 : ib ∈ g1.idsOf := by rw [hids1]; exact hibg2
  have hensureA : (addVertex idx g1 a).1 = g1 := by
    rw [addVertex_present (findVertex_isSome_iff.mpr hiag1)]
  have hensureB : (addVertex idx (addVertex idx g1 a).1 b).1 = g1 := by
    rw [hensureA, addVertex_present (findVertex_isSome_iff.mpr hibg1)]
  have hg2eq : addEdge idx g1 a b c2 = ⟨g1.vertices.map F2⟩ := by
    rw [addEdge_eq idx g1 a b c2, hensureB]
  -- the vertex carrying the edges of `a` in the ensured graph
  have hfa2 : (g2.findVertex ia).isSome := findVertex_isSome_iff.mpr hiag2
  obtain ⟨vxa0, hvxa0⟩ := Option.isSome_iff_exists.mp hfa2
  obtain ⟨hvxa0m, hvxa0v⟩ := findVertex_some_facts hvxa0
  have hbound0 : (vxa0.edgesTo.filter (fun e => e.1 == ib)).length ≤ 1 := by
    rcases addVertex_vertices_subset vxa0 hvxa0m with hm | hnil
    · rcases addVertex_vertices_subset vxa0 hm with hm2 | hnil
      · exact hde vxa0 hm2
      · rw [hnil]; simp
    · rw [hnil]; simp
  have hfind1 : g1.findVertex ia = some (F1 vxa0) := by
    rw [hg1eq]
    rw [show (⟨g2.vertices.map F1⟩ : SGraph S).findVertex ia =
      ((SGraph.mk g2.vertices).findVertex ia).map F1 from
      findVertex_map g2.vertices F1 (edgeUpdFun_vid ia ib c1) ia]
    rw [show (SGraph.mk g2.vertices) = g2 from rfl, hvxa0]
    rfl
  have hbeq0 : (vxa0.vid == ia) = true := by simp [hvxa0v]
  have hE1 : (F1 vxa0).edgesTo = upsertEdge vxa0.edgesTo ib c1 := by
    rw [hF1, edgeUpdFun_edgesTo, if_pos hbeq0]
  have hfilter1 : ((F1 vxa0).edgesTo.filter (fun e => e.1 == ib)) = [(ib, c1)] := by
    rw [hE1]
    exact upsertEdge_filter c1 hbound0
  have hfind2 : (addEdge idx g1 a b c2).findVertex ia = some (F2 (F1 vxa0)) := by
    rw [hg2eq]
    rw [show (⟨g1.vertices.map F2⟩ : SGraph S).findVertex ia =
      ((SGraph.mk g1.vertices).findVertex ia).map F2 from
      findVertex_map g1.vertices F2 (edgeUpdFun_vid ia ib c2) ia]
    rw [show (SGraph.mk g1.vertices) = g1 from rfl, hfind1]
    rfl
  have hvid1 : (F1 vxa0).vid = ia := by rw [edgeUpdFun_vid]; exact hvxa0v
  have hbeq1 : ((F1 vxa0).vid == ia) = true := by simp [hvid1]
  have hE2 : (F2 (F1 vxa0)).edgesTo = upsertEdge (F1 vxa0).edgesTo ib c2 := by
    rw [hF2, edgeUpdFun_edgesTo, if_pos hbeq1]
  have hfilter2 : ((F2 (F1 vxa0)).edgesTo.filter (fun e => e.1 == ib)) =
      [(ib, c2)] := by
    rw [hE2]
    exact upsertEdge_filter c2 (by rw [hfilter1]; simp)
  constructor
  · obtain ⟨hm2, hv2⟩ := findVertex_some_facts hfind2
    have hndf : (addEdge idx g1 a b c2).idsOf.Nodup := by
      rw [hg2eq]
      rw [show (⟨g1.vertices.map F2⟩ : SGraph S).idsOf = (SGraph.mk g1.vertices).idsOf
        from idsOf_map g1.vertices F2 (edgeUpdFun_vid ia ib c2)]
      exact hnd1
    have := @getAllEdges_filter_pair S ia ib
      (addEdge idx g1 a b c2).vertices (F2 (F1 vxa0)) hndf hm2 hv2
    rw [show (⟨(addEdge idx g1 a b c2).vertices⟩ : SGraph S) = addEdge idx g1 a b c2
      from rfl] at this
    rw [this, hfilter2]
    rfl
  · rw [edgeCount_eq_sum, edgeCount_eq_sum, hg2eq]
    show ((g1.vertices.map F2).map (fun vx => vx.edgesTo.length)).sum = _
    rw [List.map_map]
    congr 1
    apply List.map_congr_left
    intro vx hvx
    simp only [Function.comp]
    by_cases hc : (vx.vid == ia) = true
    · rw [hF2, edgeUpdFun_edgesTo, if_pos hc]
      have hvx1 : ∃ vx0 ∈ g2.vertices, vx = F1 vx0 := by
        rw [hg1eq] at hvx
        obtain ⟨vx0, hvx0, rfl⟩ := List.mem_map.mp hvx
        exact ⟨vx0, hvx0, rfl⟩
      obtain ⟨vx0, hvx0, rfl⟩ := hvx1
      have hc0 : (vx0.vid == ia) = true := by
        rw [edgeUpdFun_vid] at hc
        exact hc
      have hany : (F1 vx0).edgesTo.any (fun e => e.1 == ib) = true := by
        rw [hF1, edgeUpdFun_edgesTo, if_pos hc0]
        exact upsertEdge_any _ _ _
      exact upsertEdge_length_of_any c2 hany
    · rw [hF2, edgeUpdFun_edgesTo, if_neg hc]

theorem c5_witness :
    demoGraph.idsOf.Nodup ∧
    (∀ vx ∈ demoGraph.vertices,
      (vx.edgesTo.filter (fun e => e.1 == id (2 : ℤ))).length ≤ 1) ∧
    (((getAllEdges (addEdge id (addEdge id demoGraph 1 2 9) 1 2 7)).filter
        (fun e => e.1 == id (1 : ℤ) && e.2.1 == id (2 : ℤ))) =
      [(id (1 : ℤ), id (2 : ℤ), 7)] ∧
    edgeCount (addEdge id (addEdge id demoGraph 1 2 9) 1 2 7) =
      edgeCount (addEdge id demoGraph 1 2 9)) :=
  ⟨by decide, by decide, addEdge_upsert_spec id demoGraph 1 2 9 7 (by decide) (by decide)⟩

/-- The state carried by a loop-step result, whichever branch was
taken. -/
def StepRes.state {σ : Type} : StepRes σ → σ
  | StepRes.found s => s
  | StepRes.exhausted s => s
  | StepRes.cont s => s

theorem foldRelax_open_checked {hq : ℤ → ℤ} {u w : ℤ} :
    ∀ (l : List EdgeTo) (st : LoopSt), (st.scr w).isChecked = true →
      ∀ q, (q, w) ∈ (l.foldl (relax hq u) st).openList → (q, w) ∈ st.openList := by
  intro l
  induction l with
  | nil => intro st _ q hq2; exact hq2
  | cons e es ih =>
    intro st hchk q hmem
    have hchk2 : ((relax hq u st e).scr w).isChecked = true := by
      rw [relax_isChecked]; exact hchk
    have := ih (relax hq u st e) hchk2 q hmem
    rcases relax_open_cases this with hm | ⟨⟨hunc, _⟩, heq⟩
    · exact hm
    · exfalso
      have hwe : w = e.1 := by
        have := congrArg Prod.snd heq
        simpa using this
      rw [← hwe] at hunc
      rw [hchk] at hunc
      cases hunc

/-- Claim C8.  During one search run (batch or incremental), once a
vertex has been marked expanded (`is_checked_`), no later loop iteration
changes any of its scratch fields (flags, g/h/f costs, parent) or inserts
a new open-list entry for it: the per-vertex state machine
unseen → frontier → expanded is monotone. -/
theorem checked_vertex_frozen {S : Type} [Inhabited S] (G : SGraph S)
    (hq : ℤ → ℤ) (goalId : ℤ) (idx : S → ℤ) (nf : S → List (S × ℤ))
    (hfun : S → S → ℤ) (st : LoopSt) (ist : IncSt S) (v : ℤ)
    (hv : (st.scr v).isChecked = true) (hiv : (ist.scr v).isChecked = true) :
    ((batchStep G hq goalId st).state.scr v = st.scr v ∧
      ∀ q, (q, v) ∈ (batchStep G hq goalId st).state.openList →
        (q, v) ∈ st.openList) ∧
    ((incStep idx nf hfun goalId ist).state.scr v = ist.scr v ∧
      ∀ q, (q, v) ∈ (incStep idx nf hfun goalId ist).state.openList →
        (q, v) ∈ ist.openList) := by
  constructor
  · unfold batchStep
    cases hpop : pqPop st.openList with
    | none => exact ⟨rfl, fun q h => h⟩
    | some er =>
      obtain ⟨e, rest⟩ := er
      dsimp only
      by_cases hchk : (({ st with openList := rest } : LoopSt).scr e.2).isChecked = true
      · rw [if_pos hchk]
        exact ⟨rfl, fun q h => pqPop_rest_subset hpop _ h⟩
      · rw [if_neg hchk]
        by_cases hgoal : e.2 = goalId
        · rw [if_pos hgoal]
          exact ⟨rfl, fun q h => pqPop_rest_subset hpop _ h⟩
        · rw [if_neg hgoal]
          have hve : v ≠ e.2 := fun hh => hchk (by rw [← hh]; exact hv)
          have hmark : ((markSt e.2 { st with openList := rest }).scr v).isChecked =
              true := by
            rw [markSt_scr_ne hve]; exact hv
          constructor
          · show ((adjOf G e.2).foldl (relax hq e.2)
              (markSt e.2 { st with openList := rest })).scr v = st.scr v
            rw [foldRelax_scr_of_checked _ _ hmark, markSt_scr_ne hve]
          · intro q hmem
            show (q, v) ∈ st.openList
            have := foldRelax_open_checked (adjOf G e.2)
              (markSt e.2 { st with openList := rest }) hmark q hmem
            exact pqPop_rest_subset hpop _ this
  · unfold incStep
    cases hpop : pqPop ist.openList with
    | none => exact ⟨rfl, fun q h => h⟩
    | some er =>
      obtain ⟨e, rest⟩ := er
      dsimp only
      by_cases hchk : (({ ist with openList := rest } : IncSt S).scr e.2).isChecked = true
      · rw [if_pos hchk]
        exact ⟨rfl, fun q h => pqPop_rest_subset hpop _ h⟩
      · rw [if_neg hchk]
        by_cases hgoal : e.2 = goalId
        · rw [if_pos hgoal]
          exact ⟨rfl, fun q h => pqPop_rest_subset hpop _ h⟩
        · rw [if_neg hgoal]
          have hve : v ≠ e.2 := fun hh => hchk (by rw [← hh]; exact hiv)
          have hmark : ∀ (G2 : SGraph S) (hq2 : ℤ → ℤ),
              ((markSt e.2 ({ scr := ist.scr, openList := rest } : LoopSt)).scr v).isChecked =
              true := by
            intro _ _
            rw [markSt_scr_ne hve]; exact hiv
          constructor
          · show ((adjOf _ e.2).foldl (relax _ e.2)
              (markSt e.2 { scr := ist.scr, openList := rest })).scr v = ist.scr v
            rw [foldRelax_scr_of_checked _ _ (hmark (SGraph.empty S) (fun _ => 0)),
              markSt_scr_ne hve]
          · intro q hmem
            show (q, v) ∈ ist.openList
            have := foldRelax_open_checked _
              (markSt e.2 { scr := ist.scr, openList := rest })
              (hmark (SGraph.empty S) (fun _ => 0)) q hmem
            exact pqPop_rest_subset hpop _ this

/-- Concrete loop state used as witness input for the frozen-vertex
theorem. -/
def c8StB : LoopSt :=
  { scr := fun _ => { Scratch.init with isChecked := true },
    openList := [((0 : ℤ), (0 : ℤ))] }

/-- Concrete incremental state used as witness input for the
frozen-vertex theorem. -/
def c8IstB : IncSt ℤ :=
  { graph := SGraph.empty ℤ, scr := c8StB.scr, openList := [((0 : ℤ), (0 : ℤ))] }

theorem c8_witness :
    ((c8StB.scr 0).isChecked = true) ∧ ((c8IstB.scr 0).isChecked = true) ∧
    (((batchStep (SGraph.empty ℤ) (fun _ => 0) 9 c8StB).state.scr 0 = c8StB.scr 0 ∧
      ∀ q, (q, (0 : ℤ)) ∈ (batchStep (SGraph.empty ℤ) (fun _ => 0) 9 c8StB).state.openList →
        (q, (0 : ℤ)) ∈ c8StB.openList) ∧
    ((incStep (id : ℤ → ℤ) (fun _ => []) (fun _ _ => 0) 9 c8IstB).state.scr 0 =
        c8IstB.scr 0 ∧
      ∀ q, (q, (0 : ℤ)) ∈
          (incStep (id : ℤ → ℤ) (fun _ => []) (fun _ _ => 0) 9 c8IstB).state.openList →
        (q, (0 : ℤ)) ∈ c8IstB.openList)) :=
  ⟨by decide, by decide,
    checked_vertex_frozen (SGraph.empty ℤ) (fun _ => 0) 9 id (fun _ => [])
      (fun _ _ => 0) c8StB c8IstB 0 (by decide) (by decide)⟩

/-! ### Structural invariants of graphs built by the mutators -/

/-- Identity coherence: every stored vertex's id is the index of its
stored state (true of every graph the API builds). -/
def IdxOk {S : Type} (idx : S → ℤ) (g : SGraph S) : Prop :=
  ∀ vx ∈ g.vertices, vx.vid = idx vx.state

/-- Edge closure: every edge destination is present. -/
def ClosedOk {S : Type} (g : SGraph S) : Prop :=
  ∀ vx ∈ g.vertices, ∀ e ∈ vx.edgesTo, e.1 ∈ g.idsOf

theorem addVertex_idxOk {S : Type} {idx : S → ℤ} {g : SGraph S} {s : S}
    (h : IdxOk idx g) : IdxOk idx (addVertex idx g s).1 := by
  intro vx hvx
  cases hf : g.findVertex (idx s) with
  | some wx =>
    rw [addVertex_present (by rw [hf]; rfl)] at hvx
    exact h vx hvx
  | none =>
    rw [addVertex_absent hf] at hvx
    dsimp only at hvx
    rcases List.mem_append.mp hvx with hvx | hvx
    · exact h vx hvx
    · rw [List.mem_singleton] at hvx
      rw [hvx]

theorem addVertex_closedOk {S : Type} {idx : S → ℤ} {g : SGraph S} {s : S}
    (h : ClosedOk g) : ClosedOk (addVertex idx g s).1 := by
  intro vx hvx e he
  cases hf : g.findVertex (idx s) with
  | some wx =>
    rw [addVertex_present (by rw [hf]; rfl)] at hvx ⊢
    exact h vx hvx e he
  | none =>
    rw [addVertex_absent hf] at hvx ⊢
    dsimp only at hvx
    rcases List.mem_append.mp hvx with hvx | hvx
    · have := h vx hvx e he
      unfold SGraph.idsOf at this ⊢
      dsimp only
      rw [List.map_append, List.mem_append]
      exact Or.inl this
    · rw [List.mem_singleton] at hvx
      rw [hvx] at he
      cases he

theorem upsertEdge_targets {es : List EdgeTo} {d : ℤ} {c : ℤ} {e : EdgeTo}
    (h : e ∈ upsertEdge es d c) : (∃ e0 ∈ es, e.1 = e0.1) ∨ e.1 = d := by
  unfold upsertEdge at h
  by_cases hany : es.any (fun x => x.1 == d) = true
  · rw [if_pos hany] at h
    obtain ⟨e0, he0, heq⟩ := List.mem_map.mp h
    by_cases hm : (e0.1 == d) = true
    · rw [if_pos hm] at heq
      right
      rw [← heq]
    · rw [if_neg hm] at heq
      exact Or.inl ⟨e0, he0, by rw [← heq]⟩
  · rw [if_neg hany] at h
    rcases List.mem_append.mp h with hm | hm
    · obtain ⟨⟩ := e
      exact Or.inl ⟨_, hm, rfl⟩
    · rw [List.mem_singleton] at hm
      right
      rw [hm]

theorem addEdge_ids {S : Type} (idx : S → ℤ) (g : SGraph S) (a b : S) (c : ℤ) :
    (addEdge idx g a b c).idsOf = (addVertex idx (addVertex idx g a).1 b).1.idsOf := by
  rw [addEdge_eq]
  exact idsOf_map _ _ (edgeUpdFun_vid _ _ _)

theorem addEdge_mem_mono {S : Type} {idx : S → ℤ} {g : SGraph S} {a b : S} {c : ℤ}
    {u : ℤ} (h : u ∈ g.idsOf) : u ∈ (addEdge idx g a b c).idsOf := by
  rw [addEdge_ids]
  exact addVertex_mem_mono (addVertex_mem_mono h)

theorem addEdge_mem_b {S : Type} (idx : S → ℤ) (g : SGraph S) (a b : S) (c : ℤ) :
    idx b ∈ (addEdge idx g a b c).idsOf := by
  rw [addEdge_ids]
  exact addVertex_mem idx _ b

theorem addEdge_idxOk {S : Type} {idx : S → ℤ} {g : SGraph S} {a b : S} {c : ℤ}
    (h : IdxOk idx g) : IdxOk idx (addEdge idx g a b c) := by
  have h2 : IdxOk idx (addVertex idx (addVertex idx g a).1 b).1 :=
    addVertex_idxOk (addVertex_idxOk h)
  rw [addEdge_eq]
  intro vx hvx
  obtain ⟨vx0, hvx0, rfl⟩ := List.mem_map.mp hvx
  rw [edgeUpdFun_vid, edgeUpdFun_state]
  exact h2 vx0 hvx0

theorem addEdge_closedOk {S : Type} {idx : S → ℤ} {g : SGraph S} {a b : S} {c : ℤ}
    (h : ClosedOk g) : ClosedOk (addEdge idx g a b c) := by
  have h2 : ClosedOk (addVertex idx (addVertex idx g a).1 b).1 :=
    addVertex_closedOk (addVertex_closedOk h)
  have hib : idx b ∈ (addEdge idx g a b c).idsOf := addEdge_mem_b idx g a b c
  intro vx hvx e he
  rw [addEdge_eq] at hvx
  obtain ⟨vx0, hvx0, rfl⟩ := List.mem_map.mp hvx
  rw [edgeUpdFun_edgesTo] at he
  have hids : (addEdge idx g a b c).idsOf =
      (addVertex idx (addVertex idx g a).1 b).1.idsOf := addEdge_ids idx g a b c
  by_cases hc : (vx0.vid == idx a) = true
  · rw [if_pos hc] at he
    rcases upsertEdge_targets he with ⟨e0, he0, heq⟩ | heq
    · rw [heq, hids]
      exact h2 vx0 hvx0 e0 he0
    · rw [heq]
      exact hib
  · rw [if_neg hc] at he
    rw [hids]
    exact h2 vx0 hvx0 e he

theorem foldAddEdge_idxOk {S : Type} {idx : S → ℤ} {us : S} :
    ∀ (l : List (S × ℤ)) (g : SGraph S), IdxOk idx g →
      IdxOk idx (l.foldl (fun g2 p => addEdge idx g2 us p.1 p.2) g) := by
  intro l
  induction l with
  | nil => intro g h; exact h
  | cons p rest ih => intro g h; exact ih _ (addEdge_idxOk h)

theorem foldAddEdge_closedOk {S : Type} {idx : S → ℤ} {us : S} :
    ∀ (l : List (S × ℤ)) (g : SGraph S), ClosedOk g →
      ClosedOk (l.foldl (fun g2 p => addEdge idx g2 us p.1 p.2) g) := by
  intro l
  induction l with
  | nil => intro g h; exact h
  | cons p rest ih => intro g h; exact ih _ (addEdge_closedOk h)

theorem foldAddEdge_mem_mono {S : Type} {idx : S → ℤ} {us : S} {u : ℤ} :
    ∀ (l : List (S × ℤ)) (g : SGraph S), u ∈ g.idsOf →
      u ∈ (l.foldl (fun g2 p => addEdge idx g2 us p.1 p.2) g).idsOf := by
  intro l
  induction l with
  | nil => intro g h; exact h
  | cons p rest ih => intro g h; exact ih _ (addEdge_mem_mono h)

theorem foldRelax_open_targets {hq : ℤ → ℤ} {u : ℤ} :
    ∀ (l : List EdgeTo) (st : LoopSt) (x : ℤ × ℤ),
      x ∈ (l.foldl (relax hq u) st).openList →
      x ∈ st.openList ∨ ∃ e ∈ l, x.2 = e.1 := by
  intro l
  induction l with
  | nil => intro st x h; exact Or.inl h
  | cons e es ih =>
    intro st x h
    rcases ih (relax hq u st e) x h with hm | ⟨e2, he2, hx⟩
    · rcases relax_open_cases hm with hm2 | ⟨_, heq⟩
      · exact Or.inl hm2
      · right
        refine ⟨e, List.mem_cons_self _ _, ?_⟩
        rw [heq]
    · exact Or.inr ⟨e2, List.mem_cons_of_mem _ he2, hx⟩

theorem adjOf_targets {S : Type} {g : SGraph S} (h : ClosedOk g) {u : ℤ} :
    ∀ e ∈ adjOf g u, e.1 ∈ g.idsOf := by
  intro e he
  unfold adjOf at he
  cases hf : g.findVertex u with
  | none => rw [hf] at he; simp at he
  | some vx =>
    rw [hf] at he
    simp only [Option.map_some', Option.getD_some] at he
    exact h vx (findVertex_some_facts hf).1 e he

theorem stateAt_idx {S : Type} [Inhabited S] {idx : S → ℤ} {g : SGraph S}
    (hidx : IdxOk idx g) {u : ℤ} (hu : u ∈ g.idsOf) : idx (stateAt g u) = u := by
  have hs : (g.findVertex u).isSome := findVertex_isSome_iff.mpr hu
  cases hf : g.findVertex u with
  | none => rw [hf] at hs; cases hs
  | some vx =>
    obtain ⟨hmem, hvid⟩ := findVertex_some_facts hf
    have hst : stateAt g u = vx.state := by
      unfold stateAt; rw [hf]; rfl
    rw [hst, ← hidx vx hmem, hvid]

/-- One incremental step is oblivious to the neighbour function's value at
the goal state: the goal vertex is never expanded, so `nf` is only ever
called on non-goal states. -/
theorem incStep_agree {S : Type} [Inhabited S] {idx : S → ℤ}
    {nf1 nf2 : S → List (S × ℤ)} (hfun : S → S → ℤ) {gstate : S}
    (hagree : ∀ s, s ≠ gstate → nf1 s = nf2 s) (st : IncSt S)
    (hidx : IdxOk idx st.graph)
    (hent : ∀ x ∈ st.openList, x.2 ∈ st.graph.idsOf) :
    incStep idx nf1 hfun (idx gstate) st = incStep idx nf2 hfun (idx gstate) st := by
  cases st with
  | mk g sc ol =>
    dsimp only at hidx hent
    unfold incStep
    cases hpop : pqPop ol with
    | none => rfl
    | some er =>
      obtain ⟨e, rest⟩ := er
      dsimp only
      by_cases hchk : (sc e.2).isChecked = true
      · rw [if_pos hchk, if_pos hchk]
      · rw [if_neg hchk, if_neg hchk]
        by_cases hgoal : e.2 = idx gstate
        · rw [if_pos hgoal, if_pos hgoal]
        · rw [if_neg hgoal, if_neg hgoal]
          have hu : e.2 ∈ g.idsOf := hent e (pqPop_mem hpop)
          have hkey : idx (stateAt g e.2) = e.2 := stateAt_idx hidx hu
          have hne : stateAt g e.2 ≠ gstate := by
            intro hh
            rw [hh] at hkey
            exact hgoal hkey.symm
          rw [hagree _ hne]

/-- The incremental step preserves the structural invariants of the run
state: identity coherence, edge closure, and open-list entries naming
present vertices. -/
theorem incStep_cont_inv {S : Type} [Inhabited S] {idx : S → ℤ}
    {nf : S → List (S × ℤ)} {hfun : S → S → ℤ} {goalId : ℤ} {st st1 : IncSt S}
    (hidx : IdxOk idx st.graph) (hcl : ClosedOk st.graph)
    (hent : ∀ x ∈ st.openList, x.2 ∈ st.graph.idsOf)
    (h : incStep idx nf hfun goalId st = StepRes.cont st1) :
    IdxOk idx st1.graph ∧ ClosedOk st1.graph ∧
      ∀ x ∈ st1.openList, x.2 ∈ st1.graph.idsOf := by
  cases st with
  | mk g sc ol =>
    dsimp only at hidx hcl hent
    unfold incStep at h
    cases hpop : pqPop ol with
    | none => rw [hpop] at h; cases h
    | some er =>
      obtain ⟨e, rest⟩ := er
      rw [hpop] at h
      dsimp only at h
      by_cases hchk : (sc e.2).isChecked = true
      · rw [if_pos hchk] at h
        injection h with h1
        rw [← h1]
        refine ⟨hidx, hcl, ?_⟩
        intro x hx
        exact hent x (pqPop_rest_subset hpop x hx)
      · rw [if_neg hchk] at h
        by_cases hgoal : e.2 = goalId
        · rw [if_pos hgoal] at h; cases h
        · rw [if_neg hgoal] at h
          injection h with h1
          rw [← h1]
          dsimp only
          refine ⟨foldAddEdge_idxOk _ _ hidx, foldAddEdge_closedOk _ _ hcl, ?_⟩
          intro x hx
          rw [expand_eq_mark] at hx
          rcases foldRelax_open_targets _ _ _ hx with hm | ⟨e2, he2, hxe⟩
          · have hm2 : x ∈ rest := hm
            exact foldAddEdge_mem_mono _ _ (hent x (pqPop_rest_subset hpop x hm2))
          · rw [hxe]
            exact adjOf_targets (foldAddEdge_closedOk _ _ hcl) e2 he2

theorem runInc_succ {S : Type} [Inhabited S] (idx : S → ℤ) (nf : S → List (S × ℤ))
    (hfun : S → S → ℤ) (goalId : ℤ) (n : Nat) (st : IncSt S) :
    runInc idx nf hfun goalId (n + 1) st =
      match incStep idx nf hfun goalId st with
      | StepRes.found st1 => some (true, st1)
      | StepRes.exhausted st1 => some (false, st1)
      | StepRes.cont st1 => runInc idx nf hfun goalId n st1 := rfl

/-- The whole incremental main loop is oblivious to the neighbour
function's value at the goal state, uniformly in the fuel. -/
theorem runInc_agree {S : Type} [Inhabited S] (idx : S → ℤ)
    (nf1 nf2 : S → List (S × ℤ)) (hfun : S → S → ℤ) (gstate : S)
    (hagree : ∀ s, s ≠ gstate → nf1 s = nf2 s) :
    ∀ (fuel : Nat) (st : IncSt S), IdxOk idx st.graph → ClosedOk st.graph →
      (∀ x ∈ st.openList, x.2 ∈ st.graph.idsOf) →
      runInc idx nf1 hfun (idx gstate) fuel st =
        runInc idx nf2 hfun (idx gstate) fuel st := by
  intro fuel
  induction fuel with
  | zero => intro st _ _ _; rfl
  | succ n ih =>
    intro st hidx hcl hent
    rw [runInc_succ, runInc_succ, incStep_agree hfun hagree st hidx hent]
    cases hres : incStep idx nf2 hfun (idx gstate) st with
    | found st1 => rfl
    | exhausted st1 => rfl
    | cont st1 =>
      dsimp only
      obtain ⟨h1, h2, h3⟩ := incStep_cont_inv hidx hcl hent hres
      exact ih st1 h1 h2 h3

/-- **C10**: `IncSearch` never expands the goal vertex (the main loop
terminates when the goal is popped, before neighbour generation), so the
neighbour function is never invoked on the goal state: for any two
neighbour functions that agree on every state except the goal state,
`IncSearch` returns the same result, for every fuel. -/
theorem incSearch_goal_nf_independent {S : Type} [Inhabited S] (idx : S → ℤ)
    (nf1 nf2 : S → List (S × ℤ)) (hfun : S → S → ℤ) (sstate gstate : S)
    (hagree : ∀ s, s ≠ gstate → nf1 s = nf2 s) (fuel : Nat) :
    incSearch idx nf1 hfun sstate gstate fuel =
      incSearch idx nf2 hfun sstate gstate fuel := by
  unfold incSearch
  simp only [addVertex_snd]
  have hemptyI : IdxOk idx (SGraph.empty S) := by
    intro vx hvx
    cases hvx
  have hemptyC : ClosedOk (SGraph.empty S) := by
    intro vx hvx
    cases hvx
  have h1 : IdxOk idx (addVertex idx (addVertex idx (SGraph.empty S) sstate).1 gstate).1 :=
    addVertex_idxOk (addVertex_idxOk hemptyI)
  have h2 : ClosedOk (addVertex idx (addVertex idx (SGraph.empty S) sstate).1 gstate).1 :=
    addVertex_closedOk (addVertex_closedOk hemptyC)
  have h3 : ∀ x ∈ [((0 : ℤ), idx sstate)],
      x.2 ∈ (addVertex idx (addVertex idx (SGraph.empty S) sstate).1 gstate).1.idsOf := by
    intro x hx
    rw [List.mem_singleton] at hx
    rw [hx]
    exact addVertex_mem_mono (addVertex_mem idx (SGraph.empty S) sstate)
  have hr := runInc_agree idx nf1 nf2 hfun gstate hagree fuel
    { graph := (addVertex idx (addVertex idx (SGraph.empty S) sstate).1 gstate).1,
      scr := Function.update (fun _ => Scratch.init) (idx sstate)
        { Scratch.init with isInOpen := true, gCost := 0 },
      openList := [((0 : ℤ), idx sstate)] } h1 h2 h3
  rw [hr]

/-- A neighbour function whose value at the goal state `2` is one edge
list. -/
def c10nf1 : ℤ → List (ℤ × ℤ) := fun s => if s = 2 then [(1, 1)] else [(2, 1)]

/-- A neighbour function agreeing with `c10nf1` everywhere except at the
goal state `2`. -/
def c10nf2 : ℤ → List (ℤ × ℤ) := fun s => if s = 2 then [(9, 9)] else [(2, 1)]

theorem c10_witness :
    (∀ s : ℤ, s ≠ 2 → c10nf1 s = c10nf2 s) ∧
    incSearch (fun s : ℤ => s) c10nf1 (fun _ _ => 0) 1 2 5 =
      incSearch (fun s : ℤ => s) c10nf2 (fun _ _ => 0) 1 2 5 :=
  ⟨fun s hs => by simp only [c10nf1, c10nf2, if_neg hs],
    incSearch_goal_nf_independent (fun s : ℤ => s) c10nf1 c10nf2 (fun _ _ => 0) 1 2
      (fun s hs => by simp only [c10nf1, c10nf2, if_neg hs]) 5⟩

/-! ### Lookup and adjacency through the mutators -/

theorem find_append_none {α : Type} {p : α → Bool} {l1 l2 : List α}
    (h : l1.find? p = none) : (l1 ++ l2).find? p = l2.find? p := by
  induction l1 with
  | nil => rfl
  | cons a t ih =>
    rw [List.cons_append]
    cases hpa : p a with
    | true => rw [List.find?_cons_of_pos _ hpa] at h; cases h
    | false =>
      rw [List.find?_cons_of_neg _ (by simp [hpa])] at h
      rw [List.find?_cons_of_neg _ (by simp [hpa])]
      exact ih h

theorem find_append_some {α : Type} {p : α → Bool} {l1 l2 : List α} {x : α}
    (h : l1.find? p = some x) : (l1 ++ l2).find? p = some x := by
  induction l1 with
  | nil => cases h
  | cons a t ih =>
    rw [List.cons_append]
    cases hpa : p a with
    | true =>
      rw [List.find?_cons_of_pos _ hpa] at h
      rw [List.find?_cons_of_pos _ hpa]
      exact h
    | false =>
      rw [List.find?_cons_of_neg _ (by simp [hpa])] at h
      rw [List.find?_cons_of_neg _ (by simp [hpa])]
      exact ih h

theorem adjOf_some {S : Type} {g : SGraph S} {u : ℤ} {vx : SVertex S}
    (h : g.findVertex u = some vx) : adjOf g u = vx.edgesTo := by
  unfold adjOf
  rw [h]
  rfl

theorem adjOf_none {S : Type} {g : SGraph S} {u : ℤ}
    (h : g.findVertex u = none) : adjOf g u = [] := by
  unfold adjOf
  rw [h]
  rfl

theorem adjOf_addVertex {S : Type} (idx : S → ℤ) (g : SGraph S) (s : S) (u : ℤ) :
    adjOf (addVertex idx g s).1 u = adjOf g u := by
  cases hf : g.findVertex (idx s) with
  | some vx => rw [addVertex_present (by rw [hf]; rfl)]
  | none =>
    rw [addVertex_absent hf]
    cases hg : g.findVertex u with
    | some vx =>
      rw [adjOf_some hg, adjOf_some (show SGraph.findVertex _ u = some vx from
        find_append_some hg)]
    | none =>
      rw [adjOf_none hg]
      have hfind : SGraph.findVertex
          (⟨g.vertices ++ [⟨s, idx s, [], []⟩]⟩ : SGraph S) u =
          List.find? (fun vx => vx.vid == u) [⟨s, idx s, [], []⟩] :=
        find_append_none hg
      by_cases hsu : idx s = u
      · have : List.find? (fun vx : SVertex S => vx.vid == u) [⟨s, idx s, [], []⟩] =
            some ⟨s, idx s, [], []⟩ := by
          apply List.find?_cons_of_pos
          simp [hsu]
        rw [adjOf_some (by rw [hfind, this])]
      · have : List.find? (fun vx : SVertex S => vx.vid == u) [⟨s, idx s, [], []⟩] =
            none := by
          rw [List.find?_cons_of_neg _ (by simp [hsu])]
          rfl
        rw [adjOf_none (by rw [hfind, this])]

theorem addEdge_findVertex {S : Type} (idx : S → ℤ) (g : SGraph S) (a b : S)
    (c : ℤ) (u : ℤ) :
    (addEdge idx g a b c).findVertex u =
      ((addVertex idx (addVertex idx g a).1 b).1.findVertex u).map
        (edgeUpdFun (idx a) (idx b) c) := by
  rw [addEdge_eq]
  exact findVertex_map _ _ (edgeUpdFun_vid _ _ _) u

theorem adjOf_addEdge_self {S : Type} (idx : S → ℤ) (g : SGraph S) (a b : S)
    (c : ℤ) :
    adjOf (addEdge idx g a b c) (idx a) = upsertEdge (adjOf g (idx a)) (idx b) c := by
  have hmem : idx a ∈ (addVertex idx (addVertex idx g a).1 b).1.idsOf :=
    addVertex_mem_mono (addVertex_mem idx g a)
  have hsome := findVertex_isSome_iff.mpr hmem
  cases hf : (addVertex idx (addVertex idx g a).1 b).1.findVertex (idx a) with
  | none => rw [hf] at hsome; cases hsome
  | some vx =>
    have hvid : vx.vid = idx a := (findVertex_some_facts hf).2
    have hedges : vx.edgesTo = adjOf g (idx a) := by
      have h2 : adjOf (addVertex idx (addVertex idx g a).1 b).1 (idx a) =
          vx.edgesTo := adjOf_some hf
      rw [adjOf_addVertex, adjOf_addVertex] at h2
      exact h2.symm
    have hfe : (addEdge idx g a b c).findVertex (idx a) =
        some (edgeUpdFun (idx a) (idx b) c vx) := by
      rw [addEdge_findVertex, hf]
      rfl
    rw [adjOf_some hfe, edgeUpdFun_edgesTo, if_pos (by simp [hvid]), hedges]

theorem adjOf_addEdge_other {S : Type} {idx : S → ℤ} {g : SGraph S} {a b : S}
    {c : ℤ} {u : ℤ} (hu : u ≠ idx a) :
    adjOf (addEdge idx g a b c) u = adjOf g u := by
  cases hf : (addVertex idx (addVertex idx g a).1 b).1.findVertex u with
  | none =>
    have h2 : adjOf (addVertex idx (addVertex idx g a).1 b).1 u = [] := adjOf_none hf
    rw [adjOf_addVertex, adjOf_addVertex] at h2
    have hfe : (addEdge idx g a b c).findVertex u = none := by
      rw [addEdge_findVertex, hf]
      rfl
    rw [adjOf_none hfe, h2]
  | some vx =>
    have hvid : vx.vid = u := (findVertex_some_facts hf).2
    have h2 : adjOf (addVertex idx (addVertex idx g a).1 b).1 u = vx.edgesTo :=
      adjOf_some hf
    rw [adjOf_addVertex, adjOf_addVertex] at h2
    have hfe : (addEdge idx g a b c).findVertex u =
        some (edgeUpdFun (idx a) (idx b) c vx) := by
      rw [addEdge_findVertex, hf]
      rfl
    rw [adjOf_some hfe, edgeUpdFun_edgesTo, if_neg (by simp [hvid, hu]), h2]

theorem addVertex_ids_sub {S : Type} {idx : S → ℤ} {g : SGraph S} {s : S} {u : ℤ}
    (h : u ∈ (addVertex idx g s).1.idsOf) : u ∈ g.idsOf ∨ u = idx s := by
  cases hf : g.findVertex (idx s) with
  | some vx =>
    rw [addVertex_present (by rw [hf]; rfl)] at h
    exact Or.inl h
  | none =>
    rw [addVertex_absent hf] at h
    unfold SGraph.idsOf at h
    simp only [List.map_append, List.mem_append, List.map_cons, List.map_nil,
      List.mem_singleton] at h
    rcases h with h | h
    · exact Or.inl h
    · exact Or.inr h

theorem addEdge_ids_sub {S : Type} {idx : S → ℤ} {g : SGraph S} {a b : S} {c : ℤ}
    {u : ℤ} (h : u ∈ (addEdge idx g a b c).idsOf) :
    u ∈ g.idsOf ∨ u = idx a ∨ u = idx b := by
  rw [addEdge_ids] at h
  rcases addVertex_ids_sub h with h2 | h2
  · rcases addVertex_ids_sub h2 with h3 | h3
    · exact Or.inl h3
    · exact Or.inr (Or.inl h3)
  · exact Or.inr (Or.inr h2)

theorem foldAddEdge_ids_sub {S : Type} {idx : S → ℤ} {a : S} :
    ∀ (l : List (S × ℤ)) (g : SGraph S) (u : ℤ),
      u ∈ (l.foldl (fun g2 p => addEdge idx g2 a p.1 p.2) g).idsOf →
      u ∈ g.idsOf ∨ u = idx a ∨ ∃ p ∈ l, u = idx p.1 := by
  intro l
  induction l with
  | nil => intro g u h; exact Or.inl h
  | cons p t ih =>
    intro g u h
    rcases ih _ u h with h2 | h2 | ⟨p2, hp2, hup⟩
    · rcases addEdge_ids_sub h2 with h3 | h3 | h3
      · exact Or.inl h3
      · exact Or.inr (Or.inl h3)
      · exact Or.inr (Or.inr ⟨p, List.mem_cons_self _ _, h3⟩)
    · exact Or.inr (Or.inl h2)
    · exact Or.inr (Or.inr ⟨p2, List.mem_cons_of_mem _ hp2, hup⟩)

theorem addEdge_nodup {S : Type} {idx : S → ℤ} {g : SGraph S} {a b : S} {c : ℤ}
    (h : g.idsOf.Nodup) : (addEdge idx g a b c).idsOf.Nodup := by
  rw [addEdge_ids]
  exact addVertex_nodup (addVertex_nodup h)

theorem foldAddEdge_nodup {S : Type} {idx : S → ℤ} {a : S} :
    ∀ (l : List (S × ℤ)) (g : SGraph S), g.idsOf.Nodup →
      (l.foldl (fun g2 p => addEdge idx g2 a p.1 p.2) g).idsOf.Nodup := by
  intro l
  induction l with
  | nil => intro g h; exact h
  | cons p t ih => intro g h; exact ih _ (addEdge_nodup h)

theorem foldAddEdge_adj_self {S : Type} {idx : S → ℤ} {a : S} :
    ∀ (l : List (S × ℤ)) (g : SGraph S),
      adjOf (l.foldl (fun g2 p => addEdge idx g2 a p.1 p.2) g) (idx a) =
        l.foldl (fun es p => upsertEdge es (idx p.1) p.2) (adjOf g (idx a)) := by
  intro l
  induction l with
  | nil => intro g; rfl
  | cons p t ih =>
    intro g
    rw [List.foldl_cons, List.foldl_cons, ih, adjOf_addEdge_self]

theorem foldAddEdge_adj_other {S : Type} {idx : S → ℤ} {a : S} {u : ℤ}
    (hu : u ≠ idx a) :
    ∀ (l : List (S × ℤ)) (g : SGraph S),
      adjOf (l.foldl (fun g2 p => addEdge idx g2 a p.1 p.2) g) u = adjOf g u := by
  intro l
  induction l with
  | nil => intro g; rfl
  | cons p t ih =>
    intro g
    rw [List.foldl_cons, ih, adjOf_addEdge_other hu]

/-! ### The pre-built batch graph equivalent to a neighbour function -/

/-- One state's worth of graph building in `materialize`: create the
vertex, then insert all its outgoing edges. -/
def matStep {S : Type} (idx : S → ℤ) (nf : S → List (S × ℤ)) :
    SGraph S → S → SGraph S := fun g s =>
  (nf s).foldl (fun g2 p => addEdge idx g2 s p.1 p.2) ((addVertex idx g s).1)

theorem materialize_eq {S : Type} (idx : S → ℤ) (nf : S → List (S × ℤ))
    (sstate gstate : S) (univ : List S) :
    materialize idx nf sstate gstate univ =
      univ.foldl (matStep idx nf)
        (addVertex idx (addVertex idx (SGraph.empty S) sstate).1 gstate).1 := rfl

/-- The edge list a neighbour function induces for one source state. -/
def edgeFold {S : Type} (idx : S → ℤ) (l : List (S × ℤ)) : List EdgeTo :=
  l.foldl (fun es p => upsertEdge es (idx p.1) p.2) []

theorem matStep_idxOk {S : Type} {idx : S → ℤ} {nf : S → List (S × ℤ)}
    {g : SGraph S} {s : S} (h : IdxOk idx g) : IdxOk idx (matStep idx nf g s) :=
  foldAddEdge_idxOk _ _ (addVertex_idxOk h)

theorem matStep_closedOk {S : Type} {idx : S → ℤ} {nf : S → List (S × ℤ)}
    {g : SGraph S} {s : S} (h : ClosedOk g) : ClosedOk (matStep idx nf g s) :=
  foldAddEdge_closedOk _ _ (addVertex_closedOk h)

theorem matStep_nodup {S : Type} {idx : S → ℤ} {nf : S → List (S × ℤ)}
    {g : SGraph S} {s : S} (h : g.idsOf.Nodup) : (matStep idx nf g s).idsOf.Nodup :=
  foldAddEdge_nodup _ _ (addVertex_nodup h)

theorem matStep_mem_mono {S : Type} {idx : S → ℤ} {nf : S → List (S × ℤ)}
    {g : SGraph S} {s : S} {u : ℤ} (h : u ∈ g.idsOf) :
    u ∈ (matStep idx nf g s).idsOf :=
  foldAddEdge_mem_mono _ _ (addVertex_mem_mono h)

theorem matFold_idxOk {S : Type} {idx : S → ℤ} {nf : S → List (S × ℤ)} :
    ∀ (l : List S) (g : SGraph S), IdxOk idx g →
      IdxOk idx (l.foldl (matStep idx nf) g) := by
  intro l
  induction l with
  | nil => intro g h; exact h
  | cons a t ih => intro g h; exact ih _ (matStep_idxOk h)

theorem matFold_closedOk {S : Type} {idx : S → ℤ} {nf : S → List (S × ℤ)} :
    ∀ (l : List S) (g : SGraph S), ClosedOk g →
      ClosedOk (l.foldl (matStep idx nf) g) := by
  intro l
  induction l with
  | nil => intro g h; exact h
  | cons a t ih => intro g h; exact ih _ (matStep_closedOk h)

theorem matFold_nodup {S : Type} {idx : S → ℤ} {nf : S → List (S × ℤ)} :
    ∀ (l : List S) (g : SGraph S), g.idsOf.Nodup →
      (l.foldl (matStep idx nf) g).idsOf.Nodup := by
  intro l
  induction l with
  | nil => intro g h; exact h
  | cons a t ih => intro g h; exact ih _ (matStep_nodup h)

theorem matFold_mem_mono {S : Type} {idx : S → ℤ} {nf : S → List (S × ℤ)} :
    ∀ (l : List S) (g : SGraph S) (u : ℤ), u ∈ g.idsOf →
      u ∈ (l.foldl (matStep idx nf) g).idsOf := by
  intro l
  induction l with
  | nil => intro g u h; exact h
  | cons a t ih => intro g u h; exact ih _ u (matStep_mem_mono h)

theorem matFold_present {S : Type} {idx : S → ℤ} {nf : S → List (S × ℤ)} :
    ∀ (l : List S) (g : SGraph S) (s : S), s ∈ l →
      idx s ∈ (l.foldl (matStep idx nf) g).idsOf := by
  intro l
  induction l with
  | nil => intro g s h; cases h
  | cons a t ih =>
    intro g s h
    rcases List.mem_cons.mp h with h | h
    · rw [List.foldl_cons]
      apply matFold_mem_mono
      rw [h]
      exact foldAddEdge_mem_mono _ _ (addVertex_mem idx g a)
    · exact ih _ s h

theorem matFold_adj_other {S : Type} {idx : S → ℤ} {nf : S → List (S × ℤ)} {u : ℤ} :
    ∀ (l : List S) (g : SGraph S), (∀ s ∈ l, u ≠ idx s) →
      adjOf (l.foldl (matStep idx nf) g) u = adjOf g u := by
  intro l
  induction l with
  | nil => intro g _; rfl
  | cons a t ih =>
    intro g h
    rw [List.foldl_cons, ih _ (fun s hs => h s (List.mem_cons_of_mem _ hs))]
    unfold matStep
    rw [foldAddEdge_adj_other (h a (List.mem_cons_self _ _)), adjOf_addVertex]

theorem matFold_adj {S : Type} {idx : S → ℤ} {nf : S → List (S × ℤ)}
    (hinj : Function.Injective idx) :
    ∀ (l : List S) (g : SGraph S) (s : S), l.Nodup → s ∈ l →
      adjOf g (idx s) = [] →
      adjOf (l.foldl (matStep idx nf) g) (idx s) = edgeFold idx (nf s) := by
  intro l
  induction l with
  | nil => intro g s _ h; cases h
  | cons a t ih =>
    intro g s hnd hmem hadj
    have hat : a ∉ t := (List.nodup_cons.mp hnd).1
    have hndt : t.Nodup := (List.nodup_cons.mp hnd).2
    rcases List.mem_cons.mp hmem with hsa | hst
    · rw [List.foldl_cons]
      have hstep : adjOf (matStep idx nf g a) (idx s) = edgeFold idx (nf s) := by
        rw [hsa]
        unfold matStep
        rw [foldAddEdge_adj_self, adjOf_addVertex, ← hsa, hadj]
        rfl
      rw [matFold_adj_other t _ ?_, hstep]
      intro s2 hs2 heq
      have : s = s2 := hinj heq
      rw [hsa] at this
      exact hat (this ▸ hs2)
    · rw [List.foldl_cons]
      apply ih _ s hndt hst
      have hsa : s ≠ a := fun hh => hat (hh ▸ hst)
      unfold matStep
      rw [foldAddEdge_adj_other (fun hh => hsa (hinj hh)), adjOf_addVertex, hadj]

/-! ### Heuristic congruence for expansion, and state agreement -/

theorem relax_hq_congr {hq1 hq2 : ℤ → ℤ} {u : ℤ} {st : LoopSt} {e : EdgeTo}
    (h : hq1 e.1 = hq2 e.1) : relax hq1 u st e = relax hq2 u st e := by
  unfold relax
  dsimp only
  rw [h]

theorem foldRelax_hq_congr {hq1 hq2 : ℤ → ℤ} {u : ℤ} :
    ∀ (l : List EdgeTo), (∀ e ∈ l, hq1 e.1 = hq2 e.1) → ∀ st : LoopSt,
      l.foldl (relax hq1 u) st = l.foldl (relax hq2 u) st := by
  intro l
  induction l with
  | nil => intro _ st; rfl
  | cons e t ih =>
    intro h st
    rw [List.foldl_cons, List.foldl_cons,
      relax_hq_congr (h e (List.mem_cons_self _ _)),
      ih (fun e2 he2 => h e2 (List.mem_cons_of_mem _ he2))]

theorem expand_hq_congr {hq1 hq2 : ℤ → ℤ} {u : ℤ} {adj : List EdgeTo}
    (h : ∀ e ∈ adj, hq1 e.1 = hq2 e.1) (st : LoopSt) :
    expand adj hq1 u st = expand adj hq2 u st := by
  rw [expand_eq_mark, expand_eq_mark]
  exact foldRelax_hq_congr _ h _

theorem states_agree {S : Type} [Inhabited S] {idx : S → ℤ} {g1 g2 : SGraph S}
    (hinj : Function.Injective idx) (h1 : IdxOk idx g1) (h2 : IdxOk idx g2)
    {u : ℤ} (hu1 : u ∈ g1.idsOf) (hu2 : u ∈ g2.idsOf) :
    stateAt g1 u = stateAt g2 u :=
  hinj (by rw [stateAt_idx h1 hu1, stateAt_idx h2 hu2])

/-! ### Lock-step simulation of `IncSearch` against the batch loop -/

/-- The graph after the incremental step materialises the popped vertex's
out-edges. -/
def incG2 {S : Type} [Inhabited S] (idx : S → ℤ) (nf : S → List (S × ℤ))
    (g : SGraph S) (u : ℤ) : SGraph S :=
  (nf (stateAt g u)).foldl (fun g2 p => addEdge idx g2 (stateAt g u) p.1 p.2) g

/-- The heuristic-towards-goal function a graph induces. -/
def hqOf {S : Type} [Inhabited S] (hfun : S → S → ℤ) (g : SGraph S)
    (goalId : ℤ) : ℤ → ℤ := fun i => hfun (stateAt g i) (stateAt g goalId)

theorem incStep_none_eq {S : Type} [Inhabited S] (idx : S → ℤ)
    (nf : S → List (S × ℤ)) (hfun : S → S → ℤ) (goalId : ℤ) (g : SGraph S)
    (sc : ℤ → Scratch) (ol : List (ℤ × ℤ)) (hpop : pqPop ol = none) :
    incStep idx nf hfun goalId ⟨g, sc, ol⟩ = StepRes.exhausted ⟨g, sc, ol⟩ := by
  unfold incStep
  dsimp only
  rw [hpop]

theorem incStep_skip_eq {S : Type} [Inhabited S] (idx : S → ℤ)
    (nf : S → List (S × ℤ)) (hfun : S → S → ℤ) (goalId : ℤ) (g : SGraph S)
    (sc : ℤ → Scratch) (ol : List (ℤ × ℤ)) (e : ℤ × ℤ) (rest : List (ℤ × ℤ))
    (hpop : pqPop ol = some (e, rest)) (hchk : (sc e.2).isChecked = true) :
    incStep idx nf hfun goalId ⟨g, sc, ol⟩ = StepRes.cont ⟨g, sc, rest⟩ := by
  unfold incStep
  dsimp only
  rw [hpop]
  dsimp only
  rw [if_pos hchk]

theorem incStep_found_eq {S : Type} [Inhabited S] (idx : S → ℤ)
    (nf : S → List (S × ℤ)) (hfun : S → S → ℤ) (goalId : ℤ) (g : SGraph S)
    (sc : ℤ → Scratch) (ol : List (ℤ × ℤ)) (e : ℤ × ℤ) (rest : List (ℤ × ℤ))
    (hpop : pqPop ol = some (e, rest)) (hchk : ¬ (sc e.2).isChecked = true)
    (hgoal : e.2 = goalId) :
    incStep idx nf hfun goalId ⟨g, sc, ol⟩ = StepRes.found ⟨g, sc, rest⟩ := by
  unfold incStep
  dsimp only
  rw [hpop]
  dsimp only
  rw [if_neg hchk, if_pos hgoal]

theorem incStep_expand_eq {S : Type} [Inhabited S] (idx : S → ℤ)
    (nf : S → List (S × ℤ)) (hfun : S → S → ℤ) (goalId : ℤ) (g : SGraph S)
    (sc : ℤ → Scratch) (ol : List (ℤ × ℤ)) (e : ℤ × ℤ) (rest : List (ℤ × ℤ))
    (hpop : pqPop ol = some (e, rest)) (hchk : ¬ (sc e.2).isChecked = true)
    (hgoal : ¬ e.2 = goalId) :
    incStep idx nf hfun goalId ⟨g, sc, ol⟩ =
      StepRes.cont ⟨incG2 idx nf g e.2,
        (expand (adjOf (incG2 idx nf g e.2) e.2)
          (hqOf hfun (incG2 idx nf g e.2) goalId) e.2 ⟨sc, rest⟩).scr,
        (expand (adjOf (incG2 idx nf g e.2) e.2)
          (hqOf hfun (incG2 idx nf g e.2) goalId) e.2 ⟨sc, rest⟩).openList⟩ := by
  unfold incStep
  dsimp only
  rw [hpop]
  dsimp only
  rw [if_neg hchk, if_neg hgoal]
  rfl

theorem batchStep_none_eq {S : Type} (G : SGraph S) (hq : ℤ → ℤ) (goalId : ℤ)
    (sc : ℤ → Scratch) (ol : List (ℤ × ℤ)) (hpop : pqPop ol = none) :
    batchStep G hq goalId ⟨sc, ol⟩ = StepRes.exhausted ⟨sc, ol⟩ := by
  unfold batchStep
  dsimp only
  rw [hpop]

theorem batchStep_skip_eq {S : Type} (G : SGraph S) (hq : ℤ → ℤ) (goalId : ℤ)
    (sc : ℤ → Scratch) (ol : List (ℤ × ℤ)) (e : ℤ × ℤ) (rest : List (ℤ × ℤ))
    (hpop : pqPop ol = some (e, rest)) (hchk : (sc e.2).isChecked = true) :
    batchStep G hq goalId ⟨sc, ol⟩ = StepRes.cont ⟨sc, rest⟩ := by
  unfold batchStep
  dsimp only
  rw [hpop]
  dsimp only
  rw [if_pos hchk]

theorem batchStep_found_eq {S : Type} (G : SGraph S) (hq : ℤ → ℤ) (goalId : ℤ)
    (sc : ℤ → Scratch) (ol : List (ℤ × ℤ)) (e : ℤ × ℤ) (rest : List (ℤ × ℤ))
    (hpop : pqPop ol = some (e, rest)) (hchk : ¬ (sc e.2).isChecked = true)
    (hgoal : e.2 = goalId) :
    batchStep G hq goalId ⟨sc, ol⟩ = StepRes.found ⟨sc, rest⟩ := by
  unfold batchStep
  dsimp only
  rw [hpop]
  dsimp only
  rw [if_neg hchk, if_pos hgoal]

theorem batchStep_expand_eq {S : Type} (G : SGraph S) (hq : ℤ → ℤ) (goalId : ℤ)
    (sc : ℤ → Scratch) (ol : List (ℤ × ℤ)) (e : ℤ × ℤ) (rest : List (ℤ × ℤ))
    (hpop : pqPop ol = some (e, rest)) (hchk : ¬ (sc e.2).isChecked = true)
    (hgoal : ¬ e.2 = goalId) :
    batchStep G hq goalId ⟨sc, ol⟩ =
      StepRes.cont (expand (adjOf G e.2) hq e.2 ⟨sc, rest⟩) := by
  unfold batchStep
  dsimp only
  rw [hpop]
  dsimp only
  rw [if_neg hchk, if_neg hgoal]

/-- Coupling invariant of the incremental run state against the pre-built
batch graph `GB`: the lazily built graph is a coherent, closed sub-graph
of `GB` whose vertices carry states of the universe, expanded vertices
carry their full `GB` edge list, unexpanded ones carry no edges yet, and
open entries name present vertices. -/
structure C2Inv {S : Type} (idx : S → ℤ) (univ : List S) (GB : SGraph S)
    (gstate : S) (ist : IncSt S) : Prop where
  nodup : ist.graph.idsOf.Nodup
  idxOk : IdxOk idx ist.graph
  closedOk : ClosedOk ist.graph
  idsSub : ∀ u ∈ ist.graph.idsOf, u ∈ GB.idsOf
  idsUniv : ∀ u ∈ ist.graph.idsOf, ∃ s ∈ univ, u = idx s
  uncheckedAdj : ∀ v, (ist.scr v).isChecked = false → adjOf ist.graph v = []
  checkedAdj : ∀ v, (ist.scr v).isChecked = true →
      adjOf ist.graph v = adjOf GB v ∧ v ∈ ist.graph.idsOf
  entries : ∀ x ∈ ist.openList, x.2 ∈ ist.graph.idsOf
  goalIn : idx gstate ∈ ist.graph.idsOf

/-- One step of `IncSearch` simulates one step of the batch loop on the
pre-built graph `GB`: the scratch fields and open list evolve
identically, and the coupling invariant is preserved. -/
theorem incStep_sim {S : Type} [Inhabited S] {idx : S → ℤ} {nf : S → List (S × ℤ)}
    {hfun : S → S → ℤ} {univ : List S} {GB : SGraph S} {gstate : S}
    (hinj : Function.Injective idx)
    (hGBidx : IdxOk idx GB) (hGBcl : ClosedOk GB)
    (hGBadj : ∀ s ∈ univ, adjOf GB (idx s) = edgeFold idx (nf s))
    (hGBuniv : ∀ s ∈ univ, idx s ∈ GB.idsOf)
    (hGBgoal : idx gstate ∈ GB.idsOf)
    (hclose : ∀ s ∈ univ, ∀ p ∈ nf s, p.1 ∈ univ)
    {ist : IncSt S} (hI : C2Inv idx univ GB gstate ist) :
    (∃ ist1, incStep idx nf hfun (idx gstate) ist = StepRes.cont ist1 ∧
      batchStep GB (hqOf hfun GB (idx gstate)) (idx gstate)
        ⟨ist.scr, ist.openList⟩ = StepRes.cont ⟨ist1.scr, ist1.openList⟩ ∧
      C2Inv idx univ GB gstate ist1) ∨
    (∃ ist1, incStep idx nf hfun (idx gstate) ist = StepRes.found ist1 ∧
      batchStep GB (hqOf hfun GB (idx gstate)) (idx gstate)
        ⟨ist.scr, ist.openList⟩ = StepRes.found ⟨ist1.scr, ist1.openList⟩ ∧
      C2Inv idx univ GB gstate ist1) ∨
    (incStep idx nf hfun (idx gstate) ist = StepRes.exhausted ist ∧
      batchStep GB (hqOf hfun GB (idx gstate)) (idx gstate)
        ⟨ist.scr, ist.openList⟩ = StepRes.exhausted ⟨ist.scr, ist.openList⟩) := by
  obtain ⟨g, sc, ol⟩ := ist
  obtain ⟨hnd, hidx, hcl, hsub, huniv, huadj, hcadj, hent, hgoalin⟩ := hI
  cases hpop : pqPop ol with
  | none =>
    exact Or.inr (Or.inr ⟨incStep_none_eq _ _ _ _ _ _ _ hpop,
      batchStep_none_eq _ _ _ _ _ hpop⟩)
  | some er =>
    obtain ⟨e, rest⟩ := er
    by_cases hchk : (sc e.2).isChecked = true
    · refine Or.inl ⟨⟨g, sc, rest⟩,
        incStep_skip_eq _ _ _ _ _ _ _ _ _ hpop hchk,
        batchStep_skip_eq _ _ _ _ _ _ _ hpop hchk,
        ⟨hnd, hidx, hcl, hsub, huniv, huadj, hcadj,
          fun x hx => hent x (pqPop_rest_subset hpop x hx), hgoalin⟩⟩
    · by_cases hgoal : e.2 = idx gstate
      · exact Or.inr (Or.inl ⟨⟨g, sc, rest⟩,
          incStep_found_eq _ _ _ _ _ _ _ _ _ hpop hchk hgoal,
          batchStep_found_eq _ _ _ _ _ _ _ hpop hchk hgoal,
          ⟨hnd, hidx, hcl, hsub, huniv, huadj, hcadj,
            fun x hx => hent x (pqPop_rest_subset hpop x hx), hgoalin⟩⟩)
      · have hchkf : (sc e.2).isChecked = false := by
          cases hcb : (sc e.2).isChecked
          · rfl
          · exact absurd hcb hchk
        have hu : e.2 ∈ g.idsOf := hent e (pqPop_mem hpop)
        obtain ⟨s, hsu2, hueq⟩ := huniv e.2 hu
        have hus : stateAt g e.2 = s := hinj (by rw [stateAt_idx hidx hu, hueq])
        have hG2idx : IdxOk idx (incG2 idx nf g e.2) := foldAddEdge_idxOk _ _ hidx
        have hG2cl : ClosedOk (incG2 idx nf g e.2) := foldAddEdge_closedOk _ _ hcl
        have hG2nd : (incG2 idx nf g e.2).idsOf.Nodup := foldAddEdge_nodup _ _ hnd
        have hG2mem : ∀ u2 ∈ g.idsOf, u2 ∈ (incG2 idx nf g e.2).idsOf :=
          fun u2 h2 => foldAddEdge_mem_mono _ _ h2
        have hadjg : adjOf g e.2 = [] := huadj e.2 hchkf
        have hadjG2 : adjOf (incG2 idx nf g e.2) e.2 = adjOf GB e.2 := by
          have h1 : adjOf (incG2 idx nf g e.2) (idx (stateAt g e.2)) =
              (nf (stateAt g e.2)).foldl
                (fun es p => upsertEdge es (idx p.1) p.2)
                (adjOf g (idx (stateAt g e.2))) := foldAddEdge_adj_self _ _
          rw [hus, ← hueq, hadjg] at h1
          rw [h1, hueq, hGBadj s hsu2]
          rfl
        have hadjO : ∀ v, v ≠ e.2 → adjOf (incG2 idx nf g e.2) v = adjOf g v := by
          intro v hv
          exact foldAddEdge_adj_other (by rw [hus, ← hueq]; exact hv) _ _
        have hgoalG2 : idx gstate ∈ (incG2 idx nf g e.2).idsOf := hG2mem _ hgoalin
        have hqeq : ∀ e2 ∈ adjOf GB e.2,
            hqOf hfun (incG2 idx nf g e.2) (idx gstate) e2.1 =
              hqOf hfun GB (idx gstate) e2.1 := by
          intro e2 he2
          have ht1 : e2.1 ∈ GB.idsOf := adjOf_targets hGBcl e2 he2
          have ht2 : e2.1 ∈ (incG2 idx nf g e.2).idsOf := by
            have he2b : e2 ∈ adjOf (incG2 idx nf g e.2) e.2 := by
              rw [hadjG2]; exact he2
            exact adjOf_targets hG2cl e2 he2b
          unfold hqOf
          rw [states_agree hinj hG2idx hGBidx ht2 ht1,
            states_agree hinj hG2idx hGBidx hgoalG2 hGBgoal]
        have hexp : expand (adjOf (incG2 idx nf g e.2) e.2)
            (hqOf hfun (incG2 idx nf g e.2) (idx gstate)) e.2 ⟨sc, rest⟩ =
            expand (adjOf GB e.2) (hqOf hfun GB (idx gstate)) e.2 ⟨sc, rest⟩ := by
          rw [hadjG2]
          exact expand_hq_congr hqeq _
        have hlschk_ne : ∀ v, v ≠ e.2 →
            ((expand (adjOf GB e.2) (hqOf hfun GB (idx gstate)) e.2
              ⟨sc, rest⟩).scr v).isChecked = (sc v).isChecked := by
          intro v hv
          rw [expand_eq_mark, foldRelax_isChecked, markSt_scr_ne hv]
        have hlschk_self : ((expand (adjOf GB e.2) (hqOf hfun GB (idx gstate)) e.2
            ⟨sc, rest⟩).scr e.2).isChecked = true := by
          rw [expand_eq_mark, foldRelax_isChecked, markSt_scr_self]
        refine Or.inl ⟨⟨incG2 idx nf g e.2,
          (expand (adjOf GB e.2) (hqOf hfun GB (idx gstate)) e.2 ⟨sc, rest⟩).scr,
          (expand (adjOf GB e.2) (hqOf hfun GB (idx gstate)) e.2
            ⟨sc, rest⟩).openList⟩, ?_, ?_, ?_⟩
        · rw [incStep_expand_eq idx nf hfun (idx gstate) g sc ol e rest hpop hchk
            hgoal, hexp]
        · rw [batchStep_expand_eq GB (hqOf hfun GB (idx gstate)) (idx gstate)
            sc ol e rest hpop hchk hgoal]
        · refine ⟨hG2nd, hG2idx, hG2cl, ?_, ?_, ?_, ?_, ?_, hgoalG2⟩
          · intro u2 hu2
            rcases foldAddEdge_ids_sub _ _ u2 hu2 with h2 | h2 | ⟨p, hp, h2⟩
            · exact hsub u2 h2
            · rw [h2, hus, ← hueq]
              exact hsub e.2 hu
            · rw [h2]
              exact hGBuniv _ (hclose s hsu2 p (hus ▸ hp))
          · intro u2 hu2
            rcases foldAddEdge_ids_sub _ _ u2 hu2 with h2 | h2 | ⟨p, hp, h2⟩
            · exact huniv u2 h2
            · exact ⟨s, hsu2, by rw [h2, hus]⟩
            · exact ⟨p.1, hclose s hsu2 p (hus ▸ hp), h2⟩
          · intro v hv
            have hv' : ((expand (adjOf GB e.2) (hqOf hfun GB (idx gstate)) e.2
                ⟨sc, rest⟩).scr v).isChecked = false := hv
            have hvne : v ≠ e.2 := by
              intro hveq
              rw [hveq, hlschk_self] at hv'
              cases hv'
            rw [hlschk_ne v hvne] at hv'
            have hadjv : adjOf (incG2 idx nf g e.2) v = adjOf g v := hadjO v hvne
            show adjOf (incG2 idx nf g e.2) v = []
            rw [hadjv]
            exact huadj v hv'
          · intro v hv
            have hv' : ((expand (adjOf GB e.2) (hqOf hfun GB (idx gstate)) e.2
                ⟨sc, rest⟩).scr v).isChecked = true := hv
            by_cases hveq : v = e.2
            · constructor
              · show adjOf (incG2 idx nf g e.2) v = adjOf GB v
                rw [hveq]
                exact hadjG2
              · show v ∈ (incG2 idx nf g e.2).idsOf
                rw [hveq]
                exact hG2mem _ hu
            · have hscv : (sc v).isChecked = true := by
                rw [← hlschk_ne v hveq]
                exact hv'
              obtain ⟨hA, hB⟩ := hcadj v hscv
              constructor
              · show adjOf (incG2 idx nf g e.2) v = adjOf GB v
                rw [hadjO v hveq]
                exact hA
              · exact hG2mem v hB
          · intro x hx
            have hx' : x ∈ (expand (adjOf GB e.2) (hqOf hfun GB (idx gstate)) e.2
                (⟨sc, rest⟩ : LoopSt)).openList := hx
            rw [expand_eq_mark] at hx'
            rcases foldRelax_open_targets _ _ _ hx' with hm | ⟨e2, he2, hxe⟩
            · have hm2 : x ∈ rest := hm
              exact hG2mem _ (hent x (pqPop_rest_subset hpop x hm2))
            · have he2b : e2 ∈ adjOf (incG2 idx nf g e.2) e.2 := by
                rw [hadjG2]; exact he2
              show x.2 ∈ (incG2 idx nf g e.2).idsOf
              rw [hxe]
              exact adjOf_targets hG2cl e2 he2b

/-- The whole incremental main loop simulates the batch main loop on the
pre-built graph, fuel for fuel: either both run out of fuel, or both
return the same flag with identical scratch state and open list. -/
theorem runInc_sim {S : Type} [Inhabited S] {idx : S → ℤ} {nf : S → List (S × ℤ)}
    {hfun : S → S → ℤ} {univ : List S} {GB : SGraph S} {gstate : S}
    (hinj : Function.Injective idx)
    (hGBidx : IdxOk idx GB) (hGBcl : ClosedOk GB)
    (hGBadj : ∀ s ∈ univ, adjOf GB (idx s) = edgeFold idx (nf s))
    (hGBuniv : ∀ s ∈ univ, idx s ∈ GB.idsOf)
    (hGBgoal : idx gstate ∈ GB.idsOf)
    (hclose : ∀ s ∈ univ, ∀ p ∈ nf s, p.1 ∈ univ) :
    ∀ (fuel : Nat) (ist : IncSt S), C2Inv idx univ GB gstate ist →
      (runInc idx nf hfun (idx gstate) fuel ist = none ∧
        runBatch GB (hqOf hfun GB (idx gstate)) (idx gstate) fuel
          ⟨ist.scr, ist.openList⟩ = none) ∨
      ∃ b ist1, runInc idx nf hfun (idx gstate) fuel ist = some (b, ist1) ∧
        runBatch GB (hqOf hfun GB (idx gstate)) (idx gstate) fuel
          ⟨ist.scr, ist.openList⟩ = some (b, ⟨ist1.scr, ist1.openList⟩) ∧
        C2Inv idx univ GB gstate ist1 := by
  intro fuel
  induction fuel with
  | zero => intro ist hI; exact Or.inl ⟨rfl, rfl⟩
  | succ n ih =>
    intro ist hI
    rcases incStep_sim hinj hGBidx hGBcl hGBadj hGBuniv hGBgoal hclose hI with
      ⟨ist1, hstep, hbstep, hI1⟩ | ⟨ist1, hstep, hbstep, hI1⟩ | ⟨hstep, hbstep⟩
    · rw [runInc_succ, hstep, runBatch_succ, hbstep]
      dsimp only
      exact ih ist1 hI1
    · rw [runInc_succ, hstep, runBatch_succ, hbstep]
      dsimp only
      exact Or.inr ⟨true, ist1, rfl, rfl, hI1⟩
    · rw [runInc_succ, hstep, runBatch_succ, hbstep]
      dsimp only
      exact Or.inr ⟨false, ist, rfl, rfl, hI⟩

/-- The batch loop's result is stable under extra fuel. -/
theorem runBatch_mono {S : Type} (G : SGraph S) (hq : ℤ → ℤ) (goalId : ℤ) :
    ∀ (n : Nat) (st : LoopSt) (r : Bool × LoopSt),
      runBatch G hq goalId n st = some r →
      runBatch G hq goalId (n + 1) st = some r := by
  intro n
  induction n with
  | zero => intro st r h; cases h
  | succ m ih =>
    intro st r h
    rw [runBatch_succ] at h
    rw [runBatch_succ]
    cases hstep : batchStep G hq goalId st with
    | found st1 => rw [hstep] at h; exact h
    | exhausted st1 => rw [hstep] at h; exact h
    | cont st1 =>
      rw [hstep] at h
      dsimp only at h ⊢
      exact ih st1 r h

theorem runBatch_le_mono {S : Type} (G : SGraph S) (hq : ℤ → ℤ) (goalId : ℤ)
    {n m : Nat} (hnm : n ≤ m) (st : LoopSt) (r : Bool × LoopSt)
    (h : runBatch G hq goalId n st = some r) :
    runBatch G hq goalId m st = some r := by
  induction hnm with
  | refl => exact h
  | step h2 ih => exact runBatch_mono G hq goalId _ st r ih

/-- From the standard initial state, the batch loop always terminates
within the canonical fuel, and on success the goal vertex carries a
parent chain. -/
theorem runBatch_init_spec {S : Type} (G : SGraph S) (hq : ℤ → ℤ)
    (startId goalId : ℤ) (hwf : WellFormed G) (hsm : startId ∈ G.idsOf) :
    ∃ b stf, runBatch G hq goalId (edgeCount G + 2) (initLoopSt startId) =
        some (b, stf) ∧
      (b = true → ∃ p, PChain G startId stf.scr goalId p) := by
  by_cases hA : startId = goalId
  · refine ⟨true, { initLoopSt startId with openList := [] }, ?_, ?_⟩
    · show runBatch G hq goalId (edgeCount G + 1 + 1) (initLoopSt startId) = _
      rw [runBatch_succ, first_step_found G hq hA]
    · intro _
      refine ⟨[goalId], ?_⟩
      rw [← hA]
      have h1 : (({ initLoopSt startId with openList := [] } : LoopSt).scr
          startId).gCost = 0 := by
        show ((initLoopSt startId).scr startId).gCost = 0
        rw [initLoopSt_scr_start]
      have h2 : (({ initLoopSt startId with openList := [] } : LoopSt).scr
          startId).parent = none := by
        show ((initLoopSt startId).scr startId).parent = none
        rw [initLoopSt_scr_start]
        rfl
      exact PChain.base h1 h2 hsm
  · have hstep := first_step_expand G hq hA
    have hB2 := first_expand_invB G hq hA hsm
    have hm0 : measureOf G (initLoopSt startId) ≤ edgeCount G + 1 :=
      measureOf_init G startId
    have hdec : measureOf G (expand (adjOf G startId) hq startId
        { initLoopSt startId with openList := [] }) <
        measureOf G (initLoopSt startId) :=
      @measure_expand S G hq (initLoopSt startId) ((0 : ℤ), startId)
        [] (pqPop_single _) (initLoopSt_unchecked startId startId)
    have hm2 : measureOf G (expand (adjOf G startId) hq startId
        { initLoopSt startId with openList := [] }) < edgeCount G + 1 := by omega
    obtain ⟨b, stf, hrun, hfound, hexh⟩ :=
      @runBatch_masterB S G hq startId goalId hwf.1 (edgeCount G + 1) _ hB2 hm2
    refine ⟨b, stf, ?_, ?_⟩
    · show runBatch G hq goalId (edgeCount G + 1 + 1) (initLoopSt startId) = _
      rw [runBatch_succ, hstep]
      exact hrun
    · intro hb
      obtain ⟨_, p, hp⟩ := hfound hb
      exact ⟨p, hp⟩

/-- **C2**: `IncSearch` run with a neighbour function returns the same
path of states as batch-mode `Search` on the pre-built graph holding
exactly the vertices and edges the neighbour function describes over a
finite state universe (closed under the neighbour function, with an
injective indexer), for every sufficient fuel. -/
theorem incSearch_refines_batch {S : Type} [Inhabited S] (idx : S → ℤ)
    (nf : S → List (S × ℤ)) (hfun : S → S → ℤ) (sstate gstate : S)
    (univ : List S) (hinj : Function.Injective idx) (hnd : univ.Nodup)
    (hsu : sstate ∈ univ) (hgu : gstate ∈ univ)
    (hclose : ∀ s ∈ univ, ∀ p ∈ nf s, p.1 ∈ univ) (fuel : Nat)
    (hfuel : edgeCount (materialize idx nf sstate gstate univ) + 2 ≤ fuel) :
    incSearch idx nf hfun sstate gstate fuel =
      search (materialize idx nf sstate gstate univ) hfun
        (idx sstate) (idx gstate) := by
  have hGBidx : IdxOk idx (materialize idx nf sstate gstate univ) := by
    rw [materialize_eq]
    exact matFold_idxOk _ _ (addVertex_idxOk (addVertex_idxOk
      (fun vx hvx => absurd hvx (List.not_mem_nil _))))
  have hGBcl : ClosedOk (materialize idx nf sstate gstate univ) := by
    rw [materialize_eq]
    exact matFold_closedOk _ _ (addVertex_closedOk (addVertex_closedOk
      (fun vx hvx => absurd hvx (List.not_mem_nil _))))
  have hGBnd : (materialize idx nf sstate gstate univ).idsOf.Nodup := by
    rw [materialize_eq]
    exact matFold_nodup _ _ (addVertex_nodup (addVertex_nodup List.nodup_nil))
  have hGBuniv : ∀ s ∈ univ,
      idx s ∈ (materialize idx nf sstate gstate univ).idsOf := by
    intro s hs
    rw [materialize_eq]
    exact matFold_present _ _ s hs
  have hGBgoal := hGBuniv gstate hgu
  have hGBstart := hGBuniv sstate hsu
  have hGBadj : ∀ s ∈ univ,
      adjOf (materialize idx nf sstate gstate univ) (idx s) =
        edgeFold idx (nf s) := by
    intro s hs
    rw [materialize_eq]
    refine matFold_adj hinj univ _ s hnd hs ?_
    rw [adjOf_addVertex, adjOf_addVertex]
    rfl
  have hI0 : C2Inv idx univ (materialize idx nf sstate gstate univ) gstate
      ⟨(addVertex idx (addVertex idx (SGraph.empty S) sstate).1 gstate).1,
        Function.update (fun _ => Scratch.init) (idx sstate)
          { Scratch.init with isInOpen := true, gCost := 0 },
        [((0 : ℤ), idx sstate)]⟩ := by
    refine ⟨?_, ?_, ?_, ?_, ?_, ?_, ?_, ?_, ?_⟩
    · exact addVertex_nodup (addVertex_nodup List.nodup_nil)
    · exact addVertex_idxOk (addVertex_idxOk
        (fun vx hvx => absurd hvx (List.not_mem_nil _)))
    · exact addVertex_closedOk (addVertex_closedOk
        (fun vx hvx => absurd hvx (List.not_mem_nil _)))
    · intro u hu
      rcases addVertex_ids_sub hu with h2 | h2
      · rcases addVertex_ids_sub h2 with h3 | h3
        · exact absurd h3 (List.not_mem_nil _)
        · rw [h3]; exact hGBstart
      · rw [h2]; exact hGBgoal
    · intro u hu
      rcases addVertex_ids_sub hu with h2 | h2
      · rcases addVertex_ids_sub h2 with h3 | h3
        · exact absurd h3 (List.not_mem_nil _)
        · exact ⟨sstate, hsu, h3⟩
      · exact ⟨gstate, hgu, h2⟩
    · intro v _
      show adjOf (addVertex idx (addVertex idx (SGraph.empty S) sstate).1
        gstate).1 v = []
      rw [adjOf_addVertex, adjOf_addVertex]
      rfl
    · intro v hv
      have hv' : ((Function.update (fun _ => Scratch.init) (idx sstate)
          { Scratch.init with isInOpen := true, gCost := 0 } : ℤ → Scratch)
            v).isChecked = true := hv
      have hf : ((Function.update (fun _ => Scratch.init) (idx sstate)
          { Scratch.init with isInOpen := true, gCost := 0 } : ℤ → Scratch)
            v).isChecked = false := initLoopSt_unchecked (idx sstate) v
      rw [hf] at hv'
      cases hv'
    · intro x hx
      have hx' : x ∈ [((0 : ℤ), idx sstate)] := hx
      rw [List.mem_singleton] at hx'
      rw [hx']
      exact addVertex_mem_mono (addVertex_mem idx (SGraph.empty S) sstate)
    · exact addVertex_mem idx (addVertex idx (SGraph.empty S) sstate).1 gstate
  obtain ⟨b0, stf0, hrun0, hchain0⟩ :=
    runBatch_init_spec (materialize idx nf sstate gstate univ)
      (hqOf hfun (materialize idx nf sstate gstate univ) (idx gstate))
      (idx sstate) (idx gstate) ⟨hGBnd, hGBcl⟩ hGBstart
  have hrunF : runBatch (materialize idx nf sstate gstate univ)
      (hqOf hfun (materialize idx nf sstate gstate univ) (idx gstate))
      (idx gstate) fuel (initLoopSt (idx sstate)) = some (b0, stf0) :=
    runBatch_le_mono _ _ _ hfuel _ _ hrun0
  rcases runInc_sim hinj hGBidx hGBcl hGBadj hGBuniv hGBgoal hclose fuel
      ⟨(addVertex idx (addVertex idx (SGraph.empty S) sstate).1 gstate).1,
        Function.update (fun _ => Scratch.init) (idx sstate)
          { Scratch.init with isInOpen := true, gCost := 0 },
        [((0 : ℤ), idx sstate)]⟩ hI0 with
    ⟨hnone, hbnone⟩ | ⟨b, ist1, hri, hrb, hI1⟩
  · exfalso
    have hbnone' : runBatch (materialize idx nf sstate gstate univ)
        (hqOf hfun (materialize idx nf sstate gstate univ) (idx gstate))
        (idx gstate) fuel (initLoopSt (idx sstate)) = none := hbnone
    rw [hrunF] at hbnone'
    cases hbnone'
  · have hrb' : runBatch (materialize idx nf sstate gstate univ)
        (hqOf hfun (materialize idx nf sstate gstate univ) (idx gstate))
        (idx gstate) fuel (initLoopSt (idx sstate)) =
        some (b, ⟨ist1.scr, ist1.openList⟩) := hrb
    rw [hrunF] at hrb'
    have heq : (b0, stf0) = ((b, ⟨ist1.scr, ist1.openList⟩) :
        Bool × LoopSt) := Option.some.inj hrb'
    have hb0 : b0 = b := by rw [Prod.ext_iff] at heq; exact heq.1
    have hstf : stf0 = ⟨ist1.scr, ist1.openList⟩ := by
      rw [Prod.ext_iff] at heq; exact heq.2
    subst hb0
    subst hstf
    have hs : search (materialize idx nf sstate gstate univ) hfun
        (idx sstate) (idx gstate) =
        ((performSearch (materialize idx nf sstate gstate univ)
          (fun i => hfun (stateAt (materialize idx nf sstate gstate univ) i)
            (stateAt (materialize idx nf sstate gstate univ) (idx gstate)))
          (idx sstate) (idx gstate)).1).map
          (stateAt (materialize idx nf sstate gstate univ)) := by
      unfold search
      rw [searchFull_of_present _ hfun _ _ hGBstart hGBgoal]
    have hrf : runBatch (materialize idx nf sstate gstate univ)
        (fun i => hfun (stateAt (materialize idx nf sstate gstate univ) i)
          (stateAt (materialize idx nf sstate gstate univ) (idx gstate)))
        (idx gstate) (edgeCount (materialize idx nf sstate gstate univ) + 2)
        (initLoopSt (idx sstate)) = some (b0, ⟨ist1.scr, ist1.openList⟩) := hrun0
    unfold incSearch
    simp only [addVertex_snd]
    rw [hri, hs]
    unfold performSearch
    rw [hrf]
    cases b0 with
    | false => rfl
    | true =>
      obtain ⟨p, hp⟩ := hchain0 rfl
      have hp' : PChain (materialize idx nf sstate gstate univ) (idx sstate)
          ist1.scr (idx gstate) p := hp
      have hmem : ∀ z ∈ p, z ∈ ist1.graph.idsOf := by
        intro z hz
        rcases PChain_elem_cases hp' z hz with hzg | hzc
        · rw [hzg]; exact hI1.goalIn
        · exact (hI1.checkedAdj z hzc).2
      have hsubperm : List.Subperm p ist1.graph.idsOf :=
        List.Nodup.subperm (PChain_nodup hp') hmem
      have hlen2 : p.length ≤ ist1.graph.vertexCount + 1 := by
        have h1 : p.length ≤ ist1.graph.idsOf.length := hsubperm.length_le
        have h2 : ist1.graph.idsOf.length = ist1.graph.vertexCount := by
          simp [SGraph.idsOf, SGraph.vertexCount]
        omega
      have hlenGB : p.length ≤
          (materialize idx nf sstate gstate univ).vertexCount + 1 :=
        Nat.le_succ_of_le (chain_len_le ⟨hGBnd, hGBcl⟩ hp')
      show ((reconChain ist1.scr (idx sstate) (ist1.graph.vertexCount)
          (idx gstate)).reverse).map (stateAt ist1.graph) =
        ((reconChain ist1.scr (idx sstate)
          ((materialize idx nf sstate gstate univ).vertexCount)
          (idx gstate)).reverse).map
          (stateAt (materialize idx nf sstate gstate univ))
      rw [recon_of_chain hp' ist1.graph.vertexCount hlen2,
        recon_of_chain hp'
          ((materialize idx nf sstate gstate univ).vertexCount) hlenGB,
        List.reverse_reverse]
      apply List.map_congr_left
      intro z hz
      exact states_agree hinj hI1.idxOk hGBidx (hmem z hz)
        (hI1.idsSub z (hmem z hz))

/-- Concrete neighbour function used as witness input for the refinement
theorem: one edge from state `1` to state `2` of cost `3`. -/
def c2nf : ℤ → List (ℤ × ℤ) := fun s => if s = 1 then [(2, 3)] else []

theorem c2_witness :
    ([(1 : ℤ), 2].Nodup ∧ (1 : ℤ) ∈ [(1 : ℤ), 2] ∧ (2 : ℤ) ∈ [(1 : ℤ), 2] ∧
      (∀ s ∈ [(1 : ℤ), 2], ∀ p ∈ c2nf s, p.1 ∈ [(1 : ℤ), 2]) ∧
      edgeCount (materialize (fun s : ℤ => s) c2nf 1 2 [1, 2]) + 2 ≤ 5) ∧
    incSearch (fun s : ℤ => s) c2nf (fun _ _ => 0) 1 2 5 =
      search (materialize (fun s : ℤ => s) c2nf 1 2 [1, 2]) (fun _ _ => 0) 1 2 :=
  ⟨by decide,
    incSearch_refines_batch (fun s : ℤ => s) c2nf (fun _ _ => 0) 1 2 [1, 2]
      (fun a b h => h) (by decide) (by decide) (by decide) (by decide) 5
      (by decide)⟩

end AStarSearch
